import Mathlib

/-!
# Verification of the `kyte` operational-transformation core

This file is a shallow embedding of the `kyte` Rust crate (files
`src/op.rs`, `src/ops.rs`, `src/delta.rs`, `src/iter.rs`, `src/compose.rs`,
`src/transform.rs`, `src/seq.rs`) together with proofs and refutations of the
specification's claims about it.

Modelling conventions:

* An element sequence (`T : Seq` in Rust; `String` iterated as Unicode
  scalar values, or `Vec<T>`) is modelled as `List α`.  A Rust `char` is a
  Unicode scalar value, as is a Lean `Char`, so `String` is `List Char`.
* Attributes (`A`) are a type `β`; the optional attribute slot of an op is
  `Option β`.  The attribute algebra `Compose` is a parameter
  `acomp : β → β → β`.
* `usize` counts are modelled as `Nat`; the places where the Rust code uses
  wrapping arithmetic (`overflowing_add` in `Delta::push`) take an explicit
  `% 2 ^ 64`.  `usizeMax` is `usize::MAX`.
* `Delta` stores its op list in reverse order (`rev`), so that `Delta::push`,
  which inspects `self.ops.last_mut()`, becomes structural recursion on the
  head.  `Delta.ops` recovers the Rust-side order.
* The dual-cursor iterator (`Iter::zip_mut` with its one-op residual buffer)
  is modelled by keeping the residual of a split op as the head of the
  remaining op list; a residual whose length reached zero is dropped, exactly
  as `next_mut` skips a zero-length residual.  A zero-length op occurring in
  the underlying vector is handed to the combiner once, like in Rust.
* The positional transform performs `index - offset` on `usize`, which can
  overflow; the embedding returns `Option Nat`, with `none` for the
  executions that overflow in Rust (a panic in debug builds).
-/

/-- `usize::MAX` for the 64-bit targets the crate is built for. -/
def usizeMax : Nat := 2 ^ 64 - 1

/-- `Op<T, A>` from `src/op.rs`: one insert, retain or delete operation.
`insert` carries the inserted sequence (`Insert::insert`) and the optional
attributes (`Insert::attributes`); `retain` and `delete` carry counts. -/
inductive Op (α β : Type) where
  | insert (value : List α) (attributes : Option β)
  | retain (count : Nat) (attributes : Option β)
  | delete (count : Nat)
  deriving DecidableEq, Repr

namespace Op

/-- `Len` for `Op` (`src/op.rs`): the length of the inserted sequence for
`Insert` (for strings, `chars().count()`), the count for `Retain`/`Delete`. -/
def len {α β : Type} : Op α β → Nat
  | insert value _ => value.length
  | retain count _ => count
  | delete count => count

/-- `Insert::as_retain` (`src/ops.rs`): a retain of the insert's length with
absent attributes, whatever the insert's own attributes are. -/
def asRetain {α β : Type} (value : List α) (_attributes : Option β) : Op α β :=
  retain value.length none

/-- `Split for Op<T, A>` (`src/op.rs`): clamps the index by
`min(self.len(), len)` and splits off a prefix, returning
`(returned prefix, remaining suffix)`.  `Split for Insert` splits the value
element-wise via `iter().take`/`iter().skip` and clones the attributes into
both halves; `Split` for `Retain`/`Delete` splits the count. -/
def split {α β : Type} : Op α β → Nat → Op α β × Op α β
  | insert value attrs, k =>
      let m := min (value.length) k
      (insert (value.take m) attrs, insert (value.drop m) attrs)
  | retain count attrs, k =>
      let m := min count k
      (retain m attrs, retain (count - m) attrs)
  | delete count, k =>
      let m := min count k
      (delete m, delete (count - m))

end Op

/-- Pushing a delete onto the reversed op list: `Delta::push` specialised to a
`Delete` argument (the recursive call `self.push(delete)` in the
`Delete`/`Insert` swap case only ever pushes a delete, for which `push` does
not recurse again).  Mirrors the `Op::Delete` rows of `Delta::push`
(`src/delta.rs`), including the saturating `overflowing_add` merge. -/
def pushDel {α β : Type} (rev : List (Op α β)) (d : Nat) : List (Op α β) :=
  if d = 0 then rev
  else
    match rev with
    | [] => [Op.delete d]
    | Op.delete ld :: rest =>
        if ld + d ≤ usizeMax then Op.delete (ld + d) :: rest
        else Op.delete ((ld + d) % 2 ^ 64 + 1) :: Op.delete usizeMax :: rest
    | _ => Op.delete d :: rev

/-- `Delta::push` (`src/delta.rs`) on the reversed op list.  Zero-length ops
are dropped; an op merges with the last one when both are inserts or both are
retains with equal attributes, or both are deletes (counts merge with the
saturating `overflowing_add` logic); pushing an insert after a delete pops the
delete, pushes the insert, then re-pushes the delete; otherwise append. -/
def pushRev {α β : Type} [DecidableEq β] (rev : List (Op α β)) (op : Op α β) :
    List (Op α β) :=
  if op.len = 0 then rev
  else
    match rev, op with
    | [], _ => [op]
    | Op.insert li la :: rest, Op.insert i a =>
        if la = a then Op.insert (li ++ i) la :: rest
        else Op.insert i a :: Op.insert li la :: rest
    | Op.retain lr la :: rest, Op.retain r a =>
        if la = a then
          if lr + r ≤ usizeMax then Op.retain (lr + r) la :: rest
          else Op.retain ((lr + r) % 2 ^ 64 + 1) a :: Op.retain usizeMax la :: rest
        else Op.retain r a :: Op.retain lr la :: rest
    | Op.delete ld :: rest, Op.insert i a =>
        pushDel (pushRev rest (Op.insert i a)) ld
    | Op.delete ld :: rest, Op.delete d =>
        if ld + d ≤ usizeMax then Op.delete (ld + d) :: rest
        else Op.delete ((ld + d) % 2 ^ 64 + 1) :: Op.delete usizeMax :: rest
    | last :: rest, _ => op :: last :: rest

/-- `Delta::chop` (`src/delta.rs`) on the reversed op list: pop trailing
retains whose attributes are absent. -/
def chopRev {α β : Type} : List (Op α β) → List (Op α β)
  | Op.retain _ none :: rest => chopRev rest
  | rev => rev

/-- `Delta<T, A>` (`src/delta.rs`).  The ops are stored in reverse order so
that `push`, which works on `self.ops.last_mut()`, is structural recursion. -/
structure Delta (α β : Type) where
  rev : List (Op α β)
  deriving DecidableEq, Repr

namespace Delta

variable {α β : Type}

/-- The op sequence in the Rust-side (document) order. -/
def ops (d : Delta α β) : List (Op α β) := d.rev.reverse

/-- `Delta::new`. -/
def new : Delta α β := ⟨[]⟩

/-- `Delta::push`. -/
def push [DecidableEq β] (d : Delta α β) (op : Op α β) : Delta α β :=
  ⟨pushRev d.rev op⟩

/-- `Delta::insert`: the builder passes `attributes.into()`. -/
def insert [DecidableEq β] (d : Delta α β) (value : List α)
    (attributes : Option β) : Delta α β :=
  d.push (Op.insert value attributes)

/-- `Delta::retain`. -/
def retain [DecidableEq β] (d : Delta α β) (count : Nat)
    (attributes : Option β) : Delta α β :=
  d.push (Op.retain count attributes)

/-- `Delta::delete`. -/
def delete [DecidableEq β] (d : Delta α β) (count : Nat) : Delta α β :=
  d.push (Op.delete count)

/-- `Extend for Delta`: push every op of the list in order. -/
def extend [DecidableEq β] (d : Delta α β) (l : List (Op α β)) : Delta α β :=
  l.foldl Delta.push d

/-- `Delta::chop`. -/
def chop (d : Delta α β) : Delta α β := ⟨chopRev d.rev⟩

end Delta

/-- `Compose<Option<T>> for Option<T>` (`src/compose.rs`): the optional lift
of the attribute algebra; absence is transparent. -/
def ocompose {β : Type} (acomp : β → β → β) : Option β → Option β → Option β
  | some lhs, some rhs => some (acomp lhs rhs)
  | some lhs, none => some lhs
  | none, some rhs => some rhs
  | none, none => none

/-- The residual of a split op goes back in front of the remaining ops; a
residual whose length reached zero is dropped, exactly as `Iter::next_mut`
(`src/iter.rs`) skips a zero-length buffered op. -/
def consOp {α β : Type} (op : Op α β) (l : List (Op α β)) : List (Op α β) :=
  if op.len = 0 then l else op :: l

theorem consOp_length {α β : Type} (op : Op α β) (l : List (Op α β)) :
    (consOp op l).length ≤ l.length + 1 := by
  unfold consOp
  split <;> simp

theorem consOp_length_of_zero {α β : Type} (op : Op α β) (l : List (Op α β))
    (h : op.len = 0) : (consOp op l).length = l.length := by
  simp [consOp, h]

/-- Each step of the dual-cursor walk drops at least one op from the two
streams: the splitting step always zeroes the shorter side's residual. -/
theorem consOp_sum_lt {α β : Type} {x y : Op α β} (as bs : List (Op α β))
    (h : x.len = 0 ∨ y.len = 0) :
    (consOp x as).length + (consOp y bs).length < as.length + 1 + (bs.length + 1) := by
  have hx := consOp_length x as
  have hy := consOp_length y bs
  rcases h with h | h
  · have := consOp_length_of_zero x as h
    omega
  · have := consOp_length_of_zero y bs h
    omega

/-- The `zip_mut` loop of `Compose<Delta> for Delta` (`src/compose.rs`),
fused with the 3×3 table of primitive `Compose` impls.  Arguments are the two
op streams (heads double as the iterators' residual buffers); the result is
`(emitted ops, leftover of self, leftover of rhs)`.  The loop stops as soon
as either stream is exhausted.

Table (`src/compose.rs`): whenever Bob's op is an `Insert` it is emitted
whole (`take(rhs)`) and Alice's op is left untouched; `Insert∘Retain` splits
both and emits the insert prefix with composed attributes; `Insert∘Delete`
splits both and emits `Delete::default()`; `Retain∘Retain` splits and emits a
retain with composed attributes; `Retain∘Delete` splits and emits the delete
prefix; `Delete∘Retain` and `Delete∘Delete` emit Alice's delete whole
(`take(self)`) and leave Bob's op untouched. -/
def composeList {α β : Type} (acomp : β → β → β) :
    List (Op α β) → List (Op α β) →
      List (Op α β) × List (Op α β) × List (Op α β)
  | [], l2 => ([], [], l2)
  | l1, [] => ([], l1, [])
  | a :: as, Op.insert i ia :: bs =>
      let t := composeList acomp (a :: as) bs
      (Op.insert i ia :: t.1, t.2)
  | Op.insert i ia :: as, Op.retain r ra :: bs =>
      let m := min i.length r
      let t := composeList acomp (consOp (Op.insert (i.drop m) ia) as)
        (consOp (Op.retain (r - m) ra) bs)
      (Op.insert (i.take m) (ocompose acomp ia ra) :: t.1, t.2)
  | Op.insert i ia :: as, Op.delete d :: bs =>
      let m := min i.length d
      let t := composeList acomp (consOp (Op.insert (i.drop m) ia) as)
        (consOp (Op.delete (d - m)) bs)
      (Op.delete 0 :: t.1, t.2)
  | Op.retain r1 a1 :: as, Op.retain r2 a2 :: bs =>
      let m := min r1 r2
      let t := composeList acomp (consOp (Op.retain (r1 - m) a1) as)
        (consOp (Op.retain (r2 - m) a2) bs)
      (Op.retain m (ocompose acomp a1 a2) :: t.1, t.2)
  | Op.retain r1 a1 :: as, Op.delete d :: bs =>
      let m := min r1 d
      let t := composeList acomp (consOp (Op.retain (r1 - m) a1) as)
        (consOp (Op.delete (d - m)) bs)
      (Op.delete m :: t.1, t.2)
  | Op.delete d1 :: as, Op.retain r2 a2 :: bs =>
      let t := composeList acomp as (Op.retain r2 a2 :: bs)
      (Op.delete d1 :: t.1, t.2)
  | Op.delete d1 :: as, Op.delete d2 :: bs =>
      let t := composeList acomp as (Op.delete d2 :: bs)
      (Op.delete d1 :: t.1, t.2)
  termination_by l1 l2 => l1.length + l2.length
  decreasing_by
  all_goals simp only [List.length_cons]
  all_goals first
    | omega
    | (apply consOp_sum_lt
       simp only [Op.len, List.length_drop]
       omega)

/-- `Compose<Delta<T, A>> for Delta<T, A>` (`src/compose.rs`): run the
`zip_mut` loop, push the emitted ops, then push both leftovers, then chop. -/
def Delta.compose {α β : Type} [DecidableEq β] (acomp : β → β → β)
    (d : Delta α β) (rhs : Delta α β) : Delta α β :=
  let t := composeList acomp d.ops rhs.ops
  (((Delta.new.extend t.1).extend t.2.1).extend t.2.2).chop

/-- `Retain::or` (`src/ops.rs`) acting on the attribute slots:
`self.attributes.or(other.attributes)`, the first present value. -/
def oor {β : Type} : Option β → Option β → Option β
  | some lhs, _ => some lhs
  | none, rhs => rhs

/-- The `zip_mut` loop of `Transform<Delta> for Delta` (`src/transform.rs`),
fused with the 3×3 table of primitive `Transform` impls.  `priority` is
Alice's priority.  The result is `(emitted ops, leftover of rhs)` — unlike
compose, the driver drains only Bob's leftover.

Table (`src/transform.rs`): `Insert` vs `Insert` emits
`take(self).as_retain()` under priority (consuming Alice's op only) and
`take(rhs)` otherwise (consuming Bob's op only); Alice's `Insert` against
`Retain`/`Delete` always becomes `as_retain` (absent attributes), consuming
Alice's op only; Bob's `Insert` against `Retain`/`Delete` is emitted whole,
consuming Bob's op only; `Retain`/`Retain` splits and keeps the
priority-ordered first present attribute (`or`); `Retain`/`Delete` splits and
emits the delete prefix; `Delete`/`Retain` and `Delete`/`Delete` split and
emit `Delete::default()`. -/
def transformList {α β : Type} (priority : Bool) :
    List (Op α β) → List (Op α β) → List (Op α β) × List (Op α β)
  | [], l2 => ([], l2)
  | _, [] => ([], [])
  | Op.insert i ia :: as, Op.insert j ja :: bs =>
      if priority then
        let t := transformList priority as (Op.insert j ja :: bs)
        (Op.asRetain i ia :: t.1, t.2)
      else
        let t := transformList priority (Op.insert i ia :: as) bs
        (Op.insert j ja :: t.1, t.2)
  | Op.insert i ia :: as, Op.retain r ra :: bs =>
      let t := transformList priority as (Op.retain r ra :: bs)
      (Op.asRetain i ia :: t.1, t.2)
  | Op.insert i ia :: as, Op.delete d :: bs =>
      let t := transformList priority as (Op.delete d :: bs)
      (Op.asRetain i ia :: t.1, t.2)
  | Op.retain r1 a1 :: as, Op.insert j ja :: bs =>
      let t := transformList priority (Op.retain r1 a1 :: as) bs
      (Op.insert j ja :: t.1, t.2)
  | Op.retain r1 a1 :: as, Op.retain r2 a2 :: bs =>
      let m := min r1 r2
      let t := transformList priority (consOp (Op.retain (r1 - m) a1) as)
        (consOp (Op.retain (r2 - m) a2) bs)
      (Op.retain m (if priority then oor a1 a2 else oor a2 a1) :: t.1, t.2)
  | Op.retain r1 a1 :: as, Op.delete d :: bs =>
      let m := min r1 d
      let t := transformList priority (consOp (Op.retain (r1 - m) a1) as)
        (consOp (Op.delete (d - m)) bs)
      (Op.delete m :: t.1, t.2)
  | Op.delete d1 :: as, Op.insert j ja :: bs =>
      let t := transformList priority (Op.delete d1 :: as) bs
      (Op.insert j ja :: t.1, t.2)
  | Op.delete d1 :: as, Op.retain r2 a2 :: bs =>
      let m := min d1 r2
      let t := transformList priority (consOp (Op.delete (d1 - m)) as)
        (consOp (Op.retain (r2 - m) a2) bs)
      (Op.delete 0 :: t.1, t.2)
  | Op.delete d1 :: as, Op.delete d2 :: bs =>
      let m := min d1 d2
      let t := transformList priority (consOp (Op.delete (d1 - m)) as)
        (consOp (Op.delete (d2 - m)) bs)
      (Op.delete 0 :: t.1, t.2)
  termination_by l1 l2 => l1.length + l2.length
  decreasing_by
  all_goals simp only [List.length_cons]
  all_goals first
    | omega
    | (apply consOp_sum_lt
       simp only [Op.len, List.length_drop]
       omega)

/-- `Transform<Delta<T, A>> for Delta<T, A>` (`src/transform.rs`): run the
`zip_mut` loop, push the emitted ops, push Bob's leftover only, then chop. -/
def Delta.transform {α β : Type} [DecidableEq β] (d : Delta α β)
    (rhs : Delta α β) (priority : Bool) : Delta α β :=
  let t := transformList priority d.ops rhs.ops
  ((Delta.new.extend t.1).extend t.2).chop

/-- The loop body of `Transform<usize> for &Delta<T, A>`
(`src/transform.rs`): `rhs` is the original index (the `break` guard compares
`offset` against it), `index` and `offset` are the mutable state.  The
`Delete` arm computes `index - offset` on `usize`, which overflows when
`offset > index`; that execution (a panic in debug builds) is modelled as
`none`.  The additions cannot exceed `usize` range only when the op lengths
do; additions that would exceed `usize::MAX` are likewise modelled as
`none`. -/
def transformIdxGo {α β : Type} (rhs : Nat) (priority : Bool) :
    List (Op α β) → Nat → Nat → Option Nat
  | [], index, _ => some index
  | op :: rest, index, offset =>
    if offset > rhs then some index
    else
      match op with
      | Op.insert v _ =>
          let index' := if offset < index ∨ priority = false then
            index + v.length else index
          if index' ≤ usizeMax ∧ offset + v.length ≤ usizeMax then
            transformIdxGo rhs priority rest index' (offset + v.length)
          else none
      | Op.retain n _ =>
          if offset + n ≤ usizeMax then
            transformIdxGo rhs priority rest index (offset + n)
          else none
      | Op.delete n =>
          if offset ≤ index then
            transformIdxGo rhs priority rest (index - min n (index - offset)) offset
          else none

/-- `Transform<usize> for &Delta<T, A>` (`src/transform.rs`): rebase a cursor
position through a delta.  Result `none` models a `usize` overflow (debug
panic) during the walk. -/
def Delta.transformIdx {α β : Type} (d : Delta α β) (rhs : Nat)
    (priority : Bool) : Option Nat :=
  transformIdxGo rhs priority d.ops rhs 0

/-! ## Canonical form

The invariants maintained by `Delta::push`, stated on the reversed op list.
`Op.bounded` records that Rust counts are `usize`-representable, which the
`Nat` embedding does not enforce by type. -/

/-- Counts fit in `usize` (automatic in Rust, a side condition here). -/
def Op.bounded {α β : Type} : Op α β → Prop
  | Op.insert _ _ => True
  | Op.retain count _ => count ≤ usizeMax
  | Op.delete count => count ≤ usizeMax

instance {α β : Type} (op : Op α β) : Decidable op.bounded := by
  cases op <;> simp only [Op.bounded] <;> infer_instance

/-- Adjacency invariant on the reversed list: `x` is the later op in document
order, `y` the one just before it.  A delete never directly precedes an
insert; adjacent inserts never have equal attributes; adjacent retains with
equal attributes (and adjacent deletes) occur only when the earlier op is
saturated at `usize::MAX` (the overflow spill in `Delta::push`). -/
def okPair {α β : Type} : Op α β → Op α β → Prop
  | Op.insert _ _, Op.delete _ => False
  | Op.insert _ a, Op.insert _ b => a ≠ b
  | Op.retain _ a, Op.retain c b => a = b → c = usizeMax
  | Op.delete _, Op.delete c => c = usizeMax
  | _, _ => True

instance {α β : Type} [DecidableEq β] (x y : Op α β) : Decidable (okPair x y) := by
  cases x <;> cases y <;> simp only [okPair] <;> infer_instance

/-- The canonical form guaranteed for every delta built through
`Delta::push`: no zero-length op, all counts `usize`-representable, and the
adjacency constraints of `okPair`. -/
def CanonRev {α β : Type} (rev : List (Op α β)) : Prop :=
  (∀ op ∈ rev, 0 < op.len ∧ op.bounded) ∧ List.Chain' okPair rev

instance {α β : Type} [DecidableEq β] (rev : List (Op α β)) :
    Decidable (CanonRev rev) := by
  unfold CanonRev
  infer_instance

theorem canonRev_nil {α β : Type} : CanonRev ([] : List (Op α β)) := by
  constructor
  · intro op h
    cases h
  · exact List.chain'_nil

theorem CanonRev.tail {α β : Type} {x : Op α β} {rest : List (Op α β)}
    (h : CanonRev (x :: rest)) : CanonRev rest := by
  obtain ⟨hmem, hchain⟩ := h
  exact ⟨fun op hop => hmem op (List.mem_cons_of_mem _ hop), hchain.tail⟩

theorem CanonRev.head_ok {α β : Type} {x : Op α β} {rest : List (Op α β)}
    (h : CanonRev (x :: rest)) : 0 < x.len ∧ x.bounded :=
  h.1 x (List.mem_cons_self x rest)

theorem CanonRev.head_pair {α β : Type} {x : Op α β} {rest : List (Op α β)}
    (h : CanonRev (x :: rest)) : ∀ y ∈ rest.head?, okPair x y :=
  (List.chain'_cons'.mp h.2).1

theorem canonRev_cons {α β : Type} {x : Op α β} {rest : List (Op α β)}
    (hx : 0 < x.len ∧ x.bounded) (hhead : ∀ y ∈ rest.head?, okPair x y)
    (h : CanonRev rest) : CanonRev (x :: rest) := by
  refine ⟨?_, List.chain'_cons'.mpr ⟨hhead, h.2⟩⟩
  intro op hop
  rcases List.mem_cons.mp hop with rfl | hop
  · exact hx
  · exact h.1 op hop

/-- `okPair` with an insert on the later side ignores the inserted value. -/
theorem okPair_congr_insert {α β : Type} {y : Op α β} {v v' : List α}
    {a : Option β} (h : okPair (Op.insert v a) y) : okPair (Op.insert v' a) y := by
  cases y <;> simp_all [okPair]

/-- `okPair` with a retain on the later side ignores the retain count. -/
theorem okPair_congr_retain {α β : Type} {y : Op α β} {c c' : Nat}
    {a : Option β} (h : okPair (Op.retain c a) y) : okPair (Op.retain c' a) y := by
  cases y <;> simp_all [okPair]

/-- `okPair` with a delete on the later side ignores the delete count. -/
theorem okPair_congr_delete {α β : Type} {y : Op α β} {c c' : Nat}
    (h : okPair (Op.delete c) y) : okPair (Op.delete c') y := by
  cases y <;> simp_all [okPair]

/-- Pushing a delete preserves the canonical form. -/
theorem canonRev_pushDel {α β : Type} {rev : List (Op α β)} {d : Nat}
    (h : CanonRev rev) (hd : d ≤ usizeMax) : CanonRev (pushDel rev d) := by
  by_cases hd0 : d = 0
  · simpa [pushDel, hd0] using h
  match rev with
  | [] =>
      simp only [pushDel, if_neg hd0]
      refine canonRev_cons ?_ ?_ canonRev_nil
      · constructor
        · simpa [Op.len] using Nat.pos_of_ne_zero hd0
        · simpa [Op.bounded] using hd
      · intro y hy
        simp at hy
  | Op.delete ld :: rest =>
      have hld := h.head_ok
      simp only [Op.len, Op.bounded] at hld
      by_cases hsum : ld + d ≤ usizeMax
      · simp only [pushDel, if_neg hd0, if_pos hsum]
        refine canonRev_cons ?_ ?_ h.tail
        · exact ⟨by simp [Op.len]; omega, by simpa [Op.bounded] using hsum⟩
        · intro y hy
          exact okPair_congr_delete (h.head_pair y hy)
      · simp only [pushDel, if_neg hd0, if_neg hsum]
        refine canonRev_cons ?_ ?_ (canonRev_cons ?_ ?_ h.tail)
        · refine ⟨by simp [Op.len], ?_⟩
          simp only [Op.bounded, usizeMax] at *
          omega
        · intro y hy
          simp only [List.head?_cons, Option.mem_def, Option.some.injEq] at hy
          subst hy
          simp [okPair]
        · exact ⟨by simp [Op.len, usizeMax], by simp [Op.bounded]⟩
        · intro y hy
          exact okPair_congr_delete (h.head_pair y hy)
  | Op.insert li la :: rest =>
      simp only [pushDel, if_neg hd0]
      refine canonRev_cons ?_ ?_ h
      · constructor
        · simpa [Op.len] using Nat.pos_of_ne_zero hd0
        · simpa [Op.bounded] using hd
      · intro y hy
        simp only [List.head?_cons, Option.mem_def, Option.some.injEq] at hy
        subst hy
        simp [okPair]
  | Op.retain lr lra :: rest =>
      simp only [pushDel, if_neg hd0]
      refine canonRev_cons ?_ ?_ h
      · constructor
        · simpa [Op.len] using Nat.pos_of_ne_zero hd0
        · simpa [Op.bounded] using hd
      · intro y hy
        simp only [List.head?_cons, Option.mem_def, Option.some.injEq] at hy
        subst hy
        simp [okPair]

/-! ### Reduction lemmas for `pushDel` and `pushRev`

One equation per branch of `Delta::push`, used both in the canonical-form
proofs and when evaluating concrete deltas. -/

theorem pushDel_zero {α β : Type} (rev : List (Op α β)) : pushDel rev 0 = rev := by
  simp [pushDel]

theorem pushDel_nil {α β : Type} {d : Nat} (hd : d ≠ 0) :
    pushDel ([] : List (Op α β)) d = [Op.delete d] := by
  simp [pushDel, hd]

theorem pushDel_del_merge {α β : Type} {ld d : Nat} (rest : List (Op α β))
    (hd : d ≠ 0) (hs : ld + d ≤ usizeMax) :
    pushDel (Op.delete ld :: rest) d = Op.delete (ld + d) :: rest := by
  simp [pushDel, hd, hs]

theorem pushDel_del_over {α β : Type} {ld d : Nat} (rest : List (Op α β))
    (hd : d ≠ 0) (hs : ¬ld + d ≤ usizeMax) :
    pushDel (Op.delete ld :: rest) d =
      Op.delete ((ld + d) % 2 ^ 64 + 1) :: Op.delete usizeMax :: rest := by
  simp [pushDel, hd, hs]

theorem pushDel_ins {α β : Type} {d : Nat} {li : List α} {la : Option β}
    (rest : List (Op α β)) (hd : d ≠ 0) :
    pushDel (Op.insert li la :: rest) d = Op.delete d :: Op.insert li la :: rest := by
  simp [pushDel, hd]

theorem pushDel_ret {α β : Type} {d lr : Nat} {la : Option β}
    (rest : List (Op α β)) (hd : d ≠ 0) :
    pushDel (Op.retain lr la :: rest) d = Op.delete d :: Op.retain lr la :: rest := by
  simp [pushDel, hd]

theorem pushRev_zero {α β : Type} [DecidableEq β] (rev : List (Op α β))
    {op : Op α β} (hz : op.len = 0) : pushRev rev op = rev := by
  rw [pushRev.eq_def, if_pos hz]

theorem pushRev_nil {α β : Type} [DecidableEq β] {op : Op α β}
    (hz : op.len ≠ 0) : pushRev [] op = [op] := by
  rw [pushRev.eq_def, if_neg hz]

theorem pushRev_ii_merge {α β : Type} [DecidableEq β] {li i : List α}
    {la a : Option β} (rest : List (Op α β)) (hz : i.length ≠ 0) (ha : la = a) :
    pushRev (Op.insert li la :: rest) (Op.insert i a) =
      Op.insert (li ++ i) la :: rest := by
  rw [pushRev.eq_def]
  simp [Op.len, hz, ha]

theorem pushRev_ii_app {α β : Type} [DecidableEq β] {li i : List α}
    {la a : Option β} (rest : List (Op α β)) (hz : i.length ≠ 0) (ha : la ≠ a) :
    pushRev (Op.insert li la :: rest) (Op.insert i a) =
      Op.insert i a :: Op.insert li la :: rest := by
  rw [pushRev.eq_def]
  simp [Op.len, hz, ha]

theorem pushRev_ir {α β : Type} [DecidableEq β] {li : List α} {r : Nat}
    {la a : Option β} (rest : List (Op α β)) (hz : r ≠ 0) :
    pushRev (Op.insert li la :: rest) (Op.retain r a) =
      Op.retain r a :: Op.insert li la :: rest := by
  rw [pushRev.eq_def]
  simp [Op.len, hz]

theorem pushRev_id {α β : Type} [DecidableEq β] {li : List α} {d : Nat}
    {la : Option β} (rest : List (Op α β)) (hz : d ≠ 0) :
    pushRev (Op.insert li la :: rest) (Op.delete d) =
      Op.delete d :: Op.insert li la :: rest := by
  rw [pushRev.eq_def]
  simp [Op.len, hz]

theorem pushRev_ri {α β : Type} [DecidableEq β] {i : List α} {lr : Nat}
    {la a : Option β} (rest : List (Op α β)) (hz : i.length ≠ 0) :
    pushRev (Op.retain lr la :: rest) (Op.insert i a) =
      Op.insert i a :: Op.retain lr la :: rest := by
  rw [pushRev.eq_def]
  simp [Op.len, hz]

theorem pushRev_rr_merge {α β : Type} [DecidableEq β] {lr r : Nat}
    {la a : Option β} (rest : List (Op α β)) (hz : r ≠ 0) (ha : la = a)
    (hs : lr + r ≤ usizeMax) :
    pushRev (Op.retain lr la :: rest) (Op.retain r a) =
      Op.retain (lr + r) la :: rest := by
  rw [pushRev.eq_def]
  simp [Op.len, hz, ha, hs]

theorem pushRev_rr_over {α β : Type} [DecidableEq β] {lr r : Nat}
    {la a : Option β} (rest : List (Op α β)) (hz : r ≠ 0) (ha : la = a)
    (hs : ¬lr + r ≤ usizeMax) :
    pushRev (Op.retain lr la :: rest) (Op.retain r a) =
      Op.retain ((lr + r) % 2 ^ 64 + 1) a :: Op.retain usizeMax la :: rest := by
  rw [pushRev.eq_def]
  simp [Op.len, hz, ha, hs]

theorem pushRev_rr_app {α β : Type} [DecidableEq β] {lr r : Nat}
    {la a : Option β} (rest : List (Op α β)) (hz : r ≠ 0) (ha : la ≠ a) :
    pushRev (Op.retain lr la :: rest) (Op.retain r a) =
      Op.retain r a :: Op.retain lr la :: rest := by
  rw [pushRev.eq_def]
  simp [Op.len, hz, ha]

theorem pushRev_rd {α β : Type} [DecidableEq β] {lr d : Nat} {la : Option β}
    (rest : List (Op α β)) (hz : d ≠ 0) :
    pushRev (Op.retain lr la :: rest) (Op.delete d) =
      Op.delete d :: Op.retain lr la :: rest := by
  rw [pushRev.eq_def]
  simp [Op.len, hz]

theorem pushRev_di {α β : Type} [DecidableEq β] {ld : Nat} {i : List α}
    {a : Option β} (rest : List (Op α β)) (hz : i.length ≠ 0) :
    pushRev (Op.delete ld :: rest) (Op.insert i a) =
      pushDel (pushRev rest (Op.insert i a)) ld := by
  rw [pushRev.eq_def]
  simp [Op.len, hz]

theorem pushRev_dr {α β : Type} [DecidableEq β] {ld r : Nat} {a : Option β}
    (rest : List (Op α β)) (hz : r ≠ 0) :
    pushRev (Op.delete ld :: rest) (Op.retain r a) =
      Op.retain r a :: Op.delete ld :: rest := by
  rw [pushRev.eq_def]
  simp [Op.len, hz]

theorem pushRev_dd_merge {α β : Type} [DecidableEq β] {ld d : Nat}
    (rest : List (Op α β)) (hz : d ≠ 0) (hs : ld + d ≤ usizeMax) :
    pushRev (Op.delete ld :: rest) (Op.delete d) = Op.delete (ld + d) :: rest := by
  rw [pushRev.eq_def]
  simp [Op.len, hz, hs]

theorem pushRev_dd_over {α β : Type} [DecidableEq β] {ld d : Nat}
    (rest : List (Op α β)) (hz : d ≠ 0) (hs : ¬ld + d ≤ usizeMax) :
    pushRev (Op.delete ld :: rest) (Op.delete d) =
      Op.delete ((ld + d) % 2 ^ 64 + 1) :: Op.delete usizeMax :: rest := by
  rw [pushRev.eq_def]
  simp [Op.len, hz, hs]

/-- Pushing any bounded op preserves the canonical form: the inductive heart
of §3.2 of the specification. -/
theorem canonRev_pushRev {α β : Type} [DecidableEq β] {rev : List (Op α β)}
    (op : Op α β) (h : CanonRev rev) (hb : op.bounded) :
    CanonRev (pushRev rev op) := by
  by_cases hz : op.len = 0
  · rwa [pushRev_zero rev hz]
  induction rev with
  | nil =>
      rw [pushRev_nil hz]
      refine canonRev_cons ⟨Nat.pos_of_ne_zero hz, hb⟩ ?_ canonRev_nil
      intro y hy
      simp at hy
  | cons head rest ih =>
      have hho := h.head_ok
      have hhp := h.head_pair
      cases head with
      | insert li la =>
          cases op with
          | insert i a =>
              have hzi : i.length ≠ 0 := by simpa [Op.len] using hz
              by_cases hattr : la = a
              · rw [pushRev_ii_merge rest hzi hattr]
                refine canonRev_cons ?_ ?_ h.tail
                · refine ⟨?_, by simp [Op.bounded]⟩
                  simp only [Op.len, List.length_append]
                  omega
                · intro y hy
                  exact okPair_congr_insert (hhp y hy)
              · rw [pushRev_ii_app rest hzi hattr]
                refine canonRev_cons ⟨Nat.pos_of_ne_zero hz, hb⟩ ?_ h
                intro y hy
                simp only [List.head?_cons, Option.mem_def, Option.some.injEq] at hy
                subst hy
                simp only [okPair]
                exact fun hc => hattr hc.symm
          | retain r a =>
              have hzr : r ≠ 0 := by simpa [Op.len] using hz
              rw [pushRev_ir rest hzr]
              refine canonRev_cons ⟨Nat.pos_of_ne_zero hz, hb⟩ ?_ h
              intro y hy
              simp only [List.head?_cons, Option.mem_def, Option.some.injEq] at hy
              subst hy
              simp [okPair]
          | delete d =>
              have hzd : d ≠ 0 := by simpa [Op.len] using hz
              rw [pushRev_id rest hzd]
              refine canonRev_cons ⟨Nat.pos_of_ne_zero hz, hb⟩ ?_ h
              intro y hy
              simp only [List.head?_cons, Option.mem_def, Option.some.injEq] at hy
              subst hy
              simp [okPair]
      | retain lr la =>
          cases op with
          | insert i a =>
              have hzi : i.length ≠ 0 := by simpa [Op.len] using hz
              rw [pushRev_ri rest hzi]
              refine canonRev_cons ⟨Nat.pos_of_ne_zero hz, hb⟩ ?_ h
              intro y hy
              simp only [List.head?_cons, Option.mem_def, Option.some.injEq] at hy
              subst hy
              simp [okPair]
          | retain r a =>
              have hzr : r ≠ 0 := by simpa [Op.len] using hz
              simp only [Op.bounded] at hb
              simp only [Op.len, Op.bounded] at hho
              by_cases hattr : la = a
              · by_cases hsum : lr + r ≤ usizeMax
                · rw [pushRev_rr_merge rest hzr hattr hsum]
                  refine canonRev_cons ?_ ?_ h.tail
                  · exact ⟨by simp only [Op.len]; omega,
                      by simpa [Op.bounded] using hsum⟩
                  · intro y hy
                    exact okPair_congr_retain (hhp y hy)
                · rw [pushRev_rr_over rest hzr hattr hsum]
                  refine canonRev_cons ?_ ?_ (canonRev_cons ?_ ?_ h.tail)
                  · refine ⟨by simp [Op.len], ?_⟩
                    simp only [Op.bounded, usizeMax] at *
                    omega
                  · intro y hy
                    simp only [List.head?_cons, Option.mem_def, Option.some.injEq] at hy
                    subst hy
                    simp [okPair]
                  · exact ⟨by simp [Op.len, usizeMax], by simp [Op.bounded]⟩
                  · intro y hy
                    exact okPair_congr_retain (hhp y hy)
              · rw [pushRev_rr_app rest hzr hattr]
                refine canonRev_cons ⟨Nat.pos_of_ne_zero hzr, by simpa [Op.bounded] using hb⟩ ?_ h
                intro y hy
                simp only [List.head?_cons, Option.mem_def, Option.some.injEq] at hy
                subst hy
                simp only [okPair]
                exact fun hc => absurd hc.symm hattr
          | delete d =>
              have hzd : d ≠ 0 := by simpa [Op.len] using hz
              rw [pushRev_rd rest hzd]
              refine canonRev_cons ⟨Nat.pos_of_ne_zero hz, hb⟩ ?_ h
              intro y hy
              simp only [List.head?_cons, Option.mem_def, Option.some.injEq] at hy
              subst hy
              simp [okPair]
      | delete ld =>
          simp only [Op.len, Op.bounded] at hho
          cases op with
          | insert i a =>
              have hzi : i.length ≠ 0 := by simpa [Op.len] using hz
              rw [pushRev_di rest hzi]
              exact canonRev_pushDel (ih h.tail) hho.2
          | retain r a =>
              have hzr : r ≠ 0 := by simpa [Op.len] using hz
              rw [pushRev_dr rest hzr]
              refine canonRev_cons ⟨Nat.pos_of_ne_zero hz, hb⟩ ?_ h
              intro y hy
              simp only [List.head?_cons, Option.mem_def, Option.some.injEq] at hy
              subst hy
              simp [okPair]
          | delete d =>
              have hzd : d ≠ 0 := by simpa [Op.len] using hz
              simp only [Op.bounded] at hb
              by_cases hsum : ld + d ≤ usizeMax
              · rw [pushRev_dd_merge rest hzd hsum]
                refine canonRev_cons ?_ ?_ h.tail
                · exact ⟨by simp only [Op.len]; omega,
                    by simpa [Op.bounded] using hsum⟩
                · intro y hy
                  exact okPair_congr_delete (hhp y hy)
              · rw [pushRev_dd_over rest hzd hsum]
                refine canonRev_cons ?_ ?_ (canonRev_cons ?_ ?_ h.tail)
                · refine ⟨by simp [Op.len], ?_⟩
                  simp only [Op.bounded, usizeMax] at *
                  omega
                · intro y hy
                  simp only [List.head?_cons, Option.mem_def, Option.some.injEq] at hy
                  subst hy
                  simp [okPair]
                · exact ⟨by simp [Op.len, usizeMax], by simp [Op.bounded]⟩
                · intro y hy
                  exact okPair_congr_delete (hhp y hy)

/-- On a canonical delta, `push` of the last op onto the rest is exactly
`cons`: the single-step rebuild identity. -/
theorem pushRev_of_canon {α β : Type} [DecidableEq β] {op : Op α β}
    {rest : List (Op α β)} (h : CanonRev (op :: rest)) :
    pushRev rest op = op :: rest := by
  have hok := h.head_ok
  have hz : op.len ≠ 0 := Nat.pos_iff_ne_zero.mp hok.1
  match rest with
  | [] => exact pushRev_nil hz
  | y :: rest' =>
      have hpair : okPair op y := h.head_pair y (by simp)
      have hyok := h.tail.head_ok
      cases op with
      | insert i a =>
          have hzi : i.length ≠ 0 := by simpa [Op.len] using hz
          cases y with
          | insert lj b =>
              have : b ≠ a := fun hc => by simp [okPair, hc] at hpair
              rw [pushRev_ii_app rest' hzi this]
          | retain c b => rw [pushRev_ri rest' hzi]
          | delete c => simp [okPair] at hpair
      | retain r a =>
          have hzr : r ≠ 0 := by simpa [Op.len] using hz
          have hbr : r ≤ usizeMax := by simpa [Op.bounded] using hok.2
          cases y with
          | insert lj b => rw [pushRev_ir rest' hzr]
          | retain c b =>
              by_cases hab : b = a
              · subst hab
                have hc : c = usizeMax := by simpa [okPair] using hpair
                subst hc
                have hover : ¬usizeMax + r ≤ usizeMax := by omega
                rw [pushRev_rr_over rest' hzr rfl hover]
                have : (usizeMax + r) % 2 ^ 64 + 1 = r := by
                  simp only [usizeMax] at *
                  omega
                rw [this]
              · rw [pushRev_rr_app rest' hzr hab]
          | delete c => rw [pushRev_dr rest' hzr]
      | delete d =>
          have hzd : d ≠ 0 := by simpa [Op.len] using hz
          have hbd : d ≤ usizeMax := by simpa [Op.bounded] using hok.2
          cases y with
          | insert lj b => rw [pushRev_id rest' hzd]
          | retain c b => rw [pushRev_rd rest' hzd]
          | delete c =>
              have hc : c = usizeMax := by simpa [okPair] using hpair
              subst hc
              have hover : ¬usizeMax + d ≤ usizeMax := by omega
              rw [pushRev_dd_over rest' hzd hover]
              have : (usizeMax + d) % 2 ^ 64 + 1 = d := by
                simp only [usizeMax] at *
                omega
              rw [this]

/-- Folding `push` over the ops of a canonical delta, in document order,
rebuilds exactly that delta. -/
theorem foldl_pushRev_reverse {α β : Type} [DecidableEq β]
    {rev : List (Op α β)} (h : CanonRev rev) :
    rev.reverse.foldl pushRev [] = rev := by
  induction rev with
  | nil => simp
  | cons op rest ih =>
      rw [List.reverse_cons, List.foldl_append, ih h.tail]
      simpa using pushRev_of_canon h

/-- Folding `push` over bounded ops preserves the canonical form. -/
theorem canonRev_foldl {α β : Type} [DecidableEq β] {l : List (Op α β)}
    {acc : List (Op α β)} (hacc : CanonRev acc) (hb : ∀ op ∈ l, op.bounded) :
    CanonRev (l.foldl pushRev acc) := by
  induction l generalizing acc with
  | nil => simpa using hacc
  | cons op rest ih =>
      rw [List.foldl_cons]
      exact ih (canonRev_pushRev op hacc (hb op (by simp)))
        (fun x hx => hb x (List.mem_cons_of_mem _ hx))

/-- `chop` preserves the canonical form (it only removes a suffix of the op
sequence). -/
theorem canonRev_chopRev {α β : Type} {rev : List (Op α β)}
    (h : CanonRev rev) : CanonRev (chopRev rev) := by
  induction rev with
  | nil => simpa [chopRev] using h
  | cons op rest ih =>
      cases op with
      | insert i a => simpa [chopRev] using h
      | retain c a =>
          cases a with
          | none => simpa [chopRev] using ih h.tail
          | some x => simpa [chopRev] using h
      | delete c => simpa [chopRev] using h

/-- The head of the reversed list (the last op in document order) is not a
retain with absent attributes. -/
def headNotBareRetain {α β : Type} (rev : List (Op α β)) : Prop :=
  match rev with
  | Op.retain _ none :: _ => False
  | _ => True

/-- After `chop`, the last op is not a bare retain. -/
theorem chopRev_head {α β : Type} (rev : List (Op α β)) :
    headNotBareRetain (chopRev rev) := by
  unfold headNotBareRetain
  induction rev with
  | nil => simp [chopRev]
  | cons op rest ih =>
      cases op with
      | insert i a => simp [chopRev]
      | retain c a =>
          cases a with
          | none => simpa [chopRev] using ih
          | some x => simp [chopRev]
      | delete c => simp [chopRev]

/-- A delta is *built* when it is obtained from `Delta::new` by pushing a
sequence of (usize-representable) ops: every value the public builder API can
produce is of this shape. -/
def Delta.Built {α β : Type} [DecidableEq β] (d : Delta α β) : Prop :=
  ∃ l : List (Op α β), (∀ op ∈ l, op.bounded) ∧ d = Delta.new.extend l

theorem Delta.extend_rev {α β : Type} [DecidableEq β] (d : Delta α β)
    (l : List (Op α β)) : (d.extend l).rev = l.foldl pushRev d.rev := by
  induction l generalizing d with
  | nil => rfl
  | cons op rest ih =>
      rw [Delta.extend, List.foldl_cons, List.foldl_cons, ← Delta.extend]
      exact ih (d.push op)

/-- Every built delta is canonical. -/
theorem Delta.Built.canon {α β : Type} [DecidableEq β] {d : Delta α β}
    (h : d.Built) : CanonRev d.rev := by
  obtain ⟨l, hb, rfl⟩ := h
  rw [Delta.extend_rev]
  exact canonRev_foldl canonRev_nil hb

/-- In Rust every op length is `usize`-representable (a string cannot hold
more than `usize::MAX` scalars); the `Nat`/`List` embedding states it as a
side condition. -/
def Op.sized {α β : Type} (op : Op α β) : Prop := op.len ≤ usizeMax

theorem Op.sized.bounded {α β : Type} {op : Op α β} (h : op.sized) :
    op.bounded := by
  cases op <;> simpa [Op.sized, Op.bounded, Op.len] using h

instance {α β : Type} (op : Op α β) : Decidable op.sized := by
  unfold Op.sized
  infer_instance

theorem mem_consOp {α β : Type} {op x : Op α β} {l : List (Op α β)}
    (h : op ∈ consOp x l) : op = x ∨ op ∈ l := by
  unfold consOp at h
  split at h
  · exact Or.inr h
  · simpa using List.mem_cons.mp h

/-- Every op emitted or left over by the compose loop has length at most the
lengths occurring in the inputs. -/
theorem composeList_sized {α β : Type} (acomp : β → β → β) :
    ∀ l1 l2 : List (Op α β), (∀ op ∈ l1, op.sized) → (∀ op ∈ l2, op.sized) →
      (∀ op ∈ (composeList acomp l1 l2).1, op.sized) ∧
      (∀ op ∈ (composeList acomp l1 l2).2.1, op.sized) ∧
      (∀ op ∈ (composeList acomp l1 l2).2.2, op.sized) := by
  intro l1 l2
  induction l1, l2 using composeList.induct acomp with
  | case1 l2 =>
      intro _ h2
      simp only [composeList]
      exact ⟨by simp, by simp, h2⟩
  | case2 l1 hne =>
      intro h1 _
      rw [composeList.eq_2 acomp l1 hne]
      exact ⟨by simp, h1, by simp⟩
  | case3 a as i ia bs ih =>
      intro h1 h2
      simp only [composeList] at ih ⊢
      have h2' : ∀ op ∈ bs, op.sized := fun op hop => h2 op (by simp [hop])
      obtain ⟨hout, hl1, hl2⟩ := ih h1 h2'
      refine ⟨?_, hl1, hl2⟩
      intro op hop
      rcases List.mem_cons.mp hop with rfl | hop
      · exact h2 _ (by simp)
      · exact hout op hop
  | case4 i ia as r ra bs m ih =>
      intro h1 h2
      simp only [composeList] at ih ⊢
      have hi := h1 _ (List.mem_cons_self _ _)
      have hr := h2 _ (List.mem_cons_self _ _)
      simp only [Op.sized, Op.len] at hi hr
      have hc1 : ∀ op ∈ consOp (Op.insert (List.drop (i.length ⊓ r) i) ia) as, op.sized := by
        intro op hop
        rcases mem_consOp hop with rfl | hop
        · simp only [Op.sized, Op.len, List.length_drop]
          omega
        · exact h1 op (by simp [hop])
      have hc2 : ∀ op ∈ consOp (Op.retain (r - i.length ⊓ r) ra) bs, op.sized := by
        intro op hop
        rcases mem_consOp hop with rfl | hop
        · simp only [Op.sized, Op.len]
          omega
        · exact h2 op (by simp [hop])
      obtain ⟨hout, hl1, hl2⟩ := ih hc1 hc2
      refine ⟨?_, hl1, hl2⟩
      intro op hop
      rcases List.mem_cons.mp hop with rfl | hop
      · simp only [Op.sized, Op.len, List.length_take]
        omega
      · exact hout op hop
  | case5 i ia as d bs m ih =>
      intro h1 h2
      simp only [composeList] at ih ⊢
      have hi := h1 _ (List.mem_cons_self _ _)
      have hd := h2 _ (List.mem_cons_self _ _)
      simp only [Op.sized, Op.len] at hi hd
      have hc1 : ∀ op ∈ consOp (Op.insert (List.drop (i.length ⊓ d) i) ia) as, op.sized := by
        intro op hop
        rcases mem_consOp hop with rfl | hop
        · simp only [Op.sized, Op.len, List.length_drop]
          omega
        · exact h1 op (by simp [hop])
      have hc2 : ∀ op ∈ consOp (Op.delete (d - i.length ⊓ d)) bs, op.sized := by
        intro op hop
        rcases mem_consOp hop with rfl | hop
        · simp only [Op.sized, Op.len]
          omega
        · exact h2 op (by simp [hop])
      obtain ⟨hout, hl1, hl2⟩ := ih hc1 hc2
      refine ⟨?_, hl1, hl2⟩
      intro op hop
      rcases List.mem_cons.mp hop with rfl | hop
      · simp [Op.sized, Op.len]
      · exact hout op hop
  | case6 r1 a1 as r2 a2 bs m ih =>
      intro h1 h2
      simp only [composeList] at ih ⊢
      have h1h := h1 _ (List.mem_cons_self _ _)
      have h2h := h2 _ (List.mem_cons_self _ _)
      simp only [Op.sized, Op.len] at h1h h2h
      have hc1 : ∀ op ∈ consOp (Op.retain (r1 - r1 ⊓ r2) a1) as, op.sized := by
        intro op hop
        rcases mem_consOp hop with rfl | hop
        · simp only [Op.sized, Op.len]
          omega
        · exact h1 op (by simp [hop])
      have hc2 : ∀ op ∈ consOp (Op.retain (r2 - r1 ⊓ r2) a2) bs, op.sized := by
        intro op hop
        rcases mem_consOp hop with rfl | hop
        · simp only [Op.sized, Op.len]
          omega
        · exact h2 op (by simp [hop])
      obtain ⟨hout, hl1, hl2⟩ := ih hc1 hc2
      refine ⟨?_, hl1, hl2⟩
      intro op hop
      rcases List.mem_cons.mp hop with rfl | hop
      · simp only [Op.sized, Op.len]
        omega
      · exact hout op hop
  | case7 r1 a1 as d bs m ih =>
      intro h1 h2
      simp only [composeList] at ih ⊢
      have h1h := h1 _ (List.mem_cons_self _ _)
      have h2h := h2 _ (List.mem_cons_self _ _)
      simp only [Op.sized, Op.len] at h1h h2h
      have hc1 : ∀ op ∈ consOp (Op.retain (r1 - r1 ⊓ d) a1) as, op.sized := by
        intro op hop
        rcases mem_consOp hop with rfl | hop
        · simp only [Op.sized, Op.len]
          omega
        · exact h1 op (by simp [hop])
      have hc2 : ∀ op ∈ consOp (Op.delete (d - r1 ⊓ d)) bs, op.sized := by
        intro op hop
        rcases mem_consOp hop with rfl | hop
        · simp only [Op.sized, Op.len]
          omega
        · exact h2 op (by simp [hop])
      obtain ⟨hout, hl1, hl2⟩ := ih hc1 hc2
      refine ⟨?_, hl1, hl2⟩
      intro op hop
      rcases List.mem_cons.mp hop with rfl | hop
      · simp only [Op.sized, Op.len]
        omega
      · exact hout op hop
  | case8 d1 as r2 a2 bs ih =>
      intro h1 h2
      simp only [composeList] at ih ⊢
      obtain ⟨hout, hl1, hl2⟩ := ih (fun op hop => h1 op (by simp [hop])) h2
      refine ⟨?_, hl1, hl2⟩
      intro op hop
      rcases List.mem_cons.mp hop with rfl | hop
      · exact h1 _ (by simp)
      · exact hout op hop
  | case9 d1 as d2 bs ih =>
      intro h1 h2
      simp only [composeList] at ih ⊢
      obtain ⟨hout, hl1, hl2⟩ := ih (fun op hop => h1 op (by simp [hop])) h2
      refine ⟨?_, hl1, hl2⟩
      intro op hop
      rcases List.mem_cons.mp hop with rfl | hop
      · exact h1 _ (by simp)
      · exact hout op hop

/-- Every op emitted or left over by the transform loop has length at most
the lengths occurring in the inputs. -/
theorem transformList_sized {α β : Type} (priority : Bool) :
    ∀ l1 l2 : List (Op α β), (∀ op ∈ l1, op.sized) → (∀ op ∈ l2, op.sized) →
      (∀ op ∈ (transformList priority l1 l2).1, op.sized) ∧
      (∀ op ∈ (transformList priority l1 l2).2, op.sized) := by
  intro l1 l2
  induction l1, l2 using transformList.induct priority with
  | case1 l2 =>
      intro _ h2
      simp only [transformList]
      exact ⟨by simp, h2⟩
  | case2 l1 hne =>
      intro h1 _
      rw [transformList.eq_2 priority l1 hne]
      exact ⟨by simp, by simp⟩
  | case3 i ia as j ja bs hp ih =>
      intro h1 h2
      simp only [transformList, hp, if_true] at ih ⊢
      obtain ⟨hout, hl2⟩ := ih (fun op hop => h1 op (by simp [hop])) h2
      refine ⟨?_, hl2⟩
      intro op hop
      rcases List.mem_cons.mp hop with rfl | hop
      · have := h1 _ (List.mem_cons_self _ _)
        simpa [Op.asRetain, Op.sized, Op.len] using this
      · exact hout op hop
  | case4 i ia as j ja bs hp ih =>
      intro h1 h2
      simp only [transformList, hp, if_false, Bool.false_eq_true, ite_false] at ih ⊢
      obtain ⟨hout, hl2⟩ := ih h1 (fun op hop => h2 op (by simp [hop]))
      refine ⟨?_, hl2⟩
      intro op hop
      rcases List.mem_cons.mp hop with rfl | hop
      · exact h2 _ (by simp)
      · exact hout op hop
  | case5 i ia as r ra bs ih =>
      intro h1 h2
      simp only [transformList] at ih ⊢
      obtain ⟨hout, hl2⟩ := ih (fun op hop => h1 op (by simp [hop])) h2
      refine ⟨?_, hl2⟩
      intro op hop
      rcases List.mem_cons.mp hop with rfl | hop
      · have := h1 _ (List.mem_cons_self _ _)
        simpa [Op.asRetain, Op.sized, Op.len] using this
      · exact hout op hop
  | case6 i ia as d bs ih =>
      intro h1 h2
      simp only [transformList] at ih ⊢
      obtain ⟨hout, hl2⟩ := ih (fun op hop => h1 op (by simp [hop])) h2
      refine ⟨?_, hl2⟩
      intro op hop
      rcases List.mem_cons.mp hop with rfl | hop
      · have := h1 _ (List.mem_cons_self _ _)
        simpa [Op.asRetain, Op.sized, Op.len] using this
      · exact hout op hop
  | case7 r1 a1 as j ja bs ih =>
      intro h1 h2
      simp only [transformList] at ih ⊢
      obtain ⟨hout, hl2⟩ := ih h1 (fun op hop => h2 op (by simp [hop]))
      refine ⟨?_, hl2⟩
      intro op hop
      rcases List.mem_cons.mp hop with rfl | hop
      · exact h2 _ (by simp)
      · exact hout op hop
  | case8 r1 a1 as r2 a2 bs m ih =>
      intro h1 h2
      simp only [transformList] at ih ⊢
      have h1h := h1 _ (List.mem_cons_self _ _)
      have h2h := h2 _ (List.mem_cons_self _ _)
      simp only [Op.sized, Op.len] at h1h h2h
      have hc1 : ∀ op ∈ consOp (Op.retain (r1 - r1 ⊓ r2) a1) as, op.sized := by
        intro op hop
        rcases mem_consOp hop with rfl | hop
        · simp only [Op.sized, Op.len]
          omega
        · exact h1 op (by simp [hop])
      have hc2 : ∀ op ∈ consOp (Op.retain (r2 - r1 ⊓ r2) a2) bs, op.sized := by
        intro op hop
        rcases mem_consOp hop with rfl | hop
        · simp only [Op.sized, Op.len]
          omega
        · exact h2 op (by simp [hop])
      obtain ⟨hout, hl2⟩ := ih hc1 hc2
      refine ⟨?_, hl2⟩
      intro op hop
      rcases List.mem_cons.mp hop with rfl | hop
      · simp only [Op.sized, Op.len]
        omega
      · exact hout op hop
  | case9 r1 a1 as d bs m ih =>
      intro h1 h2
      simp only [transformList] at ih ⊢
      have h1h := h1 _ (List.mem_cons_self _ _)
      have h2h := h2 _ (List.mem_cons_self _ _)
      simp only [Op.sized, Op.len] at h1h h2h
      have hc1 : ∀ op ∈ consOp (Op.retain (r1 - r1 ⊓ d) a1) as, op.sized := by
        intro op hop
        rcases mem_consOp hop with rfl | hop
        · simp only [Op.sized, Op.len]
          omega
        · exact h1 op (by simp [hop])
      have hc2 : ∀ op ∈ consOp (Op.delete (d - r1 ⊓ d)) bs, op.sized := by
        intro op hop
        rcases mem_consOp hop with rfl | hop
        · simp only [Op.sized, Op.len]
          omega
        · exact h2 op (by simp [hop])
      obtain ⟨hout, hl2⟩ := ih hc1 hc2
      refine ⟨?_, hl2⟩
      intro op hop
      rcases List.mem_cons.mp hop with rfl | hop
      · simp only [Op.sized, Op.len]
        omega
      · exact hout op hop
  | case10 d1 as j ja bs ih =>
      intro h1 h2
      simp only [transformList] at ih ⊢
      obtain ⟨hout, hl2⟩ := ih h1 (fun op hop => h2 op (by simp [hop]))
      refine ⟨?_, hl2⟩
      intro op hop
      rcases List.mem_cons.mp hop with rfl | hop
      · exact h2 _ (by simp)
      · exact hout op hop
  | case11 d1 as r2 a2 bs m ih =>
      intro h1 h2
      simp only [transformList] at ih ⊢
      have h1h := h1 _ (List.mem_cons_self _ _)
      have h2h := h2 _ (List.mem_cons_self _ _)
      simp only [Op.sized, Op.len] at h1h h2h
      have hc1 : ∀ op ∈ consOp (Op.delete (d1 - d1 ⊓ r2)) as, op.sized := by
        intro op hop
        rcases mem_consOp hop with rfl | hop
        · simp only [Op.sized, Op.len]
          omega
        · exact h1 op (by simp [hop])
      have hc2 : ∀ op ∈ consOp (Op.retain (r2 - d1 ⊓ r2) a2) bs, op.sized := by
        intro op hop
        rcases mem_consOp hop with rfl | hop
        · simp only [Op.sized, Op.len]
          omega
        · exact h2 op (by simp [hop])
      obtain ⟨hout, hl2⟩ := ih hc1 hc2
      refine ⟨?_, hl2⟩
      intro op hop
      rcases List.mem_cons.mp hop with rfl | hop
      · simp [Op.sized, Op.len]
      · exact hout op hop
  | case12 d1 as d2 bs m ih =>
      intro h1 h2
      simp only [transformList] at ih ⊢
      have h1h := h1 _ (List.mem_cons_self _ _)
      have h2h := h2 _ (List.mem_cons_self _ _)
      simp only [Op.sized, Op.len] at h1h h2h
      have hc1 : ∀ op ∈ consOp (Op.delete (d1 - d1 ⊓ d2)) as, op.sized := by
        intro op hop
        rcases mem_consOp hop with rfl | hop
        · simp only [Op.sized, Op.len]
          omega
        · exact h1 op (by simp [hop])
      have hc2 : ∀ op ∈ consOp (Op.delete (d2 - d1 ⊓ d2)) bs, op.sized := by
        intro op hop
        rcases mem_consOp hop with rfl | hop
        · simp only [Op.sized, Op.len]
          omega
        · exact h2 op (by simp [hop])
      obtain ⟨hout, hl2⟩ := ih hc1 hc2
      refine ⟨?_, hl2⟩
      intro op hop
      rcases List.mem_cons.mp hop with rfl | hop
      · simp [Op.sized, Op.len]
      · exact hout op hop

/-- The claim's notion of mergeable neighbors: same variant with equal
attributes (`Delete`s carry no attributes). -/
def mergeable {α β : Type} : Op α β → Op α β → Prop
  | Op.insert _ a, Op.insert _ b => a = b
  | Op.retain _ a, Op.retain _ b => a = b
  | Op.delete _, Op.delete _ => True
  | _, _ => False

instance {α β : Type} [DecidableEq β] (x y : Op α β) : Decidable (mergeable x y) := by
  cases x <;> cases y <;> simp only [mergeable] <;> infer_instance

def Op.isInsert {α β : Type} : Op α β → Prop
  | Op.insert _ _ => True
  | _ => False

def Op.isDelete {α β : Type} : Op α β → Prop
  | Op.delete _ => True
  | _ => False

/-- Canonical form as §3.2/§8.1(6) of the specification state it, on the
document-order op list, with the mergeable-neighbor clause weakened to allow
the saturated pairs that the overflow spill of `Delta::push` creates: a
mergeable neighbor pair can only be a retain/retain or delete/delete pair
whose earlier op is pinned at `usize::MAX`. -/
def canonicalOps {α β : Type} (l : List (Op α β)) : Prop :=
  (∀ op ∈ l, op.len ≠ 0) ∧
  l.Chain' (fun x y => ¬(x.isDelete ∧ y.isInsert)) ∧
  l.Chain' (fun x y => mergeable x y → ¬x.isInsert ∧ x.len = usizeMax) ∧
  (match l.getLast? with
   | some (Op.retain _ none) => False
   | _ => True)

/-- Bridge from the reversed-list invariant to the claim-facing one. -/
theorem canonicalOps_of_canonRev {α β : Type} {rev : List (Op α β)}
    (h : CanonRev rev) (hh : headNotBareRetain rev) :
    canonicalOps rev.reverse := by
  unfold headNotBareRetain at hh
  obtain ⟨hmem, hchain⟩ := h
  refine ⟨?_, ?_, ?_, ?_⟩
  · intro op hop
    exact Nat.pos_iff_ne_zero.mp (hmem op (List.mem_reverse.mp hop)).1
  · rw [List.chain'_reverse]
    refine hchain.imp ?_
    intro y x hp
    rintro ⟨hxd, hyi⟩
    cases x <;> cases y <;> simp_all [Op.isDelete, Op.isInsert, okPair]
  · rw [List.chain'_reverse]
    refine hchain.imp ?_
    intro y x hp hm
    cases x <;> cases y <;> simp_all [mergeable, okPair, Op.isInsert, Op.len]
  · rw [List.getLast?_reverse]
    cases rev with
    | nil => simp
    | cons op rest =>
        cases op with
        | insert i a => simp
        | retain c a =>
            cases a with
            | none => exact absurd hh (by simp)
            | some x => simp
        | delete c => simp

/-- The underlying reversed list of a composed delta. -/
theorem Delta.compose_rev {α β : Type} [DecidableEq β] (acomp : β → β → β)
    (a b : Delta α β) :
    (a.compose acomp b).rev =
      chopRev ((composeList acomp a.ops b.ops).2.2.foldl pushRev
        ((composeList acomp a.ops b.ops).2.1.foldl pushRev
          ((composeList acomp a.ops b.ops).1.foldl pushRev []))) := by
  simp [Delta.compose, Delta.chop, Delta.extend_rev, Delta.new]

/-- The underlying reversed list of a transformed delta. -/
theorem Delta.transform_rev {α β : Type} [DecidableEq β]
    (a b : Delta α β) (priority : Bool) :
    (a.transform b priority).rev =
      chopRev ((transformList priority a.ops b.ops).2.foldl pushRev
        ((transformList priority a.ops b.ops).1.foldl pushRev [])) := by
  simp [Delta.transform, Delta.chop, Delta.extend_rev, Delta.new]

/-- The result of compose is canonical and chopped. -/
theorem compose_canonRev {α β : Type} [DecidableEq β] (acomp : β → β → β)
    (a b : Delta α β) (ha : ∀ op ∈ a.ops, op.sized)
    (hb : ∀ op ∈ b.ops, op.sized) :
    CanonRev (a.compose acomp b).rev ∧
    headNotBareRetain (a.compose acomp b).rev := by
  obtain ⟨h1, h2, h3⟩ := composeList_sized acomp a.ops b.ops ha hb
  rw [Delta.compose_rev]
  constructor
  · exact canonRev_chopRev (canonRev_foldl (canonRev_foldl (canonRev_foldl
      canonRev_nil (fun op hop => (h1 op hop).bounded))
      (fun op hop => (h2 op hop).bounded)) (fun op hop => (h3 op hop).bounded))
  · exact chopRev_head _

/-- The result of transform is canonical and chopped. -/
theorem transform_canonRev {α β : Type} [DecidableEq β]
    (a b : Delta α β) (priority : Bool) (ha : ∀ op ∈ a.ops, op.sized)
    (hb : ∀ op ∈ b.ops, op.sized) :
    CanonRev (a.transform b priority).rev ∧
    headNotBareRetain (a.transform b priority).rev := by
  obtain ⟨h1, h2⟩ := transformList_sized priority a.ops b.ops ha hb
  rw [Delta.transform_rev]
  constructor
  · exact canonRev_chopRev (canonRev_foldl (canonRev_foldl
      canonRev_nil (fun op hop => (h1 op hop).bounded))
      (fun op hop => (h2 op hop).bounded))
  · exact chopRev_head _

theorem Delta.eq_of_rev_eq {α β : Type} {d1 d2 : Delta α β}
    (h : d1.rev = d2.rev) : d1 = d2 := by
  cases d1
  cases d2
  simpa using h

theorem Delta.extend_nil {α β : Type} [DecidableEq β] (d : Delta α β) :
    d.extend [] = d := rfl

/-- Rebuilding a canonical delta by pushing its ops in document order into a
fresh delta reproduces it. -/
theorem Delta.rebuild_of_canon {α β : Type} [DecidableEq β] {d : Delta α β}
    (h : CanonRev d.rev) : Delta.new.extend d.ops = d := by
  refine Delta.eq_of_rev_eq ?_
  rw [Delta.extend_rev]
  exact foldl_pushRev_reverse h

/-- Attribute algebra of `LastWriteWins` (`src/compose.rs`): the right value
wins. -/
def lwwNat : Nat → Nat → Nat := fun _ y => y

/-- C7: for every delta built via `push`, iterating over its ops and
re-pushing each op into a fresh delta yields a delta equal to the original
(canonicalization is idempotent). -/
theorem claim_C7 {α β : Type} [DecidableEq β] (d : Delta α β)
    (h : d.Built) : Delta.new.extend d.ops = d :=
  Delta.rebuild_of_canon h.canon

/-- Witness for C7 at a concrete built delta. -/
theorem claim_C7_witness :
    ((Delta.new : Delta Char Nat).insert ['a'] none |>.retain 2 (some 3)
      |>.delete 1).Built ∧
    Delta.new.extend ((Delta.new : Delta Char Nat).insert ['a'] none
      |>.retain 2 (some 3) |>.delete 1).ops =
      ((Delta.new : Delta Char Nat).insert ['a'] none |>.retain 2 (some 3)
        |>.delete 1) := by
  have hb : ((Delta.new : Delta Char Nat).insert ['a'] none
      |>.retain 2 (some 3) |>.delete 1).Built :=
    ⟨[Op.insert ['a'] none, Op.retain 2 (some 3), Op.delete 1],
      by decide, rfl⟩
  exact ⟨hb, claim_C7 _ hb⟩

/-- C5: when `push` merges two `Retain`s (or two `Delete`s) with equal
attributes and the sum of counts exceeds `usize::MAX`, the prior op is set to
`usize::MAX` and a new op carrying the remainder is appended, so the total
length is preserved; in particular pushing `Retain(N_MAX - 4)` then
`Retain(8)` yields `Retain(N_MAX)` followed by `Retain(4)` with the same
attributes. -/
theorem claim_C5 {α β : Type} [DecidableEq β] (rest : List (Op α β))
    (attrs : Option β) (a b : Nat) (ha : a ≤ usizeMax) (hb : b ≤ usizeMax)
    (hov : usizeMax < a + b) :
    pushRev (Op.retain a attrs :: rest) (Op.retain b attrs) =
      Op.retain (a + b - usizeMax) attrs :: Op.retain usizeMax attrs :: rest ∧
    pushRev (Op.delete a :: rest) (Op.delete b) =
      Op.delete (a + b - usizeMax) :: Op.delete usizeMax :: rest ∧
    usizeMax + (a + b - usizeMax) = a + b ∧
    ((Delta.new : Delta α β).retain (usizeMax - 4) attrs
      |>.retain 8 attrs).ops =
      [Op.retain usizeMax attrs, Op.retain 4 attrs] := by
  have hzb : b ≠ 0 := by omega
  have hs : ¬a + b ≤ usizeMax := by omega
  have harith : (a + b) % 2 ^ 64 + 1 = a + b - usizeMax := by
    simp only [usizeMax] at *
    omega
  refine ⟨?_, ?_, ?_, ?_⟩
  · rw [pushRev_rr_over rest hzb rfl hs, harith]
  · rw [pushRev_dd_over rest hzb hs, harith]
  · simp only [usizeMax] at *
    omega
  · show (Delta.ops ⟨pushRev (pushRev [] (Op.retain (usizeMax - 4) attrs))
      (Op.retain 8 attrs)⟩) = _
    rw [pushRev_nil (by simp [Op.len, usizeMax])]
    rw [pushRev_rr_over [] (by simp) rfl (by simp [usizeMax])]
    have : (usizeMax - 4 + 8) % 2 ^ 64 + 1 = 4 := by
      simp only [usizeMax]
      norm_num
    rw [this]
    rfl

/-- Witness for C5 at `a = N_MAX - 4`, `b = 8`. -/
theorem claim_C5_witness :
    (usizeMax - 4 ≤ usizeMax ∧ 8 ≤ usizeMax ∧ usizeMax < usizeMax - 4 + 8) ∧
    pushRev ([Op.retain (usizeMax - 4) none] : List (Op Char Nat))
        (Op.retain 8 none) =
      Op.retain (usizeMax - 4 + 8 - usizeMax) none ::
        Op.retain usizeMax none :: [] := by
  constructor
  · refine ⟨Nat.sub_le _ _, ?_, ?_⟩ <;> simp [usizeMax]
  · exact (claim_C5 ([] : List (Op Char Nat)) none (usizeMax - 4) 8
      (Nat.sub_le _ _) (by simp [usizeMax]) (by simp [usizeMax])).1

/-- C6: `split(op, k)` removes and returns a prefix of length
`min(k, length(op))`, leaving the suffix in the op; for `Insert` the value is
split element-wise with the attributes cloned into both halves, for
`Retain`/`Delete` the count splits arithmetically; splitting is total and an
out-of-bounds `k` is clamped. -/
theorem claim_C6 {α β : Type} (k : Nat) :
    (∀ (v : List α) (a : Option β),
      Op.split (Op.insert v a) k =
        (Op.insert (v.take (min k v.length)) a,
         Op.insert (v.drop (min k v.length)) a)) ∧
    (∀ (c : Nat) (a : Option β),
      Op.split (Op.retain c a : Op α β) k =
        (Op.retain (min k c) a, Op.retain (c - min k c) a)) ∧
    (∀ c : Nat,
      Op.split (Op.delete c : Op α β) k =
        (Op.delete (min k c), Op.delete (c - min k c))) ∧
    (∀ op : Op α β,
      (op.split k).1.len = min k op.len ∧
      (op.split k).2.len = op.len - min k op.len) := by
  refine ⟨?_, ?_, ?_, ?_⟩
  · intro v a
    simp [Op.split, Nat.min_comm]
  · intro c a
    simp [Op.split, Nat.min_comm]
  · intro c
    simp [Op.split, Nat.min_comm]
  · intro op
    cases op <;>
      simp [Op.split, Op.len, List.length_take, List.length_drop,
        Nat.min_comm]

/-- The compose loop against an empty right stream stops at once and leaves
the whole left stream over. -/
theorem composeList_nil_right {α β : Type} (acomp : β → β → β)
    (l : List (Op α β)) : composeList acomp l [] = ([], l, []) := by
  cases l with
  | nil => simp [composeList]
  | cons x xs => rw [composeList.eq_2 acomp (x :: xs) (by simp)]

/-- The compose loop against an empty left stream stops at once and leaves
the whole right stream over. -/
theorem composeList_nil_left {α β : Type} (acomp : β → β → β)
    (l : List (Op α β)) : composeList acomp [] l = ([], [], l) := by
  simp [composeList]

/-- C3 (amended): for every delta built via the public builder,
`compose(D, empty) == D.chop()` and `compose(empty, D) == D.chop()`.  (The
original claim's `compose(D, empty) == D` fails when `D` has a trailing bare
retain, see the counterexample.) -/
theorem claim_C3 {α β : Type} [DecidableEq β] (acomp : β → β → β)
    (d : Delta α β) (h : d.Built) :
    d.compose acomp Delta.new = d.chop ∧
    Delta.compose acomp Delta.new d = d.chop := by
  have hre : Delta.new.extend d.ops = d := Delta.rebuild_of_canon h.canon
  have hnew : (Delta.new : Delta α β).ops = [] := rfl
  constructor
  · simp only [Delta.compose, hnew, composeList_nil_right, Delta.extend_nil]
    rw [hre]
  · simp only [Delta.compose, hnew, composeList_nil_left, Delta.extend_nil]
    rw [hre]

/-- Witness for C3 at a concrete built delta with a trailing bare retain. -/
theorem claim_C3_witness :
    ((Delta.new : Delta Char Nat).insert ['a'] (some 1) |>.retain 2 none).Built ∧
    (((Delta.new : Delta Char Nat).insert ['a'] (some 1) |>.retain 2 none).compose
        lwwNat Delta.new =
      ((Delta.new : Delta Char Nat).insert ['a'] (some 1) |>.retain 2 none).chop ∧
    Delta.compose lwwNat Delta.new
        ((Delta.new : Delta Char Nat).insert ['a'] (some 1) |>.retain 2 none) =
      ((Delta.new : Delta Char Nat).insert ['a'] (some 1) |>.retain 2 none).chop) := by
  have hb : ((Delta.new : Delta Char Nat).insert ['a'] (some 1)
      |>.retain 2 none).Built :=
    ⟨[Op.insert ['a'] (some 1), Op.retain 2 none], by decide, rfl⟩
  exact ⟨hb, claim_C3 lwwNat _ hb⟩

/-- Counterexample to C3 as stated: for the builder-made delta
`retain(1, None)`, composing with the empty delta chops the trailing bare
retain, so `compose(D, empty) ≠ D`. -/
theorem claim_C3_counterexample :
    ((Delta.new : Delta Char Nat).retain 1 none).compose lwwNat Delta.new ≠
      (Delta.new : Delta Char Nat).retain 1 none := by
  have h : ((Delta.new : Delta Char Nat).retain 1 none).compose lwwNat
      Delta.new = Delta.new := by
    simp [Delta.compose, Delta.ops, Delta.retain, Delta.push, Delta.new,
      composeList_nil_right, pushRev, Op.len, chopRev, Delta.chop,
      Delta.extend, consOp]
  rw [h]
  decide

/-- C4 (amended): every delta returned by delta-level compose or transform
contains no zero-length op, no `Delete` immediately before an `Insert`, no
trailing bare `Retain`, and no two adjacent mergeable ops *except* the
saturated retain/retain or delete/delete pairs whose earlier op is pinned at
`usize::MAX` by the overflow spill of `Delta::push` (see the
counterexample for why the exception is necessary). -/
theorem claim_C4 {α β : Type} [DecidableEq β] (acomp : β → β → β)
    (a b : Delta α β) (priority : Bool) (ha : ∀ op ∈ a.ops, op.sized)
    (hb : ∀ op ∈ b.ops, op.sized) :
    canonicalOps (a.compose acomp b).ops ∧
    canonicalOps (a.transform b priority).ops := by
  obtain ⟨hc, hh⟩ := compose_canonRev acomp a b ha hb
  obtain ⟨tc, th⟩ := transform_canonRev a b priority ha hb
  exact ⟨canonicalOps_of_canonRev hc hh, canonicalOps_of_canonRev tc th⟩

/-- Witness for C4 at concrete deltas. -/
theorem claim_C4_witness :
    ((∀ op ∈ ((Delta.new : Delta Char Nat).insert ['a'] (some 1)).ops, op.sized) ∧
     (∀ op ∈ ((Delta.new : Delta Char Nat).retain 1 none |>.delete 2).ops, op.sized)) ∧
    (canonicalOps (((Delta.new : Delta Char Nat).insert ['a'] (some 1)).compose
        lwwNat ((Delta.new : Delta Char Nat).retain 1 none |>.delete 2)).ops ∧
     canonicalOps (((Delta.new : Delta Char Nat).insert ['a'] (some 1)).transform
        ((Delta.new : Delta Char Nat).retain 1 none |>.delete 2) true).ops) := by
  have h1 : ∀ op ∈ ((Delta.new : Delta Char Nat).insert ['a'] (some 1)).ops,
      op.sized := by
    decide
  have h2 : ∀ op ∈ ((Delta.new : Delta Char Nat).retain 1 none
      |>.delete 2).ops, op.sized := by
    decide
  exact ⟨⟨h1, h2⟩, claim_C4 lwwNat _ _ true h1 h2⟩

/-- Counterexample to C4 as stated: composing the builder-made saturated
delta `retain(N_MAX).retain(N_MAX)` with itself yields two adjacent retains
with equal attributes — mergeable neighbors do occur at saturation. -/
theorem claim_C4_counterexample :
    ¬ (((Delta.new : Delta Char Nat).retain usizeMax (some 1)
        |>.retain usizeMax (some 1)).compose lwwNat
        ((Delta.new : Delta Char Nat).retain usizeMax (some 1)
          |>.retain usizeMax (some 1))).ops.Chain'
      (fun x y => ¬ mergeable x y) := by
  have h : (((Delta.new : Delta Char Nat).retain usizeMax (some 1)
      |>.retain usizeMax (some 1)).compose lwwNat
      ((Delta.new : Delta Char Nat).retain usizeMax (some 1)
        |>.retain usizeMax (some 1))).ops =
      [Op.retain usizeMax (some 1), Op.retain usizeMax (some 1)] := by
    simp [Delta.compose, composeList, Delta.ops, Delta.extend, Delta.new,
      Delta.retain, Delta.push, pushRev, Op.len, consOp, chopRev, Delta.chop,
      ocompose, usizeMax, lwwNat]
  rw [h]
  simp [mergeable]

/-- C2 fails on the code: at the builder-made delta
`delete(5).retain(6, None).delete(1)` and cursor 10, the walk reaches the
final `Delete` with `index = 5 < offset = 6` while the loop guard
`offset > rhs` has not fired, so the Rust expression `index - offset`
overflows `usize` (a panic in debug builds); the embedding returns `none`. -/
theorem claim_C2_failing :
    (((Delta.new : Delta Char Nat).delete 5 |>.retain 6 none
      |>.delete 1).transformIdx 10 true = none) ∧
    (((Delta.new : Delta Char Nat).delete 5 |>.retain 6 none
      |>.delete 1).transformIdx 10 false = none) := by
  decide

/-- C8: for `D = retain(2, ()).insert("A", ())` (the builder wraps `()` into
`Some(())`), an insert at exactly the cursor leaves the cursor in place under
priority and pushes it forward otherwise. -/
theorem claim_C8 :
    (((Delta.new : Delta Char Unit).retain 2 (some ())
      |>.insert ['A'] (some ())).transformIdx 2 true = some 2) ∧
    (((Delta.new : Delta Char Unit).retain 2 (some ())
      |>.insert ['A'] (some ())).transformIdx 2 false = some 3) := by
  decide

/-- UTF-8 code-unit count of a scalar, for contrast with the scalar count. -/
def charUtf8Len (c : Char) : Nat :=
  if c.toNat < 0x80 then 1
  else if c.toNat < 0x800 then 2
  else if c.toNat < 0x10000 then 3
  else 4

def utf8Len (v : List Char) : Nat := (v.map charUtf8Len).sum

/-- UTF-16 code-unit count of a scalar. -/
def charUtf16Len (c : Char) : Nat :=
  if c.toNat < 0x10000 then 1 else 2

def utf16Len (v : List Char) : Nat := (v.map charUtf16Len).sum

/-- C9: for string values (`Len for String` iterates `chars()`, i.e. Unicode
scalar values), length is the scalar count and splitting an insert at `k`
splits after exactly `k` scalars — element-wise on the scalar list, never
mid-scalar.  The concrete value `"é𝄞"` separates the scalar count (2) from
the UTF-8 count (6) and the UTF-16 count (3); `"e" ++ combining accent` has
two scalars though it is a single grapheme cluster. -/
theorem claim_C9 :
    (∀ (v : List Char) (a : Option Nat), (Op.insert v a).len = v.length) ∧
    (∀ (v : List Char) (a : Option Nat) (k : Nat),
      Op.split (Op.insert v a) k =
        (Op.insert (v.take (min v.length k)) a,
         Op.insert (v.drop (min v.length k)) a)) ∧
    ((Op.insert ['é', '𝄞'] (none : Option Nat)).len = 2 ∧
      utf8Len ['é', '𝄞'] = 6 ∧ utf16Len ['é', '𝄞'] = 3) ∧
    (Op.insert ['e', Char.ofNat 0x0301] (none : Option Nat)).len = 2 := by
  refine ⟨fun v a => rfl, fun v a k => rfl, ?_, ?_⟩
  · decide
  · decide

/-- C10: whenever delta-level transform converts one of Alice's inserts into
a retain (insert-vs-insert with priority, insert-vs-retain,
insert-vs-delete), the emitted retain is `as_retain`: length equal to the
insert's length and attributes `None`, whatever Alice's attributes were. -/
theorem claim_C10 {α β : Type} :
    (∀ (v : List α) (a : Option β),
      Op.asRetain v a = Op.retain v.length none) ∧
    (∀ (i : List α) (ia : Option β) (as : List (Op α β)) (j : List α)
        (ja : Option β) (bs : List (Op α β)),
      (transformList true (Op.insert i ia :: as)
        (Op.insert j ja :: bs)).1.head? = some (Op.retain i.length none)) ∧
    (∀ (priority : Bool) (i : List α) (ia : Option β) (as : List (Op α β))
        (r : Nat) (ra : Option β) (bs : List (Op α β)),
      (transformList priority (Op.insert i ia :: as)
        (Op.retain r ra :: bs)).1.head? = some (Op.retain i.length none)) ∧
    (∀ (priority : Bool) (i : List α) (ia : Option β) (as : List (Op α β))
        (d : Nat) (bs : List (Op α β)),
      (transformList priority (Op.insert i ia :: as)
        (Op.delete d :: bs)).1.head? = some (Op.retain i.length none)) := by
  refine ⟨fun v a => rfl, ?_, ?_, ?_⟩
  · intro i ia as j ja bs
    simp [transformList, Op.asRetain]
  · intro priority i ia as r ra bs
    simp [transformList, Op.asRetain]
  · intro priority i ia as d bs
    simp [transformList, Op.asRetain]

/-! ## Atomic decomposition

To settle the convergence law, every op is decomposed into unit-length
atoms: one atom per inserted element, per retained element, per deleted
element.  `Delta::push` only ever merges, splits, or swaps ops in ways that
preserve the atom stream up to (a) commuting a deleted range with an
insertion that happens at the same position (the `Delete`/`Insert` swap) and
(b) trailing bare retains (`chop`).  `reorder` normalises (a) by floating
each delete atom rightwards past the insert atoms that follow it;
`dropBare` normalises (b). -/

inductive Atom (α β : Type) where
  | aIns (e : α) (attrs : Option β)
  | aRet (attrs : Option β)
  | aDel
  deriving DecidableEq, Repr

namespace Atom

def isIns {α β : Type} : Atom α β → Prop
  | aIns _ _ => True
  | _ => False

instance {α β : Type} (a : Atom α β) : Decidable a.isIns := by
  cases a <;> simp only [isIns] <;> infer_instance

end Atom

/-- The atoms of one op: one `aIns` per inserted element, `count` copies of
`aRet`/`aDel` for retains and deletes. -/
def atomOp {α β : Type} : Op α β → List (Atom α β)
  | Op.insert v a => v.map (fun e => Atom.aIns e a)
  | Op.retain n a => List.replicate n (Atom.aRet a)
  | Op.delete n => List.replicate n Atom.aDel

/-- The atom stream of an op list. -/
def atomsL {α β : Type} (l : List (Op α β)) : List (Atom α β) :=
  l.flatMap atomOp

/-- Insert a delete atom after the leading insert atoms: a delete commutes
with an insertion made at the very position of the deleted range. -/
def pushDelRight {α β : Type} : List (Atom α β) → List (Atom α β)
  | Atom.aIns e a :: rest => Atom.aIns e a :: pushDelRight rest
  | rest => Atom.aDel :: rest

/-- One step of the reorder normalisation (applied by `List.foldr`). -/
def rstep {α β : Type} (a : Atom α β) (acc : List (Atom α β)) :
    List (Atom α β) :=
  match a with
  | Atom.aDel => pushDelRight acc
  | x => x :: acc

/-- Normalise delete/insert order: within every maximal insert/delete
cluster, insert atoms come first. -/
def reorder {α β : Type} (l : List (Atom α β)) : List (Atom α β) :=
  l.foldr rstep []

def dropBareRev {α β : Type} : List (Atom α β) → List (Atom α β)
  | Atom.aRet none :: rest => dropBareRev rest
  | l => l

/-- Drop trailing bare retain atoms (the atom-level `chop`). -/
def dropBare {α β : Type} (l : List (Atom α β)) : List (Atom α β) :=
  (dropBareRev l.reverse).reverse

/-- Full atom-level normal form. -/
def nfa {α β : Type} (l : List (Atom α β)) : List (Atom α β) :=
  dropBare (reorder l)

theorem reorder_cons {α β : Type} (a : Atom α β) (l : List (Atom α β)) :
    reorder (a :: l) = rstep a (reorder l) := rfl

theorem reorder_nil {α β : Type} : reorder ([] : List (Atom α β)) = [] := rfl

/-- Streams equal under the reorder fold from every accumulator: the
congruence-friendly form of "equal up to delete/insert commutation". -/
def atEq {α β : Type} (x y : List (Atom α β)) : Prop :=
  ∀ acc : List (Atom α β), x.foldr rstep acc = y.foldr rstep acc

theorem atEq.refl {α β : Type} (x : List (Atom α β)) : atEq x x :=
  fun _ => rfl

theorem atEq.trans {α β : Type} {x y z : List (Atom α β)}
    (h1 : atEq x y) (h2 : atEq y z) : atEq x z :=
  fun acc => (h1 acc).trans (h2 acc)

theorem atEq.symm {α β : Type} {x y : List (Atom α β)} (h : atEq x y) :
    atEq y x :=
  fun acc => (h acc).symm

theorem atEq_reorder {α β : Type} {x y : List (Atom α β)} (h : atEq x y) :
    reorder x = reorder y := h []

theorem atEq_append_left {α β : Type} (w : List (Atom α β))
    {x y : List (Atom α β)} (h : atEq x y) : atEq (w ++ x) (w ++ y) := by
  intro acc
  rw [List.foldr_append, List.foldr_append, h acc]

theorem atEq_append_right {α β : Type} {x y : List (Atom α β)}
    (z : List (Atom α β)) (h : atEq x y) : atEq (x ++ z) (y ++ z) := by
  intro acc
  rw [List.foldr_append, List.foldr_append, h (List.foldr rstep acc z)]

theorem pushDelRight_ins_block {α β : Type} {pre : List (Atom α β)}
    (u : List (Atom α β)) (h : ∀ x ∈ pre, x.isIns) :
    pushDelRight (pre ++ u) = pre ++ pushDelRight u := by
  induction pre with
  | nil => rfl
  | cons x rest ih =>
      cases x with
      | aIns e a =>
          simp only [List.cons_append, pushDelRight, List.append_eq]
          rw [ih (fun x hx => h x (List.mem_cons_of_mem _ hx))]
      | aRet a =>
          exact absurd (h (Atom.aRet a) (List.mem_cons_self _ _))
            (by simp [Atom.isIns])
      | aDel =>
          exact absurd (h Atom.aDel (List.mem_cons_self _ _))
            (by simp [Atom.isIns])

theorem pushDelRight_not_ins {α β : Type} {u : List (Atom α β)}
    (h : ∀ x ∈ u.head?, ¬x.isIns) : pushDelRight u = Atom.aDel :: u := by
  match u with
  | [] => rfl
  | Atom.aIns e a :: rest =>
      exact absurd (by simp [Atom.isIns] : (Atom.aIns e a : Atom α β).isIns)
        (h _ (by simp))
  | Atom.aRet a :: rest => rfl
  | Atom.aDel :: rest => rfl

theorem pushDelRight_append_not_ins {α β : Type} (A : List (Atom α β))
    {rs : List (Atom α β)} (h : ∀ x ∈ rs.head?, ¬x.isIns) :
    pushDelRight (A ++ rs) = pushDelRight A ++ rs := by
  induction A with
  | nil =>
      rw [List.nil_append, pushDelRight_not_ins h]
      rfl
  | cons x rest ih =>
      cases x with
      | aIns e a =>
          simp only [List.cons_append, pushDelRight, List.append_eq]
          rw [ih]
      | aRet a => rfl
      | aDel => rfl

theorem foldr_rstep_tail_not_ins {α β : Type} (l : List (Atom α β))
    {rs : List (Atom α β)} (h : ∀ x ∈ rs.head?, ¬x.isIns) :
    l.foldr rstep rs = l.foldr rstep [] ++ rs := by
  induction l with
  | nil => rfl
  | cons a rest ih =>
      simp only [List.foldr_cons, ih]
      cases a with
      | aIns e at1 => rfl
      | aRet at1 => rfl
      | aDel =>
          simp only [rstep]
          exact pushDelRight_append_not_ins _ h

theorem foldr_rstep_map_ins {α β : Type} (v : List α) (a : Option β)
    (t : List (Atom α β)) (acc : List (Atom α β)) :
    (v.map (fun e => Atom.aIns e a) ++ t).foldr rstep acc =
      v.map (fun e => Atom.aIns e a) ++ t.foldr rstep acc := by
  induction v with
  | nil => rfl
  | cons e rest ih => simp only [List.map_cons, List.cons_append,
      List.foldr_cons, ih, rstep]

theorem foldr_rstep_replicate_ret {α β : Type} (k : Nat) (a : Option β)
    (t : List (Atom α β)) (acc : List (Atom α β)) :
    (List.replicate k (Atom.aRet a) ++ t).foldr rstep acc =
      List.replicate k (Atom.aRet a) ++ t.foldr rstep acc := by
  induction k with
  | zero => rfl
  | succ n ih => simp only [List.replicate_succ, List.cons_append,
      List.foldr_cons, ih, rstep]

/-- The atom-level content of the `Delete`/`Insert` swap in `Delta::push`:
insert atoms commute leftwards past the delete atoms they were pushed
after. -/
theorem atEq_ins_del_comm {α β : Type} (v : List α) (a : Option β) (k : Nat)
    (t : List (Atom α β)) :
    atEq (List.replicate k Atom.aDel ++ v.map (fun e => Atom.aIns e a) ++ t)
      (v.map (fun e => Atom.aIns e a) ++ List.replicate k Atom.aDel ++ t) := by
  intro acc
  induction k with
  | zero => simp
  | succ n ih =>
      simp only [List.replicate_succ, List.cons_append, List.foldr_cons,
        List.append_assoc] at ih ⊢
      rw [ih]
      rw [foldr_rstep_map_ins v a (List.replicate n Atom.aDel ++ t) acc,
        foldr_rstep_map_ins v a (Atom.aDel :: (List.replicate n Atom.aDel ++ t)) acc,
        List.foldr_cons]
      simp only [rstep]
      rw [pushDelRight_ins_block _ (by
        intro x hx
        obtain ⟨e, _, rfl⟩ := List.mem_map.mp hx
        simp [Atom.isIns])]

theorem atEq_of_eq {α β : Type} {x y : List (Atom α β)} (h : x = y) :
    atEq x y := by
  subst h
  exact atEq.refl x

theorem dropBare_append_bare {α β : Type} (l : List (Atom α β)) (k : Nat) :
    dropBare (l ++ List.replicate k (Atom.aRet none)) = dropBare l := by
  unfold dropBare
  rw [List.reverse_append, List.reverse_replicate]
  congr 1
  induction k with
  | zero => rfl
  | succ n ih => simpa [List.replicate_succ, dropBareRev] using ih

theorem reorder_append_bare {α β : Type} (l : List (Atom α β)) (k : Nat) :
    reorder (l ++ List.replicate k (Atom.aRet none)) =
      reorder l ++ List.replicate k (Atom.aRet none) := by
  unfold reorder
  rw [List.foldr_append]
  have h1 : (List.replicate k (Atom.aRet none) : List (Atom α β)).foldr
      rstep [] = List.replicate k (Atom.aRet none) := by
    induction k with
    | zero => rfl
    | succ n ih => simp [List.replicate_succ, rstep, ih]
  rw [h1, foldr_rstep_tail_not_ins]
  intro x hx
  cases k with
  | zero => simp at hx
  | succ n =>
      simp only [List.replicate_succ, List.head?_cons, Option.mem_def,
        Option.some.injEq] at hx
      subst hx
      simp [Atom.isIns]

/-- Appending trailing bare retain atoms does not change the normal form. -/
theorem nfa_append_bare {α β : Type} (l : List (Atom α β)) (k : Nat) :
    nfa (l ++ List.replicate k (Atom.aRet none)) = nfa l := by
  unfold nfa
  rw [reorder_append_bare, dropBare_append_bare]

theorem nfa_of_atEq {α β : Type} {x y : List (Atom α β)} (h : atEq x y) :
    nfa x = nfa y := by
  unfold nfa
  rw [atEq_reorder h]

theorem atomsL_nil {α β : Type} : atomsL ([] : List (Op α β)) = [] := rfl

theorem atomsL_cons {α β : Type} (op : Op α β) (l : List (Op α β)) :
    atomsL (op :: l) = atomOp op ++ atomsL l := rfl

theorem atomsL_append {α β : Type} (l1 l2 : List (Op α β)) :
    atomsL (l1 ++ l2) = atomsL l1 ++ atomsL l2 := by
  simp [atomsL]

theorem atomOp_eq_nil {α β : Type} {op : Op α β} (h : op.len = 0) :
    atomOp op = [] := by
  cases op <;> simp_all [atomOp, Op.len]

theorem atomsL_consOp {α β : Type} (x : Op α β) (l : List (Op α β)) :
    atomsL (consOp x l) = atomOp x ++ atomsL l := by
  unfold consOp
  split
  · rw [atomOp_eq_nil (by assumption), List.nil_append]
  · exact atomsL_cons x l

/-- `pushDel` appends exactly `d` delete atoms to the document-order atom
stream. -/
theorem atomsL_pushDel {α β : Type} {X : List (Op α β)} {d : Nat}
    (hmem : ∀ op ∈ X, op.bounded) (hd : d ≤ usizeMax) :
    atomsL (pushDel X d).reverse =
      atomsL X.reverse ++ List.replicate d Atom.aDel := by
  by_cases hd0 : d = 0
  · simp [pushDel, hd0]
  match X with
  | [] =>
      rw [pushDel_nil hd0]
      simp [atomsL, atomOp]
  | Op.delete ld :: rest =>
      have hld : ld ≤ usizeMax := by
        have := hmem _ (List.mem_cons_self _ _)
        simpa [Op.bounded] using this
      by_cases hs : ld + d ≤ usizeMax
      · rw [pushDel_del_merge rest hd0 hs]
        simp only [List.reverse_cons, atomsL_append, atomsL_cons, atomsL_nil,
          atomOp, List.append_nil, List.append_assoc]
        rw [← List.replicate_add]
      · rw [pushDel_del_over rest hd0 hs]
        simp only [List.reverse_cons, atomsL_append, atomsL_cons, atomsL_nil,
          atomOp, List.append_nil, List.append_assoc]
        rw [← List.replicate_add, ← List.replicate_add]
        congr 2
        simp only [usizeMax] at *
        omega
  | Op.insert li la :: rest =>
      rw [pushDel_ins rest hd0]
      simp [List.reverse_cons, atomsL_append, atomsL_cons, atomsL_nil, atomOp,
        List.append_assoc]
  | Op.retain lr la :: rest =>
      rw [pushDel_ret rest hd0]
      simp [List.reverse_cons, atomsL_append, atomsL_cons, atomsL_nil, atomOp,
        List.append_assoc]

/-- `Delta::push` preserves the atom stream up to delete/insert commutation:
the merges preserve it exactly, and the `Delete`/`Insert` swap is the
commutation that `reorder` normalises. -/
theorem atEq_pushRev {α β : Type} [DecidableEq β] {R : List (Op α β)}
    (op : Op α β) (h : CanonRev R) (hb : op.bounded) :
    atEq (atomsL (pushRev R op).reverse) (atomsL R.reverse ++ atomOp op) := by
  by_cases hz : op.len = 0
  · rw [pushRev_zero R hz, atomOp_eq_nil hz, List.append_nil]
    exact atEq.refl _
  induction R with
  | nil =>
      rw [pushRev_nil hz]
      exact atEq_of_eq (by simp [atomsL_cons, atomsL_nil])
  | cons head rest ih =>
      have hho := h.head_ok
      cases head with
      | insert li la =>
          cases op with
          | insert i a =>
              have hzi : i.length ≠ 0 := by simpa [Op.len] using hz
              by_cases hattr : la = a
              · subst hattr
                rw [pushRev_ii_merge rest hzi rfl]
                refine atEq_of_eq ?_
                simp [List.reverse_cons, atomsL_append, atomsL_cons,
                  atomsL_nil, atomOp, List.append_assoc]
              · rw [pushRev_ii_app rest hzi hattr]
                refine atEq_of_eq ?_
                simp [List.reverse_cons, atomsL_append, atomsL_cons,
                  atomsL_nil, atomOp, List.append_assoc]
          | retain r a =>
              have hzr : r ≠ 0 := by simpa [Op.len] using hz
              rw [pushRev_ir rest hzr]
              refine atEq_of_eq ?_
              simp [List.reverse_cons, atomsL_append, atomsL_cons, atomsL_nil,
                atomOp, List.append_assoc]
          | delete d =>
              have hzd : d ≠ 0 := by simpa [Op.len] using hz
              rw [pushRev_id rest hzd]
              refine atEq_of_eq ?_
              simp [List.reverse_cons, atomsL_append, atomsL_cons, atomsL_nil,
                atomOp, List.append_assoc]
      | retain lr la =>
          cases op with
          | insert i a =>
              have hzi : i.length ≠ 0 := by simpa [Op.len] using hz
              rw [pushRev_ri rest hzi]
              refine atEq_of_eq ?_
              simp [List.reverse_cons, atomsL_append, atomsL_cons, atomsL_nil,
                atomOp, List.append_assoc]
          | retain r a =>
              have hzr : r ≠ 0 := by simpa [Op.len] using hz
              have hbr : r ≤ usizeMax := by simpa [Op.bounded] using hb
              have hblr : lr ≤ usizeMax := by
                simpa [Op.bounded] using hho.2
              by_cases hattr : la = a
              · subst hattr
                by_cases hsum : lr + r ≤ usizeMax
                · rw [pushRev_rr_merge rest hzr rfl hsum]
                  refine atEq_of_eq ?_
                  simp only [List.reverse_cons, atomsL_append, atomsL_cons,
                    atomsL_nil, atomOp, List.append_nil, List.append_assoc]
                  rw [← List.replicate_add]
                · rw [pushRev_rr_over rest hzr rfl hsum]
                  refine atEq_of_eq ?_
                  simp only [List.reverse_cons, atomsL_append, atomsL_cons,
                    atomsL_nil, atomOp, List.append_nil, List.append_assoc]
                  rw [← List.replicate_add, ← List.replicate_add]
                  congr 2
                  simp only [usizeMax] at *
                  omega
              · rw [pushRev_rr_app rest hzr hattr]
                refine atEq_of_eq ?_
                simp [List.reverse_cons, atomsL_append, atomsL_cons,
                  atomsL_nil, atomOp, List.append_assoc]
          | delete d =>
              have hzd : d ≠ 0 := by simpa [Op.len] using hz
              rw [pushRev_rd rest hzd]
              refine atEq_of_eq ?_
              simp [List.reverse_cons, atomsL_append, atomsL_cons, atomsL_nil,
                atomOp, List.append_assoc]
      | delete ld =>
          have hbld : ld ≤ usizeMax := by
            simpa [Op.bounded] using hho.2
          cases op with
          | insert i a =>
              have hzi : i.length ≠ 0 := by simpa [Op.len] using hz
              rw [pushRev_di rest hzi]
              have hrest : CanonRev rest := h.tail
              have hpush : CanonRev (pushRev rest (Op.insert i a)) :=
                canonRev_pushRev _ hrest hb
              rw [atomsL_pushDel (fun x hx => (hpush.1 x hx).2) hbld]
              refine atEq.trans (atEq_append_right _ (ih hrest)) ?_
              have hcomm := (atEq_ins_del_comm i a ld ([] : List (Atom α β))).symm
              refine atEq.trans (atEq_of_eq ?_)
                (atEq.trans (atEq_append_left (atomsL rest.reverse) hcomm)
                  (atEq_of_eq ?_))
              · simp [atomOp, List.append_assoc]
              · simp [List.reverse_cons, atomsL_append, atomsL_cons,
                  atomsL_nil, atomOp, List.append_assoc]
          | retain r a =>
              have hzr : r ≠ 0 := by simpa [Op.len] using hz
              rw [pushRev_dr rest hzr]
              refine atEq_of_eq ?_
              simp [List.reverse_cons, atomsL_append, atomsL_cons, atomsL_nil,
                atomOp, List.append_assoc]
          | delete d =>
              have hzd : d ≠ 0 := by simpa [Op.len] using hz
              have hbd : d ≤ usizeMax := by simpa [Op.bounded] using hb
              by_cases hsum : ld + d ≤ usizeMax
              · rw [pushRev_dd_merge rest hzd hsum]
                refine atEq_of_eq ?_
                simp only [List.reverse_cons, atomsL_append, atomsL_cons,
                  atomsL_nil, atomOp, List.append_nil, List.append_assoc]
                rw [← List.replicate_add]
              · rw [pushRev_dd_over rest hzd hsum]
                refine atEq_of_eq ?_
                simp only [List.reverse_cons, atomsL_append, atomsL_cons,
                  atomsL_nil, atomOp, List.append_nil, List.append_assoc]
                rw [← List.replicate_add, ← List.replicate_add]
                congr 2
                simp only [usizeMax] at *
                omega

/-- Pushing a whole op list preserves the atom stream up to commutation. -/
theorem atEq_foldl_pushRev {α β : Type} [DecidableEq β] (s : List (Op α β))
    (acc : List (Op α β)) (hacc : CanonRev acc)
    (hb : ∀ op ∈ s, op.bounded) :
    atEq (atomsL (s.foldl pushRev acc).reverse)
      (atomsL acc.reverse ++ atomsL s) := by
  induction s generalizing acc with
  | nil => exact atEq_of_eq (by simp [atomsL_nil])
  | cons op rest ih =>
      rw [List.foldl_cons]
      refine atEq.trans (ih (pushRev acc op)
        (canonRev_pushRev op hacc (hb op (by simp)))
        (fun x hx => hb x (List.mem_cons_of_mem _ hx))) ?_
      refine atEq.trans (atEq_append_right _ (atEq_pushRev op hacc
        (hb op (by simp)))) ?_
      exact atEq_of_eq (by simp [atomsL_cons, List.append_assoc])

/-- `chop` only removes trailing bare-retain atoms. -/
theorem atomsL_chopRev {α β : Type} (X : List (Op α β)) :
    ∃ k : Nat, atomsL X.reverse =
      atomsL (chopRev X).reverse ++ List.replicate k (Atom.aRet none) := by
  induction X with
  | nil => exact ⟨0, by simp [chopRev]⟩
  | cons op rest ih =>
      cases op with
      | insert i a => exact ⟨0, by simp [chopRev]⟩
      | retain c a =>
          cases a with
          | none =>
              obtain ⟨k, hk⟩ := ih
              refine ⟨k + c, ?_⟩
              rw [List.reverse_cons, atomsL_append, hk]
              have hch : chopRev (Op.retain c none :: rest) = chopRev rest := rfl
              rw [hch]
              simp only [atomsL_cons, atomsL_nil, atomOp, List.append_nil,
                List.append_assoc, ← List.replicate_add]
          | some x => exact ⟨0, by simp [chopRev]⟩
      | delete c => exact ⟨0, by simp [chopRev]⟩

/-- The normalised atom stream of a pushed-and-chopped delta is the
normalised atom stream of the pushed op list. -/
theorem nfa_extend_chop {α β : Type} [DecidableEq β] (s : List (Op α β))
    (hb : ∀ op ∈ s, op.bounded) :
    nfa (atomsL ((Delta.new.extend s).chop.ops)) = nfa (atomsL s) := by
  have h1 : (Delta.new.extend s).chop.ops = (chopRev (s.foldl pushRev [])).reverse := by
    simp [Delta.chop, Delta.ops, Delta.extend_rev, Delta.new]
  rw [h1]
  obtain ⟨k, hk⟩ := atomsL_chopRev (s.foldl pushRev [])
  have h2 : nfa (atomsL (s.foldl pushRev []).reverse) =
      nfa (atomsL (chopRev (s.foldl pushRev [])).reverse) := by
    rw [hk, nfa_append_bare]
  rw [← h2]
  refine nfa_of_atEq ?_
  refine atEq.trans (atEq_foldl_pushRev s [] canonRev_nil hb) ?_
  exact atEq_of_eq (by simp [atomsL_nil])

/-- Atom-level compose: the 3×3 table of `src/compose.rs` specialised to
unit-length ops (Bob's insert always wins and leaves Alice's atom alone;
aligned pairs consume one atom from each side; Alice's deletes pass through
consuming nothing of Bob). -/
def aCompose {α β : Type} (acomp : β → β → β) :
    List (Atom α β) → List (Atom α β) → List (Atom α β)
  | [], l2 => l2
  | l1, [] => l1
  | a :: as, Atom.aIns e ba :: bs =>
      Atom.aIns e ba :: aCompose acomp (a :: as) bs
  | Atom.aIns e aa :: as, Atom.aRet ba :: bs =>
      Atom.aIns e (ocompose acomp aa ba) :: aCompose acomp as bs
  | Atom.aIns _ _ :: as, Atom.aDel :: bs => aCompose acomp as bs
  | Atom.aRet aa :: as, Atom.aRet ba :: bs =>
      Atom.aRet (ocompose acomp aa ba) :: aCompose acomp as bs
  | Atom.aRet _ :: as, Atom.aDel :: bs => Atom.aDel :: aCompose acomp as bs
  | Atom.aDel :: as, b :: bs => Atom.aDel :: aCompose acomp as (b :: bs)
  termination_by l1 l2 => l1.length + l2.length
  decreasing_by all_goals simp only [List.length_cons]; omega

/-- Atom-level transform: the 3×3 table of `src/transform.rs` specialised to
unit-length ops. -/
def aTransform {α β : Type} (priority : Bool) :
    List (Atom α β) → List (Atom α β) → List (Atom α β)
  | [], l2 => l2
  | _, [] => []
  | Atom.aIns f aa :: as, Atom.aIns e ba :: bs =>
      if priority then
        Atom.aRet none :: aTransform priority as (Atom.aIns e ba :: bs)
      else
        Atom.aIns e ba :: aTransform priority (Atom.aIns f aa :: as) bs
  | Atom.aIns _ _ :: as, b :: bs =>
      Atom.aRet none :: aTransform priority as (b :: bs)
  | a :: as, Atom.aIns e ba :: bs =>
      Atom.aIns e ba :: aTransform priority (a :: as) bs
  | Atom.aRet aa :: as, Atom.aRet ba :: bs =>
      Atom.aRet (if priority then oor aa ba else oor ba aa) ::
        aTransform priority as bs
  | Atom.aRet _ :: as, Atom.aDel :: bs => Atom.aDel :: aTransform priority as bs
  | Atom.aDel :: as, Atom.aRet _ :: bs => aTransform priority as bs
  | Atom.aDel :: as, Atom.aDel :: bs => aTransform priority as bs
  termination_by l1 l2 => l1.length + l2.length
  decreasing_by all_goals simp only [List.length_cons]; omega

theorem aCompose_nil_left {α β : Type} (acomp : β → β → β)
    (l : List (Atom α β)) : aCompose acomp [] l = l := by
  cases l <;> simp [aCompose]

theorem aCompose_nil_right {α β : Type} (acomp : β → β → β)
    (l : List (Atom α β)) : aCompose acomp l [] = l := by
  cases l <;> simp [aCompose]

theorem aTransform_nil_left {α β : Type} (priority : Bool)
    (l : List (Atom α β)) : aTransform priority [] l = l := by
  cases l <;> simp [aTransform]

theorem aTransform_nil_right {α β : Type} (priority : Bool)
    (l : List (Atom α β)) : aTransform priority l [] = [] := by
  cases l <;> simp [aTransform]

/-- Bob's insert atoms are emitted whole; Alice's stream is untouched. -/
theorem aCompose_ins_col {α β : Type} (acomp : β → β → β)
    (X : List (Atom α β)) (v : List α) (b : Option β)
    (B : List (Atom α β)) :
    aCompose acomp X (v.map (fun e => Atom.aIns e b) ++ B) =
      v.map (fun e => Atom.aIns e b) ++ aCompose acomp X B := by
  induction v with
  | nil => simp
  | cons e v' ih =>
      cases X with
      | nil => simp [aCompose_nil_left]
      | cons x xs =>
          simp only [List.map_cons, List.cons_append]
          rw [aCompose, ih]

/-- Alice's insert atoms against Bob's retains: pairwise composition. -/
theorem aCompose_ins_ret {α β : Type} (acomp : β → β → β) (v : List α)
    (a : Option β) (r : Nat) (ra : Option β) (A B : List (Atom α β)) :
    aCompose acomp (v.map (fun e => Atom.aIns e a) ++ A)
        (List.replicate r (Atom.aRet ra) ++ B) =
      (v.take (min v.length r)).map
          (fun e => Atom.aIns e (ocompose acomp a ra)) ++
        aCompose acomp ((v.drop (min v.length r)).map
          (fun e => Atom.aIns e a) ++ A)
          (List.replicate (r - min v.length r) (Atom.aRet ra) ++ B) := by
  induction r generalizing v with
  | zero => simp
  | succ n ih =>
      cases v with
      | nil => simp
      | cons e v' =>
          simp only [List.map_cons, List.cons_append, List.replicate_succ,
            List.length_cons]
          rw [aCompose]
          have hmin : min (v'.length + 1) (n + 1) = min v'.length n + 1 := by
            omega
          rw [hmin]
          simp only [List.take_succ_cons, List.drop_succ_cons, List.map_cons,
            List.cons_append, Nat.add_sub_add_right]
          rw [ih v']

/-- Alice's insert atoms against Bob's deletes: pairwise annihilation. -/
theorem aCompose_ins_del {α β : Type} (acomp : β → β → β) (v : List α)
    (a : Option β) (d : Nat) (A B : List (Atom α β)) :
    aCompose acomp (v.map (fun e => Atom.aIns e a) ++ A)
        (List.replicate d Atom.aDel ++ B) =
      aCompose acomp ((v.drop (min v.length d)).map
          (fun e => Atom.aIns e a) ++ A)
        (List.replicate (d - min v.length d) Atom.aDel ++ B) := by
  induction d generalizing v with
  | zero => simp
  | succ n ih =>
      cases v with
      | nil => simp
      | cons e v' =>
          simp only [List.map_cons, List.cons_append, List.replicate_succ,
            List.length_cons]
          rw [aCompose]
          have hmin : min (v'.length + 1) (n + 1) = min v'.length n + 1 := by
            omega
          rw [hmin]
          simp only [List.drop_succ_cons, Nat.add_sub_add_right]
          exact ih v'

/-- Aligned retains compose pairwise. -/
theorem aCompose_ret_ret {α β : Type} (acomp : β → β → β) (r1 : Nat)
    (a1 : Option β) (r2 : Nat) (a2 : Option β) (A B : List (Atom α β)) :
    aCompose acomp (List.replicate r1 (Atom.aRet a1) ++ A)
        (List.replicate r2 (Atom.aRet a2) ++ B) =
      List.replicate (min r1 r2) (Atom.aRet (ocompose acomp a1 a2)) ++
        aCompose acomp (List.replicate (r1 - min r1 r2) (Atom.aRet a1) ++ A)
          (List.replicate (r2 - min r1 r2) (Atom.aRet a2) ++ B) := by
  induction r1 generalizing r2 with
  | zero => simp
  | succ n ih =>
      cases r2 with
      | zero => simp
      | succ m =>
          simp only [List.replicate_succ, List.cons_append]
          rw [aCompose]
          have hmin : min (n + 1) (m + 1) = min n m + 1 := by omega
          rw [hmin]
          simp only [List.replicate_succ, List.cons_append,
            Nat.add_sub_add_right]
          rw [ih m]

/-- Alice's retains against Bob's deletes delete pairwise. -/
theorem aCompose_ret_del {α β : Type} (acomp : β → β → β) (r1 : Nat)
    (a1 : Option β) (d : Nat) (A B : List (Atom α β)) :
    aCompose acomp (List.replicate r1 (Atom.aRet a1) ++ A)
        (List.replicate d Atom.aDel ++ B) =
      List.replicate (min r1 d) Atom.aDel ++
        aCompose acomp (List.replicate (r1 - min r1 d) (Atom.aRet a1) ++ A)
          (List.replicate (d - min r1 d) Atom.aDel ++ B) := by
  induction r1 generalizing d with
  | zero => simp
  | succ n ih =>
      cases d with
      | zero => simp
      | succ m =>
          simp only [List.replicate_succ, List.cons_append]
          rw [aCompose]
          have hmin : min (n + 1) (m + 1) = min n m + 1 := by omega
          rw [hmin]
          simp only [List.replicate_succ, List.cons_append,
            Nat.add_sub_add_right]
          rw [ih m]

/-- Alice's deletes pass through whole whenever Bob's next atom is not an
insert. -/
theorem aCompose_del_row {α β : Type} (acomp : β → β → β) (d : Nat)
    (A : List (Atom α β)) {B : List (Atom α β)}
    (h : ∀ x ∈ B.head?, ¬x.isIns) :
    aCompose acomp (List.replicate d Atom.aDel ++ A) B =
      List.replicate d Atom.aDel ++ aCompose acomp A B := by
  induction d with
  | zero => simp
  | succ n ih =>
      simp only [List.replicate_succ, List.cons_append]
      match B, h with
      | [], _ =>
          rw [aCompose_nil_right, aCompose_nil_right]
      | Atom.aIns e b :: bs, h =>
          exact absurd (by simp [Atom.isIns] :
            (Atom.aIns e b : Atom α β).isIns) (h _ (by simp))
      | Atom.aRet b :: bs, _ =>
          rw [aCompose, ih]
          simp
      | Atom.aDel :: bs, _ =>
          rw [aCompose, ih]
          simp

/-- Alice's insert atoms each become a bare retain (the `as_retain` arm),
leaving Bob's stream untouched, whenever Alice has priority or Bob's next
atom is not an insert. -/
theorem aTransform_ins_row {α β : Type} {priority : Bool} (v : List α)
    (a : Option β) (A : List (Atom α β)) {B : List (Atom α β)}
    (hB : B ≠ [])
    (hp : priority = true ∨ ∀ x ∈ B.head?, ¬x.isIns) :
    aTransform priority (v.map (fun e => Atom.aIns e a) ++ A) B =
      List.replicate v.length (Atom.aRet none) ++ aTransform priority A B := by
  cases B with
  | nil => exact absurd rfl hB
  | cons b bs =>
      induction v with
      | nil => simp
      | cons e v' ih =>
          simp only [List.map_cons, List.cons_append, List.length_cons,
            List.replicate_succ]
          cases b with
          | aIns f ba =>
              have hpt : priority = true := by
                rcases hp with h | h
                · exact h
                · exact absurd (by simp [Atom.isIns] :
                    (Atom.aIns f ba : Atom α β).isIns) (h _ (by simp))
              subst hpt
              rw [aTransform]
              rw [ih, if_pos rfl]
          | aRet ba =>
              rw [aTransform, ih]
              simp
          | aDel =>
              rw [aTransform, ih]
              simp

/-- Bob's insert atoms are emitted whole, leaving Alice's stream untouched,
whenever Bob has priority or Alice's next atom is not an insert. -/
theorem aTransform_ins_col {α β : Type} {priority : Bool}
    {X : List (Atom α β)} (w : List α) (b : Option β) (B : List (Atom α β))
    (hX : X ≠ [])
    (hp : priority = false ∨ ∀ x ∈ X.head?, ¬x.isIns) :
    aTransform priority X (w.map (fun e => Atom.aIns e b) ++ B) =
      w.map (fun e => Atom.aIns e b) ++ aTransform priority X B := by
  cases X with
  | nil => exact absurd rfl hX
  | cons x xs =>
      induction w with
      | nil => simp
      | cons e w' ih =>
          simp only [List.map_cons, List.cons_append]
          cases x with
          | aIns f aa =>
              have hpf : priority = false := by
                rcases hp with h | h
                · exact h
                · exact absurd (by simp [Atom.isIns] :
                    (Atom.aIns f aa : Atom α β).isIns) (h _ (by simp))
              subst hpf
              rw [aTransform]
              rw [ih, if_neg (by simp)]
          | aRet aa =>
              rw [aTransform, ih]
              simp
          | aDel =>
              rw [aTransform, ih]
              simp

/-- Aligned retains keep the priority-ordered first present attribute. -/
theorem aTransform_ret_ret {α β : Type} (priority : Bool) (r1 : Nat)
    (a1 : Option β) (r2 : Nat) (a2 : Option β) (A B : List (Atom α β)) :
    aTransform priority (List.replicate r1 (Atom.aRet a1) ++ A)
        (List.replicate r2 (Atom.aRet a2) ++ B) =
      List.replicate (min r1 r2)
          (Atom.aRet (if priority then oor a1 a2 else oor a2 a1)) ++
        aTransform priority
          (List.replicate (r1 - min r1 r2) (Atom.aRet a1) ++ A)
          (List.replicate (r2 - min r1 r2) (Atom.aRet a2) ++ B) := by
  induction r1 generalizing r2 with
  | zero => simp
  | succ n ih =>
      cases r2 with
      | zero => simp
      | succ m =>
          simp only [List.replicate_succ, List.cons_append]
          rw [aTransform]
          have hmin : min (n + 1) (m + 1) = min n m + 1 := by omega
          rw [hmin]
          simp only [List.replicate_succ, List.cons_append,
            Nat.add_sub_add_right]
          rw [ih m]

/-- Alice's retains against Bob's deletes delete pairwise. -/
theorem aTransform_ret_del {α β : Type} (priority : Bool) (r1 : Nat)
    (a1 : Option β) (d : Nat) (A B : List (Atom α β)) :
    aTransform priority (List.replicate r1 (Atom.aRet a1) ++ A)
        (List.replicate d Atom.aDel ++ B) =
      List.replicate (min r1 d) Atom.aDel ++
        aTransform priority
          (List.replicate (r1 - min r1 d) (Atom.aRet a1) ++ A)
          (List.replicate (d - min r1 d) Atom.aDel ++ B) := by
  induction r1 generalizing d with
  | zero => simp
  | succ n ih =>
      cases d with
      | zero => simp
      | succ m =>
          simp only [List.replicate_succ, List.cons_append]
          rw [aTransform]
          have hmin : min (n + 1) (m + 1) = min n m + 1 := by omega
          rw [hmin]
          simp only [List.replicate_succ, List.cons_append,
            Nat.add_sub_add_right]
          rw [ih m]

/-- Alice's deletes against Bob's retains annihilate pairwise, emitting
nothing. -/
theorem aTransform_del_ret {α β : Type} (priority : Bool) (d : Nat)
    (r : Nat) (ra : Option β) (A B : List (Atom α β)) :
    aTransform priority (List.replicate d Atom.aDel ++ A)
        (List.replicate r (Atom.aRet ra) ++ B) =
      aTransform priority (List.replicate (d - min d r) Atom.aDel ++ A)
        (List.replicate (r - min d r) (Atom.aRet ra) ++ B) := by
  induction d generalizing r with
  | zero => simp
  | succ n ih =>
      cases r with
      | zero => simp
      | succ m =>
          simp only [List.replicate_succ, List.cons_append]
          rw [aTransform]
          have hmin : min (n + 1) (m + 1) = min n m + 1 := by omega
          rw [hmin]
          simp only [Nat.add_sub_add_right]
          exact ih m

/-- Aligned deletes annihilate pairwise, emitting nothing. -/
theorem aTransform_del_del {α β : Type} (priority : Bool) (d1 d2 : Nat)
    (A B : List (Atom α β)) :
    aTransform priority (List.replicate d1 Atom.aDel ++ A)
        (List.replicate d2 Atom.aDel ++ B) =
      aTransform priority (List.replicate (d1 - min d1 d2) Atom.aDel ++ A)
        (List.replicate (d2 - min d1 d2) Atom.aDel ++ B) := by
  induction d1 generalizing d2 with
  | zero => simp
  | succ n ih =>
      cases d2 with
      | zero => simp
      | succ m =>
          simp only [List.replicate_succ, List.cons_append]
          rw [aTransform]
          have hmin : min (n + 1) (m + 1) = min n m + 1 := by omega
          rw [hmin]
          simp only [Nat.add_sub_add_right]
          exact ih m

theorem consOp_len_ne_zero {α β : Type} {x : Op α β} {l : List (Op α β)}
    (hl : ∀ op ∈ l, op.len ≠ 0) : ∀ op ∈ consOp x l, op.len ≠ 0 := by
  intro op hop
  unfold consOp at hop
  split at hop
  · exact hl op hop
  · rcases List.mem_cons.mp hop with rfl | h
    · assumption
    · exact hl op h

/-- The compose loop is the atom-level compose: concatenating the emitted
ops with both leftovers and atomising gives exactly `aCompose` of the two
input atom streams, provided no input op has length zero. -/
theorem atomsL_composeList {α β : Type} (acomp : β → β → β) :
    ∀ l1 l2 : List (Op α β),
      (∀ op ∈ l1, op.len ≠ 0) → (∀ op ∈ l2, op.len ≠ 0) →
      atomsL (composeList acomp l1 l2).1 ++
          atomsL (composeList acomp l1 l2).2.1 ++
          atomsL (composeList acomp l1 l2).2.2 =
        aCompose acomp (atomsL l1) (atomsL l2) := by
  intro l1 l2
  induction l1, l2 using composeList.induct acomp with
  | case1 l2 =>
      intro _ _
      simp only [composeList, atomsL_nil, List.nil_append, List.append_nil]
      exact (aCompose_nil_left acomp (atomsL l2)).symm
  | case2 l1 hne =>
      intro _ _
      rw [composeList.eq_2 acomp l1 hne]
      simp only [atomsL_nil, List.nil_append, List.append_nil]
      exact (aCompose_nil_right acomp (atomsL l1)).symm
  | case3 a as i ia bs ih =>
      intro h1 h2
      simp only [composeList] at ih ⊢
      have h2' : ∀ op ∈ bs, op.len ≠ 0 := fun op hop => h2 op (by simp [hop])
      have heq := ih h1 h2'
      simp only [atomsL_cons, atomOp, List.append_assoc] at heq ⊢
      rw [heq, aCompose_ins_col]
  | case4 i ia as r ra bs m ih =>
      intro h1 h2
      simp only [composeList] at ih ⊢
      have h1' : ∀ op ∈ as, op.len ≠ 0 := fun op hop => h1 op (by simp [hop])
      have h2' : ∀ op ∈ bs, op.len ≠ 0 := fun op hop => h2 op (by simp [hop])
      have heq := ih (consOp_len_ne_zero h1') (consOp_len_ne_zero h2')
      simp only [atomsL_cons, atomOp, atomsL_consOp, List.append_assoc]
        at heq ⊢
      rw [heq, aCompose_ins_ret acomp i ia r ra (atomsL as) (atomsL bs)]
  | case5 i ia as d bs m ih =>
      intro h1 h2
      simp only [composeList] at ih ⊢
      have h1' : ∀ op ∈ as, op.len ≠ 0 := fun op hop => h1 op (by simp [hop])
      have h2' : ∀ op ∈ bs, op.len ≠ 0 := fun op hop => h2 op (by simp [hop])
      have heq := ih (consOp_len_ne_zero h1') (consOp_len_ne_zero h2')
      simp only [atomsL_cons, atomOp, atomsL_consOp, List.append_assoc,
        List.replicate_zero, List.nil_append] at heq ⊢
      rw [heq, aCompose_ins_del acomp i ia d (atomsL as) (atomsL bs)]
  | case6 r1 a1 as r2 a2 bs m ih =>
      intro h1 h2
      simp only [composeList] at ih ⊢
      have h1' : ∀ op ∈ as, op.len ≠ 0 := fun op hop => h1 op (by simp [hop])
      have h2' : ∀ op ∈ bs, op.len ≠ 0 := fun op hop => h2 op (by simp [hop])
      have heq := ih (consOp_len_ne_zero h1') (consOp_len_ne_zero h2')
      simp only [atomsL_cons, atomOp, atomsL_consOp, List.append_assoc]
        at heq ⊢
      rw [heq, aCompose_ret_ret acomp r1 a1 r2 a2 (atomsL as) (atomsL bs)]
  | case7 r1 a1 as d bs m ih =>
      intro h1 h2
      simp only [composeList] at ih ⊢
      have h1' : ∀ op ∈ as, op.len ≠ 0 := fun op hop => h1 op (by simp [hop])
      have h2' : ∀ op ∈ bs, op.len ≠ 0 := fun op hop => h2 op (by simp [hop])
      have heq := ih (consOp_len_ne_zero h1') (consOp_len_ne_zero h2')
      simp only [atomsL_cons, atomOp, atomsL_consOp, List.append_assoc]
        at heq ⊢
      rw [heq, aCompose_ret_del acomp r1 a1 d (atomsL as) (atomsL bs)]
  | case8 d1 as r2 a2 bs ih =>
      intro h1 h2
      simp only [composeList] at ih ⊢
      have h1' : ∀ op ∈ as, op.len ≠ 0 := fun op hop => h1 op (by simp [hop])
      have hr2 : r2 ≠ 0 := by
        have := h2 _ (List.mem_cons_self _ _)
        simpa [Op.len] using this
      have heq := ih h1' h2
      simp only [atomsL_cons, atomOp, List.append_assoc] at heq ⊢
      rw [heq, aCompose_del_row acomp d1 (atomsL as) (by
        intro x hx
        cases r2 with
        | zero => exact absurd rfl hr2
        | succ k =>
            simp only [List.replicate_succ, List.cons_append,
              List.head?_cons, Option.mem_def, Option.some.injEq] at hx
            subst hx
            simp [Atom.isIns])]
  | case9 d1 as d2 bs ih =>
      intro h1 h2
      simp only [composeList] at ih ⊢
      have h1' : ∀ op ∈ as, op.len ≠ 0 := fun op hop => h1 op (by simp [hop])
      have hd2 : d2 ≠ 0 := by
        have := h2 _ (List.mem_cons_self _ _)
        simpa [Op.len] using this
      have heq := ih h1' h2
      simp only [atomsL_cons, atomOp, List.append_assoc] at heq ⊢
      rw [heq, aCompose_del_row acomp d1 (atomsL as) (by
        intro x hx
        cases d2 with
        | zero => exact absurd rfl hd2
        | succ k =>
            simp only [List.replicate_succ, List.cons_append,
              List.head?_cons, Option.mem_def, Option.some.injEq] at hx
            subst hx
            simp [Atom.isIns])]

/-- The transform loop is the atom-level transform: concatenating the
emitted ops with Bob's leftover and atomising gives exactly `aTransform` of
the two input atom streams, provided no input op has length zero. -/
theorem atomsL_transformList {α β : Type} (priority : Bool) :
    ∀ l1 l2 : List (Op α β),
      (∀ op ∈ l1, op.len ≠ 0) → (∀ op ∈ l2, op.len ≠ 0) →
      atomsL (transformList priority l1 l2).1 ++
          atomsL (transformList priority l1 l2).2 =
        aTransform priority (atomsL l1) (atomsL l2) := by
  intro l1 l2
  induction l1, l2 using transformList.induct priority with
  | case1 l2 =>
      intro _ _
      simp only [transformList, atomsL_nil, List.nil_append]
      exact (aTransform_nil_left priority (atomsL l2)).symm
  | case2 l1 hne =>
      intro _ _
      rw [transformList.eq_2 priority l1 hne]
      simp only [atomsL_nil, List.nil_append, List.append_nil]
      exact (aTransform_nil_right priority (atomsL l1)).symm
  | case3 i ia as j ja bs hp ih =>
      intro h1 h2
      subst hp
      have hj : j ≠ [] := by
        have := h2 _ (List.mem_cons_self _ _)
        simpa [Op.len, List.length_eq_zero] using this
      have hB : (j.map (fun e => Atom.aIns e ja) ++ atomsL bs) ≠ [] := by
        cases j with
        | nil => exact absurd rfl hj
        | cons x xs => simp
      simp only [transformList, reduceIte] at ih ⊢
      have heq := ih (fun op hop => h1 op (by simp [hop])) h2
      simp only [atomsL_cons, atomOp, Op.asRetain, List.append_assoc]
        at heq ⊢
      rw [heq, aTransform_ins_row i ia (atomsL as) hB (Or.inl rfl)]
  | case4 i ia as j ja bs hp ih =>
      intro h1 h2
      have hpf : priority = false := by simpa using hp
      subst hpf
      have hi : i ≠ [] := by
        have := h1 _ (List.mem_cons_self _ _)
        simpa [Op.len, List.length_eq_zero] using this
      have hX : (i.map (fun e => Atom.aIns e ia) ++ atomsL as) ≠ [] := by
        cases i with
        | nil => exact absurd rfl hi
        | cons x xs => simp
      simp only [transformList, Bool.false_eq_true, if_false] at ih ⊢
      have heq := ih h1 (fun op hop => h2 op (by simp [hop]))
      simp only [atomsL_cons, atomOp, List.append_assoc] at heq ⊢
      rw [heq, aTransform_ins_col j ja (atomsL bs) hX (Or.inl rfl)]
  | case5 i ia as r ra bs ih =>
      intro h1 h2
      have hr : r ≠ 0 := by
        have := h2 _ (List.mem_cons_self _ _)
        simpa [Op.len] using this
      have hB : (List.replicate r (Atom.aRet ra) ++ atomsL bs :
          List (Atom α β)) ≠ [] := by
        cases r with
        | zero => exact absurd rfl hr
        | succ k => simp [List.replicate_succ]
      have hhd : ∀ x ∈ (List.replicate r (Atom.aRet ra) ++ atomsL bs :
          List (Atom α β)).head?, ¬x.isIns := by
        intro x hx
        cases r with
        | zero => exact absurd rfl hr
        | succ k =>
            simp only [List.replicate_succ, List.cons_append,
              List.head?_cons, Option.mem_def, Option.some.injEq] at hx
            subst hx
            simp [Atom.isIns]
      simp only [transformList] at ih ⊢
      have heq := ih (fun op hop => h1 op (by simp [hop])) h2
      simp only [atomsL_cons, atomOp, Op.asRetain, List.append_assoc]
        at heq ⊢
      rw [heq, aTransform_ins_row i ia (atomsL as) hB (Or.inr hhd)]
  | case6 i ia as d bs ih =>
      intro h1 h2
      have hd : d ≠ 0 := by
        have := h2 _ (List.mem_cons_self _ _)
        simpa [Op.len] using this
      have hB : (List.replicate d Atom.aDel ++ atomsL bs :
          List (Atom α β)) ≠ [] := by
        cases d with
        | zero => exact absurd rfl hd
        | succ k => simp [List.replicate_succ]
      have hhd : ∀ x ∈ (List.replicate d Atom.aDel ++ atomsL bs :
          List (Atom α β)).head?, ¬x.isIns := by
        intro x hx
        cases d with
        | zero => exact absurd rfl hd
        | succ k =>
            simp only [List.replicate_succ, List.cons_append,
              List.head?_cons, Option.mem_def, Option.some.injEq] at hx
            subst hx
            simp [Atom.isIns]
      simp only [transformList] at ih ⊢
      have heq := ih (fun op hop => h1 op (by simp [hop])) h2
      simp only [atomsL_cons, atomOp, Op.asRetain, List.append_assoc]
        at heq ⊢
      rw [heq, aTransform_ins_row i ia (atomsL as) hB (Or.inr hhd)]
  | case7 r1 a1 as j ja bs ih =>
      intro h1 h2
      have hr1 : r1 ≠ 0 := by
        have := h1 _ (List.mem_cons_self _ _)
        simpa [Op.len] using this
      have hX : (List.replicate r1 (Atom.aRet a1) ++ atomsL as :
          List (Atom α β)) ≠ [] := by
        cases r1 with
        | zero => exact absurd rfl hr1
        | succ k => simp [List.replicate_succ]
      have hhd : ∀ x ∈ (List.replicate r1 (Atom.aRet a1) ++ atomsL as :
          List (Atom α β)).head?, ¬x.isIns := by
        intro x hx
        cases r1 with
        | zero => exact absurd rfl hr1
        | succ k =>
            simp only [List.replicate_succ, List.cons_append,
              List.head?_cons, Option.mem_def, Option.some.injEq] at hx
            subst hx
            simp [Atom.isIns]
      simp only [transformList] at ih ⊢
      have heq := ih h1 (fun op hop => h2 op (by simp [hop]))
      simp only [atomsL_cons, atomOp, List.append_assoc] at heq ⊢
      rw [heq, aTransform_ins_col j ja (atomsL bs) hX (Or.inr hhd)]
  | case8 r1 a1 as r2 a2 bs m ih =>
      intro h1 h2
      simp only [transformList] at ih ⊢
      have h1' : ∀ op ∈ as, op.len ≠ 0 := fun op hop => h1 op (by simp [hop])
      have h2' : ∀ op ∈ bs, op.len ≠ 0 := fun op hop => h2 op (by simp [hop])
      have heq := ih (consOp_len_ne_zero h1') (consOp_len_ne_zero h2')
      simp only [atomsL_cons, atomOp, atomsL_consOp, List.append_assoc]
        at heq ⊢
      rw [heq, aTransform_ret_ret priority r1 a1 r2 a2 (atomsL as)
        (atomsL bs)]
  | case9 r1 a1 as d bs m ih =>
      intro h1 h2
      simp only [transformList] at ih ⊢
      have h1' : ∀ op ∈ as, op.len ≠ 0 := fun op hop => h1 op (by simp [hop])
      have h2' : ∀ op ∈ bs, op.len ≠ 0 := fun op hop => h2 op (by simp [hop])
      have heq := ih (consOp_len_ne_zero h1') (consOp_len_ne_zero h2')
      simp only [atomsL_cons, atomOp, atomsL_consOp, List.append_assoc]
        at heq ⊢
      rw [heq, aTransform_ret_del priority r1 a1 d (atomsL as) (atomsL bs)]
  | case10 d1 as j ja bs ih =>
      intro h1 h2
      have hd1 : d1 ≠ 0 := by
        have := h1 _ (List.mem_cons_self _ _)
        simpa [Op.len] using this
      have hX : (List.replicate d1 Atom.aDel ++ atomsL as :
          List (Atom α β)) ≠ [] := by
        cases d1 with
        | zero => exact absurd rfl hd1
        | succ k => simp [List.replicate_succ]
      have hhd : ∀ x ∈ (List.replicate d1 Atom.aDel ++ atomsL as :
          List (Atom α β)).head?, ¬x.isIns := by
        intro x hx
        cases d1 with
        | zero => exact absurd rfl hd1
        | succ k =>
            simp only [List.replicate_succ, List.cons_append,
              List.head?_cons, Option.mem_def, Option.some.injEq] at hx
            subst hx
            simp [Atom.isIns]
      simp only [transformList] at ih ⊢
      have heq := ih h1 (fun op hop => h2 op (by simp [hop]))
      simp only [atomsL_cons, atomOp, List.append_assoc] at heq ⊢
      rw [heq, aTransform_ins_col j ja (atomsL bs) hX (Or.inr hhd)]
  | case11 d1 as r2 a2 bs m ih =>
      intro h1 h2
      simp only [transformList] at ih ⊢
      have h1' : ∀ op ∈ as, op.len ≠ 0 := fun op hop => h1 op (by simp [hop])
      have h2' : ∀ op ∈ bs, op.len ≠ 0 := fun op hop => h2 op (by simp [hop])
      have heq := ih (consOp_len_ne_zero h1') (consOp_len_ne_zero h2')
      simp only [atomsL_cons, atomOp, atomsL_consOp, List.append_assoc,
        List.replicate_zero, List.nil_append] at heq ⊢
      rw [heq, aTransform_del_ret priority d1 r2 a2 (atomsL as) (atomsL bs)]
  | case12 d1 as d2 bs m ih =>
      intro h1 h2
      simp only [transformList] at ih ⊢
      have h1' : ∀ op ∈ as, op.len ≠ 0 := fun op hop => h1 op (by simp [hop])
      have h2' : ∀ op ∈ bs, op.len ≠ 0 := fun op hop => h2 op (by simp [hop])
      have heq := ih (consOp_len_ne_zero h1') (consOp_len_ne_zero h2')
      simp only [atomsL_cons, atomOp, atomsL_consOp, List.append_assoc,
        List.replicate_zero, List.nil_append] at heq ⊢
      rw [heq, aTransform_del_del priority d1 d2 (atomsL as) (atomsL bs)]

theorem ocompose_none_left {β : Type} (acomp : β → β → β) (x : Option β) :
    ocompose acomp none x = x := by
  cases x <;> rfl

theorem ocompose_none_right {β : Type} (acomp : β → β → β) (x : Option β) :
    ocompose acomp x none = x := by
  cases x <;> rfl

/-- Under a last-write-wins attribute algebra the optional lift is
associative. -/
theorem ocompose_assoc {β : Type} {acomp : β → β → β}
    (hacomp : ∀ x y : β, acomp x y = y) (o1 o2 o3 : Option β) :
    ocompose acomp (ocompose acomp o1 o2) o3 =
      ocompose acomp o1 (ocompose acomp o2 o3) := by
  cases o1 <;> cases o2 <;> cases o3 <;> simp [ocompose, hacomp]

theorem dropBareRev_decomp {α β : Type} (l : List (Atom α β)) :
    ∃ k, l = List.replicate k (Atom.aRet none) ++ dropBareRev l := by
  induction l with
  | nil => exact ⟨0, rfl⟩
  | cons a rest ih =>
      match a with
      | Atom.aIns e at1 => exact ⟨0, rfl⟩
      | Atom.aRet (some x) => exact ⟨0, rfl⟩
      | Atom.aRet none =>
          obtain ⟨k, hk⟩ := ih
          refine ⟨k + 1, ?_⟩
          have hstep : dropBareRev (Atom.aRet none :: rest) =
              dropBareRev rest := rfl
          rw [hstep, List.replicate_succ, List.cons_append, ← hk]
      | Atom.aDel => exact ⟨0, rfl⟩

/-- Every atom stream is its own normal-form core followed by trailing bare
retains. -/
theorem dropBare_decomp {α β : Type} (l : List (Atom α β)) :
    ∃ k, l = dropBare l ++ List.replicate k (Atom.aRet none) := by
  obtain ⟨k, hk⟩ := dropBareRev_decomp l.reverse
  refine ⟨k, ?_⟩
  conv_lhs => rw [← List.reverse_reverse l, hk]
  rw [List.reverse_append, List.reverse_replicate]
  rfl

theorem dropBare_rstep_reps {α β : Type} (a : Atom α β)
    (l : List (Atom α β)) (k : Nat) :
    dropBare (rstep a (l ++ List.replicate k (Atom.aRet none))) =
      dropBare (rstep a l) := by
  cases a with
  | aIns e at1 =>
      show dropBare (Atom.aIns e at1 :: (l ++ _)) = _
      rw [← List.cons_append, dropBare_append_bare]
      rfl
  | aRet at1 =>
      show dropBare (Atom.aRet at1 :: (l ++ _)) = _
      rw [← List.cons_append, dropBare_append_bare]
      rfl
  | aDel =>
      show dropBare (pushDelRight (l ++ _)) = dropBare (pushDelRight l)
      rw [pushDelRight_append_not_ins l (by
        intro x hx
        cases k with
        | zero => simp at hx
        | succ n =>
            simp only [List.replicate_succ, List.head?_cons, Option.mem_def,
              Option.some.injEq] at hx
            subst hx
            simp [Atom.isIns]), dropBare_append_bare]

/-- The normal form of a cons is a function of the head atom and the tail's
normal form. -/
theorem nfa_cons {α β : Type} (a : Atom α β) (l : List (Atom α β)) :
    nfa (a :: l) = dropBare (rstep a (nfa l)) := by
  show dropBare (reorder (a :: l)) = _
  rw [reorder_cons]
  obtain ⟨k, hk⟩ := dropBare_decomp (reorder l)
  conv_lhs => rw [hk]
  rw [dropBare_rstep_reps]
  rfl

theorem nfa_cons_congr {α β : Type} (a : Atom α β)
    {l l' : List (Atom α β)} (h : nfa l = nfa l') :
    nfa (a :: l) = nfa (a :: l') := by
  rw [nfa_cons, h, ← nfa_cons]

theorem nfa_append_congr {α β : Type} (w : List (Atom α β))
    {l l' : List (Atom α β)} (h : nfa l = nfa l') :
    nfa (w ++ l) = nfa (w ++ l') := by
  induction w with
  | nil => simpa using h
  | cons a rest ih => simpa using nfa_cons_congr a ih

/-- Swapping an adjacent delete/insert pair anywhere preserves the normal
form. -/
theorem nfa_swap {α β : Type} (u : List (Atom α β)) (e : α) (a : Option β)
    (v : List (Atom α β)) :
    nfa (u ++ Atom.aDel :: Atom.aIns e a :: v) =
      nfa (u ++ Atom.aIns e a :: Atom.aDel :: v) := by
  refine nfa_of_atEq (atEq_append_left u ?_)
  have h := atEq_ins_del_comm [e] a 1 v
  simpa using h

theorem aCompose_bobIns {α β : Type} (acomp : β → β → β)
    (X : List (Atom α β)) (e : α) (b : Option β) (B : List (Atom α β)) :
    aCompose acomp X (Atom.aIns e b :: B) =
      Atom.aIns e b :: aCompose acomp X B := by
  have h := aCompose_ins_col acomp X [e] b B
  simpa using h

theorem aCompose_ir1 {α β : Type} (acomp : β → β → β) (e : α)
    (a b : Option β) (X Y : List (Atom α β)) :
    aCompose acomp (Atom.aIns e a :: X) (Atom.aRet b :: Y) =
      Atom.aIns e (ocompose acomp a b) :: aCompose acomp X Y := by
  rw [aCompose]

theorem aCompose_id1 {α β : Type} (acomp : β → β → β) (e : α)
    (a : Option β) (X Y : List (Atom α β)) :
    aCompose acomp (Atom.aIns e a :: X) (Atom.aDel :: Y) =
      aCompose acomp X Y := by
  rw [aCompose]

theorem aCompose_rr1 {α β : Type} (acomp : β → β → β)
    (a b : Option β) (X Y : List (Atom α β)) :
    aCompose acomp (Atom.aRet a :: X) (Atom.aRet b :: Y) =
      Atom.aRet (ocompose acomp a b) :: aCompose acomp X Y := by
  rw [aCompose]

theorem aCompose_rd1 {α β : Type} (acomp : β → β → β)
    (a : Option β) (X Y : List (Atom α β)) :
    aCompose acomp (Atom.aRet a :: X) (Atom.aDel :: Y) =
      Atom.aDel :: aCompose acomp X Y := by
  rw [aCompose]

theorem aCompose_dr1 {α β : Type} (acomp : β → β → β)
    (b : Option β) (X Y : List (Atom α β)) :
    aCompose acomp (Atom.aDel :: X) (Atom.aRet b :: Y) =
      Atom.aDel :: aCompose acomp X (Atom.aRet b :: Y) := by
  rw [aCompose]
  simp

theorem aCompose_dd1 {α β : Type} (acomp : β → β → β)
    (X Y : List (Atom α β)) :
    aCompose acomp (Atom.aDel :: X) (Atom.aDel :: Y) =
      Atom.aDel :: aCompose acomp X (Atom.aDel :: Y) := by
  rw [aCompose]
  simp

/-- Emitting an Alice delete commutes, up to normal form, with running the
rest of the compose loop. -/
theorem nfa_aCompose_del_left {α β : Type} (acomp : β → β → β)
    (X B : List (Atom α β)) :
    nfa (aCompose acomp (Atom.aDel :: X) B) =
      nfa (Atom.aDel :: aCompose acomp X B) := by
  induction B generalizing X with
  | nil => rw [aCompose_nil_right, aCompose_nil_right]
  | cons b bs ih =>
      cases b with
      | aIns e ba =>
          rw [aCompose_bobIns, aCompose_bobIns]
          calc nfa (Atom.aIns e ba :: aCompose acomp (Atom.aDel :: X) bs)
              = nfa (Atom.aIns e ba :: Atom.aDel :: aCompose acomp X bs) :=
                nfa_cons_congr _ (ih X)
            _ = nfa (Atom.aDel :: Atom.aIns e ba :: aCompose acomp X bs) :=
                (nfa_swap [] e ba _).symm
      | aRet ba => rw [aCompose_dr1]
      | aDel => rw [aCompose_dd1]

/-- One delete/insert swap somewhere in an atom stream. -/
inductive swapStep {α β : Type} : List (Atom α β) → List (Atom α β) → Prop
  | mk (u v : List (Atom α β)) (e : α) (a : Option β) :
      swapStep (u ++ Atom.aDel :: Atom.aIns e a :: v)
        (u ++ Atom.aIns e a :: Atom.aDel :: v)

theorem swapStep_cons {α β : Type} {l l' : List (Atom α β)} (x : Atom α β)
    (h : swapStep l l') : swapStep (x :: l) (x :: l') := by
  cases h with
  | mk u v e a =>
      have h2 := swapStep.mk (x :: u) v e a
      simpa using h2

theorem swaps_cons {α β : Type} {l l' : List (Atom α β)} (x : Atom α β)
    (h : Relation.ReflTransGen swapStep l l') :
    Relation.ReflTransGen swapStep (x :: l) (x :: l') := by
  induction h with
  | refl => exact Relation.ReflTransGen.refl
  | tail hab hbc ih => exact Relation.ReflTransGen.tail ih (swapStep_cons x hbc)

theorem swaps_pushDelRight {α β : Type} (l : List (Atom α β)) :
    Relation.ReflTransGen swapStep (Atom.aDel :: l) (pushDelRight l) := by
  induction l with
  | nil => exact Relation.ReflTransGen.refl
  | cons y rest ih =>
      cases y with
      | aIns e a =>
          have hstep : swapStep (Atom.aDel :: Atom.aIns e a :: rest)
              (Atom.aIns e a :: Atom.aDel :: rest) := by
            have h2 := swapStep.mk ([] : List (Atom α β)) rest e a
            simpa using h2
          exact Relation.ReflTransGen.head hstep (swaps_cons _ ih)
      | aRet a => exact Relation.ReflTransGen.refl
      | aDel => exact Relation.ReflTransGen.refl

/-- The reorder normal form is reachable by delete/insert swaps. -/
theorem swaps_reorder {α β : Type} (l : List (Atom α β)) :
    Relation.ReflTransGen swapStep l (reorder l) := by
  induction l with
  | nil => exact Relation.ReflTransGen.refl
  | cons a rest ih =>
      rw [reorder_cons]
      cases a with
      | aIns e at1 => exact swaps_cons _ ih
      | aRet at1 => exact swaps_cons _ ih
      | aDel => exact (swaps_cons _ ih).trans (swaps_pushDelRight _)

theorem nfa_aCompose_swapL {α β : Type} (acomp : β → β → β) :
    ∀ n (u v y : List (Atom α β)) (e : α) (a : Option β),
      u.length + y.length ≤ n →
      nfa (aCompose acomp (u ++ Atom.aDel :: Atom.aIns e a :: v) y) =
        nfa (aCompose acomp (u ++ Atom.aIns e a :: Atom.aDel :: v) y) := by
  intro n
  induction n with
  | zero =>
      intro u v y e a h
      have hu : u = [] := List.eq_nil_of_length_eq_zero (by omega)
      have hy : y = [] := List.eq_nil_of_length_eq_zero (by omega)
      subst hu
      subst hy
      rw [aCompose_nil_right, aCompose_nil_right]
      exact nfa_swap [] e a v
  | succ n ih =>
      intro u v y e a h
      cases y with
      | nil =>
          rw [aCompose_nil_right, aCompose_nil_right]
          exact nfa_swap u e a v
      | cons b bs =>
          cases b with
          | aIns f ba =>
              rw [aCompose_bobIns, aCompose_bobIns]
              refine nfa_cons_congr _ (ih u v bs e a ?_)
              simp only [List.length_cons] at h
              omega
          | aRet ba =>
              cases u with
              | nil =>
                  simp only [List.nil_append]
                  rw [aCompose_dr1, aCompose_ir1, aCompose_ir1]
                  have h1 := nfa_swap ([] : List (Atom α β)) e
                    (ocompose acomp a ba) (aCompose acomp v bs)
                  simp only [List.nil_append] at h1
                  rw [h1]
                  exact nfa_cons_congr _ (nfa_aCompose_del_left acomp v bs).symm
              | cons x xs =>
                  simp only [List.cons_append]
                  cases x with
                  | aIns g xa =>
                      rw [aCompose_ir1, aCompose_ir1]
                      refine nfa_cons_congr _ (ih xs v bs e a ?_)
                      simp only [List.length_cons] at h
                      omega
                  | aRet xa =>
                      rw [aCompose_rr1, aCompose_rr1]
                      refine nfa_cons_congr _ (ih xs v bs e a ?_)
                      simp only [List.length_cons] at h
                      omega
                  | aDel =>
                      rw [aCompose_dr1, aCompose_dr1]
                      refine nfa_cons_congr _ (ih xs v (Atom.aRet ba :: bs) e a ?_)
                      simp only [List.length_cons] at h ⊢
                      omega
          | aDel =>
              cases u with
              | nil =>
                  simp only [List.nil_append]
                  rw [aCompose_dd1, aCompose_id1, aCompose_id1]
                  exact (nfa_aCompose_del_left acomp v bs).symm
              | cons x xs =>
                  simp only [List.cons_append]
                  cases x with
                  | aIns g xa =>
                      rw [aCompose_id1, aCompose_id1]
                      refine ih xs v bs e a ?_
                      simp only [List.length_cons] at h
                      omega
                  | aRet xa =>
                      rw [aCompose_rd1, aCompose_rd1]
                      refine nfa_cons_congr _ (ih xs v bs e a ?_)
                      simp only [List.length_cons] at h
                      omega
                  | aDel =>
                      rw [aCompose_dd1, aCompose_dd1]
                      refine nfa_cons_congr _ (ih xs v (Atom.aDel :: bs) e a ?_)
                      simp only [List.length_cons] at h ⊢
                      omega

theorem nfa_aCompose_swaps_left {α β : Type} (acomp : β → β → β)
    {x x' : List (Atom α β)} (h : Relation.ReflTransGen swapStep x x')
    (y : List (Atom α β)) :
    nfa (aCompose acomp x y) = nfa (aCompose acomp x' y) := by
  induction h with
  | refl => rfl
  | tail hab hbc ih =>
      rw [ih]
      cases hbc with
      | mk u v e a =>
          exact nfa_aCompose_swapL acomp (u.length + y.length) u v y e a
            (le_refl _)

theorem nfa_reps {α β : Type} (k : Nat) :
    nfa (List.replicate k (Atom.aRet none) : List (Atom α β)) = [] := by
  have h := nfa_append_bare ([] : List (Atom α β)) k
  simpa using h

theorem nfa_aCompose_reps_left {α β : Type} (acomp : β → β → β) :
    ∀ n (z y : List (Atom α β)) (k : Nat),
      z.length + y.length + k ≤ n →
      nfa (aCompose acomp (z ++ List.replicate k (Atom.aRet none)) y) =
        nfa (aCompose acomp z y) := by
  intro n
  induction n with
  | zero =>
      intro z y k h
      have hk : k = 0 := by omega
      subst hk
      simp
  | succ n ih =>
      intro z y k h
      cases k with
      | zero => simp
      | succ m =>
          cases y with
          | nil =>
              rw [aCompose_nil_right, aCompose_nil_right]
              exact nfa_append_bare z (m + 1)
          | cons b bs =>
              cases b with
              | aIns f ba =>
                  rw [aCompose_bobIns, aCompose_bobIns]
                  refine nfa_cons_congr _ (ih z bs (m + 1) ?_)
                  simp only [List.length_cons] at h
                  omega
              | aRet ba =>
                  cases z with
                  | nil =>
                      simp only [List.nil_append, List.replicate_succ]
                      rw [aCompose_rr1, ocompose_none_left]
                      have hz := ih [] bs m (by
                        simp only [List.length_cons, List.length_nil] at h ⊢
                        omega)
                      simp only [List.nil_append, aCompose_nil_left] at hz
                      rw [aCompose_nil_left]
                      exact nfa_cons_congr _ hz
                  | cons z0 zs =>
                      simp only [List.cons_append]
                      cases z0 with
                      | aIns g za =>
                          rw [aCompose_ir1, aCompose_ir1]
                          refine nfa_cons_congr _ (ih zs bs (m + 1) ?_)
                          simp only [List.length_cons] at h
                          omega
                      | aRet za =>
                          rw [aCompose_rr1, aCompose_rr1]
                          refine nfa_cons_congr _ (ih zs bs (m + 1) ?_)
                          simp only [List.length_cons] at h
                          omega
                      | aDel =>
                          rw [aCompose_dr1, aCompose_dr1]
                          refine nfa_cons_congr _
                            (ih zs (Atom.aRet ba :: bs) (m + 1) ?_)
                          simp only [List.length_cons] at h ⊢
                          omega
              | aDel =>
                  cases z with
                  | nil =>
                      simp only [List.nil_append, List.replicate_succ]
                      rw [aCompose_rd1]
                      have hz := ih [] bs m (by
                        simp only [List.length_cons, List.length_nil] at h ⊢
                        omega)
                      simp only [List.nil_append, aCompose_nil_left] at hz
                      rw [aCompose_nil_left]
                      exact nfa_cons_congr _ hz
                  | cons z0 zs =>
                      simp only [List.cons_append]
                      cases z0 with
                      | aIns g za =>
                          rw [aCompose_id1, aCompose_id1]
                          refine ih zs bs (m + 1) ?_
                          simp only [List.length_cons] at h
                          omega
                      | aRet za =>
                          rw [aCompose_rd1, aCompose_rd1]
                          refine nfa_cons_congr _ (ih zs bs (m + 1) ?_)
                          simp only [List.length_cons] at h
                          omega
                      | aDel =>
                          rw [aCompose_dd1, aCompose_dd1]
                          refine nfa_cons_congr _
                            (ih zs (Atom.aDel :: bs) (m + 1) ?_)
                          simp only [List.length_cons] at h ⊢
                          omega

/-- The first argument of the compose loop can be replaced by its normal
form without changing the result's normal form. -/
theorem nfa_aCompose_nfaL {α β : Type} (acomp : β → β → β)
    (x y : List (Atom α β)) :
    nfa (aCompose acomp (nfa x) y) = nfa (aCompose acomp x y) := by
  have h1 := nfa_aCompose_swaps_left acomp (swaps_reorder x) y
  obtain ⟨k, hk⟩ := dropBare_decomp (reorder x)
  have h2 : nfa (aCompose acomp (reorder x) y) =
      nfa (aCompose acomp (dropBare (reorder x)) y) := by
    conv_lhs => rw [hk]
    exact nfa_aCompose_reps_left acomp
      ((dropBare (reorder x)).length + y.length + k) _ y k (le_refl _)
  have h3 : nfa x = dropBare (reorder x) := rfl
  rw [h3, ← h2, ← h1]

theorem nfa_aCompose_congr_left {α β : Type} (acomp : β → β → β)
    {x x' : List (Atom α β)} (h : nfa x = nfa x') (y : List (Atom α β)) :
    nfa (aCompose acomp x y) = nfa (aCompose acomp x' y) := by
  rw [← nfa_aCompose_nfaL acomp x y, h, nfa_aCompose_nfaL]

theorem nfa_aCompose_swapR {α β : Type} (acomp : β → β → β) :
    ∀ n (x u v : List (Atom α β)) (e : α) (b : Option β),
      x.length + u.length ≤ n →
      nfa (aCompose acomp x (u ++ Atom.aDel :: Atom.aIns e b :: v)) =
        nfa (aCompose acomp x (u ++ Atom.aIns e b :: Atom.aDel :: v)) := by
  intro n
  induction n with
  | zero =>
      intro x u v e b h
      have hx : x = [] := List.eq_nil_of_length_eq_zero (by omega)
      have hu : u = [] := List.eq_nil_of_length_eq_zero (by omega)
      subst hx
      subst hu
      rw [aCompose_nil_left, aCompose_nil_left]
      exact nfa_swap [] e b v
  | succ n ih =>
      intro x u v e b h
      cases x with
      | nil =>
          rw [aCompose_nil_left, aCompose_nil_left]
          exact nfa_swap u e b v
      | cons a as =>
          cases u with
          | nil =>
              simp only [List.nil_append]
              cases a with
              | aIns f aa =>
                  rw [aCompose_id1, aCompose_bobIns, aCompose_bobIns,
                    aCompose_id1]
              | aRet aa =>
                  rw [aCompose_rd1, aCompose_bobIns, aCompose_bobIns,
                    aCompose_rd1]
                  exact nfa_swap [] e b _
              | aDel =>
                  rw [aCompose_dd1, aCompose_bobIns, aCompose_dd1]
                  calc nfa (Atom.aDel ::
                        aCompose acomp as (Atom.aDel :: Atom.aIns e b :: v))
                      = nfa (Atom.aDel ::
                          aCompose acomp as (Atom.aIns e b :: Atom.aDel :: v)) :=
                        nfa_cons_congr _ (ih as [] v e b (by
                          simp only [List.length_cons, List.length_nil] at h ⊢
                          omega))
                    _ = nfa (Atom.aDel :: Atom.aIns e b ::
                          aCompose acomp as (Atom.aDel :: v)) := by
                        rw [aCompose_bobIns]
                    _ = nfa (Atom.aIns e b :: Atom.aDel ::
                          aCompose acomp as (Atom.aDel :: v)) :=
                        nfa_swap [] e b _
          | cons u0 us =>
              simp only [List.cons_append]
              cases u0 with
              | aIns f ba =>
                  rw [aCompose_bobIns, aCompose_bobIns]
                  refine nfa_cons_congr _ (ih (a :: as) us v e b ?_)
                  simp only [List.length_cons] at h ⊢
                  omega
              | aRet ba =>
                  cases a with
                  | aIns g aa =>
                      rw [aCompose_ir1, aCompose_ir1]
                      refine nfa_cons_congr _ (ih as us v e b ?_)
                      simp only [List.length_cons] at h
                      omega
                  | aRet aa =>
                      rw [aCompose_rr1, aCompose_rr1]
                      refine nfa_cons_congr _ (ih as us v e b ?_)
                      simp only [List.length_cons] at h
                      omega
                  | aDel =>
                      rw [aCompose_dr1, aCompose_dr1]
                      refine nfa_cons_congr _ (ih as (Atom.aRet ba :: us) v e b ?_)
                      simp only [List.length_cons] at h ⊢
                      omega
              | aDel =>
                  cases a with
                  | aIns g aa =>
                      rw [aCompose_id1, aCompose_id1]
                      refine ih as us v e b ?_
                      simp only [List.length_cons] at h
                      omega
                  | aRet aa =>
                      rw [aCompose_rd1, aCompose_rd1]
                      refine nfa_cons_congr _ (ih as us v e b ?_)
                      simp only [List.length_cons] at h
                      omega
                  | aDel =>
                      rw [aCompose_dd1, aCompose_dd1]
                      refine nfa_cons_congr _ (ih as (Atom.aDel :: us) v e b ?_)
                      simp only [List.length_cons] at h ⊢
                      omega

theorem nfa_aCompose_swaps_right {α β : Type} (acomp : β → β → β)
    (x : List (Atom α β)) {y y' : List (Atom α β)}
    (h : Relation.ReflTransGen swapStep y y') :
    nfa (aCompose acomp x y) = nfa (aCompose acomp x y') := by
  induction h with
  | refl => rfl
  | tail hab hbc ih =>
      rw [ih]
      cases hbc with
      | mk u v e b =>
          exact nfa_aCompose_swapR acomp (x.length + u.length) x u v e b
            (le_refl _)

theorem nfa_aCompose_reps_right {α β : Type} (acomp : β → β → β) :
    ∀ n (x z : List (Atom α β)) (k : Nat),
      x.length + z.length + k ≤ n →
      nfa (aCompose acomp x (z ++ List.replicate k (Atom.aRet none))) =
        nfa (aCompose acomp x z) := by
  intro n
  induction n with
  | zero =>
      intro x z k h
      have hk : k = 0 := by omega
      subst hk
      simp
  | succ n ih =>
      intro x z k h
      cases k with
      | zero => simp
      | succ m =>
          cases x with
          | nil =>
              rw [aCompose_nil_left, aCompose_nil_left]
              exact nfa_append_bare z (m + 1)
          | cons a as =>
              cases z with
              | nil =>
                  simp only [List.nil_append, List.replicate_succ]
                  cases a with
                  | aIns f aa =>
                      rw [aCompose_ir1, ocompose_none_right,
                        aCompose_nil_right]
                      refine nfa_cons_congr _ ?_
                      have hz := ih as [] m (by
                        simp only [List.length_cons, List.length_nil] at h ⊢
                        omega)
                      simp only [List.nil_append, aCompose_nil_right] at hz
                      exact hz
                  | aRet aa =>
                      rw [aCompose_rr1, ocompose_none_right,
                        aCompose_nil_right]
                      refine nfa_cons_congr _ ?_
                      have hz := ih as [] m (by
                        simp only [List.length_cons, List.length_nil] at h ⊢
                        omega)
                      simp only [List.nil_append, aCompose_nil_right] at hz
                      exact hz
                  | aDel =>
                      rw [aCompose_dr1, aCompose_nil_right]
                      refine nfa_cons_congr _ ?_
                      have hz := ih as [] (m + 1) (by
                        simp only [List.length_cons, List.length_nil] at h ⊢
                        omega)
                      simp only [List.nil_append, aCompose_nil_right,
                        List.replicate_succ] at hz
                      exact hz
              | cons z0 zs =>
                  simp only [List.cons_append]
                  cases z0 with
                  | aIns f ba =>
                      rw [aCompose_bobIns, aCompose_bobIns]
                      refine nfa_cons_congr _ (ih (a :: as) zs (m + 1) ?_)
                      simp only [List.length_cons] at h ⊢
                      omega
                  | aRet ba =>
                      cases a with
                      | aIns g aa =>
                          rw [aCompose_ir1, aCompose_ir1]
                          refine nfa_cons_congr _ (ih as zs (m + 1) ?_)
                          simp only [List.length_cons] at h
                          omega
                      | aRet aa =>
                          rw [aCompose_rr1, aCompose_rr1]
                          refine nfa_cons_congr _ (ih as zs (m + 1) ?_)
                          simp only [List.length_cons] at h
                          omega
                      | aDel =>
                          rw [aCompose_dr1, aCompose_dr1]
                          refine nfa_cons_congr _
                            (ih as (Atom.aRet ba :: zs) (m + 1) ?_)
                          simp only [List.length_cons] at h ⊢
                          omega
                  | aDel =>
                      cases a with
                      | aIns g aa =>
                          rw [aCompose_id1, aCompose_id1]
                          refine ih as zs (m + 1) ?_
                          simp only [List.length_cons] at h
                          omega
                      | aRet aa =>
                          rw [aCompose_rd1, aCompose_rd1]
                          refine nfa_cons_congr _ (ih as zs (m + 1) ?_)
                          simp only [List.length_cons] at h
                          omega
                      | aDel =>
                          rw [aCompose_dd1, aCompose_dd1]
                          refine nfa_cons_congr _
                            (ih as (Atom.aDel :: zs) (m + 1) ?_)
                          simp only [List.length_cons] at h ⊢
                          omega

/-- The second argument of the compose loop can be replaced by its normal
form without changing the result's normal form. -/
theorem nfa_aCompose_nfaR {α β : Type} (acomp : β → β → β)
    (x y : List (Atom α β)) :
    nfa (aCompose acomp x (nfa y)) = nfa (aCompose acomp x y) := by
  have h1 := nfa_aCompose_swaps_right acomp x (swaps_reorder y)
  obtain ⟨k, hk⟩ := dropBare_decomp (reorder y)
  have h2 : nfa (aCompose acomp x (reorder y)) =
      nfa (aCompose acomp x (dropBare (reorder y))) := by
    conv_lhs => rw [hk]
    exact nfa_aCompose_reps_right acomp
      (x.length + (dropBare (reorder y)).length + k) x _ k (le_refl _)
  have h3 : nfa y = dropBare (reorder y) := rfl
  rw [h3, ← h2, ← h1]

theorem nfa_aCompose_congr_right {α β : Type} (acomp : β → β → β)
    (x : List (Atom α β)) {y y' : List (Atom α β)} (h : nfa y = nfa y') :
    nfa (aCompose acomp x y) = nfa (aCompose acomp x y') := by
  rw [← nfa_aCompose_nfaR acomp x y, h, nfa_aCompose_nfaR]

/-- Atom-level compose is associative under a last-write-wins attribute
algebra. -/
theorem aCompose_assoc {α β : Type} {acomp : β → β → β}
    (hacomp : ∀ x y : β, acomp x y = y) :
    ∀ n (x y z : List (Atom α β)), x.length + y.length + z.length ≤ n →
      aCompose acomp (aCompose acomp x y) z =
        aCompose acomp x (aCompose acomp y z) := by
  intro n
  induction n with
  | zero =>
      intro x y z h
      have hx : x = [] := List.eq_nil_of_length_eq_zero (by omega)
      have hy : y = [] := List.eq_nil_of_length_eq_zero (by omega)
      have hz : z = [] := List.eq_nil_of_length_eq_zero (by omega)
      subst hx
      subst hy
      subst hz
      simp only [aCompose_nil_left, aCompose_nil_right]
  | succ n ih =>
      intro x y z h
      cases z with
      | nil => rw [aCompose_nil_right, aCompose_nil_right]
      | cons c cs =>
          cases y with
          | nil => rw [aCompose_nil_right, aCompose_nil_left]
          | cons b bs =>
              cases x with
              | nil => rw [aCompose_nil_left, aCompose_nil_left]
              | cons a as =>
                  cases c with
                  | aIns f ca =>
                      simp only [aCompose_bobIns]
                      exact congrArg (List.cons (Atom.aIns f ca))
                        (ih (a :: as) (b :: bs) cs (by
                          simp only [List.length_cons] at h ⊢
                          omega))
                  | aRet rc =>
                      cases b with
                      | aIns f ba =>
                          simp only [aCompose_bobIns, aCompose_ir1]
                          exact congrArg (List.cons _)
                            (ih (a :: as) bs cs (by
                              simp only [List.length_cons] at h ⊢
                              omega))
                      | aRet rb =>
                          cases a with
                          | aIns e aa =>
                              simp only [aCompose_ir1, aCompose_rr1]
                              rw [ocompose_assoc hacomp]
                              exact congrArg (List.cons _)
                                (ih as bs cs (by
                                  simp only [List.length_cons] at h ⊢
                                  omega))
                          | aRet ra =>
                              simp only [aCompose_rr1]
                              rw [ocompose_assoc hacomp]
                              exact congrArg (List.cons _)
                                (ih as bs cs (by
                                  simp only [List.length_cons] at h ⊢
                                  omega))
                          | aDel =>
                              simp only [aCompose_dr1, aCompose_rr1]
                              rw [ih as (Atom.aRet rb :: bs)
                                (Atom.aRet rc :: cs) (by
                                  simp only [List.length_cons] at h ⊢
                                  omega)]
                              simp only [aCompose_rr1]
                      | aDel =>
                          cases a with
                          | aIns e aa =>
                              simp only [aCompose_id1, aCompose_dr1]
                              rw [ih as bs (Atom.aRet rc :: cs) (by
                                simp only [List.length_cons] at h ⊢
                                omega)]
                          | aRet ra =>
                              simp only [aCompose_rd1, aCompose_dr1]
                              rw [ih as bs (Atom.aRet rc :: cs) (by
                                simp only [List.length_cons] at h ⊢
                                omega)]
                          | aDel =>
                              simp only [aCompose_dd1, aCompose_dr1]
                              rw [ih as (Atom.aDel :: bs)
                                (Atom.aRet rc :: cs) (by
                                  simp only [List.length_cons] at h ⊢
                                  omega)]
                              simp only [aCompose_dr1]
                  | aDel =>
                      cases b with
                      | aIns f ba =>
                          simp only [aCompose_bobIns, aCompose_id1]
                          exact ih (a :: as) bs cs (by
                            simp only [List.length_cons] at h ⊢
                            omega)
                      | aRet rb =>
                          cases a with
                          | aIns e aa =>
                              simp only [aCompose_ir1, aCompose_rd1,
                                aCompose_id1]
                              exact ih as bs cs (by
                                simp only [List.length_cons] at h ⊢
                                omega)
                          | aRet ra =>
                              simp only [aCompose_rr1, aCompose_rd1]
                              exact congrArg (List.cons Atom.aDel)
                                (ih as bs cs (by
                                  simp only [List.length_cons] at h ⊢
                                  omega))
                          | aDel =>
                              simp only [aCompose_dr1, aCompose_dd1,
                                aCompose_rd1]
                              rw [ih as (Atom.aRet rb :: bs)
                                (Atom.aDel :: cs) (by
                                  simp only [List.length_cons] at h ⊢
                                  omega)]
                              simp only [aCompose_rd1]
                      | aDel =>
                          cases a with
                          | aIns e aa =>
                              simp only [aCompose_id1, aCompose_dd1]
                              rw [ih as bs (Atom.aDel :: cs) (by
                                simp only [List.length_cons] at h ⊢
                                omega)]
                          | aRet ra =>
                              simp only [aCompose_rd1, aCompose_dd1]
                              rw [ih as bs (Atom.aDel :: cs) (by
                                simp only [List.length_cons] at h ⊢
                                omega)]
                          | aDel =>
                              simp only [aCompose_dd1]
                              rw [ih as (Atom.aDel :: bs)
                                (Atom.aDel :: cs) (by
                                  simp only [List.length_cons] at h ⊢
                                  omega)]
                              simp only [aCompose_dd1]

theorem aT_ii_t {α β : Type} (f : α) (aa : Option β) (A : List (Atom α β))
    (e : α) (ba : Option β) (B : List (Atom α β)) :
    aTransform true (Atom.aIns f aa :: A) (Atom.aIns e ba :: B) =
      Atom.aRet none :: aTransform true A (Atom.aIns e ba :: B) := by
  rw [aTransform, if_pos rfl]

theorem aT_ii_f {α β : Type} (f : α) (aa : Option β) (A : List (Atom α β))
    (e : α) (ba : Option β) (B : List (Atom α β)) :
    aTransform false (Atom.aIns f aa :: A) (Atom.aIns e ba :: B) =
      Atom.aIns e ba :: aTransform false (Atom.aIns f aa :: A) B := by
  rw [aTransform, if_neg (by simp)]

theorem aT_ir1 {α β : Type} (priority : Bool) (f : α) (aa : Option β)
    (A : List (Atom α β)) (ba : Option β) (B : List (Atom α β)) :
    aTransform priority (Atom.aIns f aa :: A) (Atom.aRet ba :: B) =
      Atom.aRet none :: aTransform priority A (Atom.aRet ba :: B) := by
  rw [aTransform]
  simp

theorem aT_id1 {α β : Type} (priority : Bool) (f : α) (aa : Option β)
    (A B : List (Atom α β)) :
    aTransform priority (Atom.aIns f aa :: A) (Atom.aDel :: B) =
      Atom.aRet none :: aTransform priority A (Atom.aDel :: B) := by
  rw [aTransform]
  simp

theorem aT_ri1 {α β : Type} (priority : Bool) (aa : Option β)
    (A : List (Atom α β)) (e : α) (ba : Option β) (B : List (Atom α β)) :
    aTransform priority (Atom.aRet aa :: A) (Atom.aIns e ba :: B) =
      Atom.aIns e ba :: aTransform priority (Atom.aRet aa :: A) B := by
  rw [aTransform]
  simp

theorem aT_di1 {α β : Type} (priority : Bool) (A : List (Atom α β))
    (e : α) (ba : Option β) (B : List (Atom α β)) :
    aTransform priority (Atom.aDel :: A) (Atom.aIns e ba :: B) =
      Atom.aIns e ba :: aTransform priority (Atom.aDel :: A) B := by
  rw [aTransform]
  simp

theorem aT_rr1_t {α β : Type} (aa : Option β) (A : List (Atom α β))
    (ba : Option β) (B : List (Atom α β)) :
    aTransform true (Atom.aRet aa :: A) (Atom.aRet ba :: B) =
      Atom.aRet (oor aa ba) :: aTransform true A B := by
  rw [aTransform]
  simp

theorem aT_rr1_f {α β : Type} (aa : Option β) (A : List (Atom α β))
    (ba : Option β) (B : List (Atom α β)) :
    aTransform false (Atom.aRet aa :: A) (Atom.aRet ba :: B) =
      Atom.aRet (oor ba aa) :: aTransform false A B := by
  rw [aTransform]
  simp

theorem aT_rd1 {α β : Type} (priority : Bool) (aa : Option β)
    (A B : List (Atom α β)) :
    aTransform priority (Atom.aRet aa :: A) (Atom.aDel :: B) =
      Atom.aDel :: aTransform priority A B := by
  rw [aTransform]

theorem aT_dr1 {α β : Type} (priority : Bool) (A : List (Atom α β))
    (ba : Option β) (B : List (Atom α β)) :
    aTransform priority (Atom.aDel :: A) (Atom.aRet ba :: B) =
      aTransform priority A B := by
  rw [aTransform]

theorem aT_dd1 {α β : Type} (priority : Bool) (A B : List (Atom α β)) :
    aTransform priority (Atom.aDel :: A) (Atom.aDel :: B) =
      aTransform priority A B := by
  rw [aTransform]

/-- Under last-write-wins, composing either side's retain attribute with the
priority-ordered merge gives the same attribute. -/
theorem ocompose_oor {β : Type} {acomp : β → β → β}
    (hacomp : ∀ x y : β, acomp x y = y) (aa ba : Option β) :
    ocompose acomp aa (oor aa ba) = ocompose acomp ba (oor aa ba) := by
  cases aa <;> cases ba <;> simp [ocompose, oor, hacomp]

/-- The OT diamond at the atom level: applying Bob's transformed stream
after Alice equals applying Alice's transformed stream after Bob, up to
normal form, under a last-write-wins attribute algebra. -/
theorem nfa_diamond {α β : Type} {acomp : β → β → β}
    (hacomp : ∀ x y : β, acomp x y = y) :
    ∀ n (A B : List (Atom α β)), A.length + B.length ≤ n →
      nfa (aCompose acomp A (aTransform true A B)) =
        nfa (aCompose acomp B (aTransform false B A)) := by
  intro n
  induction n with
  | zero =>
      intro A B h
      have hA : A = [] := List.eq_nil_of_length_eq_zero (by omega)
      have hB : B = [] := List.eq_nil_of_length_eq_zero (by omega)
      subst hA
      subst hB
      rw [aTransform_nil_left, aCompose_nil_left, aTransform_nil_right,
        aCompose_nil_right]
  | succ n ih =>
      intro A B h
      cases A with
      | nil =>
          rw [aTransform_nil_left, aCompose_nil_left, aTransform_nil_right,
            aCompose_nil_right]
      | cons a as =>
          cases B with
          | nil =>
              rw [aTransform_nil_right, aCompose_nil_right,
                aTransform_nil_left, aCompose_nil_left]
          | cons b bs =>
              cases a with
              | aIns f aa =>
                  cases b with
                  | aIns e ba =>
                      rw [aT_ii_t, aCompose_ir1, ocompose_none_right,
                        aT_ii_f, aCompose_bobIns]
                      refine nfa_cons_congr _ (ih as (Atom.aIns e ba :: bs) ?_)
                      simp only [List.length_cons] at h ⊢
                      omega
                  | aRet ba =>
                      rw [aT_ir1, aCompose_ir1, ocompose_none_right,
                        aT_ri1, aCompose_bobIns]
                      refine nfa_cons_congr _ (ih as (Atom.aRet ba :: bs) ?_)
                      simp only [List.length_cons] at h ⊢
                      omega
                  | aDel =>
                      rw [aT_id1, aCompose_ir1, ocompose_none_right,
                        aT_di1, aCompose_bobIns]
                      refine nfa_cons_congr _ (ih as (Atom.aDel :: bs) ?_)
                      simp only [List.length_cons] at h ⊢
                      omega
              | aRet aa =>
                  cases b with
                  | aIns e ba =>
                      rw [aT_ri1, aCompose_bobIns, aT_ir1, aCompose_ir1,
                        ocompose_none_right]
                      refine nfa_cons_congr _ (ih (Atom.aRet aa :: as) bs ?_)
                      simp only [List.length_cons] at h ⊢
                      omega
                  | aRet ba =>
                      rw [aT_rr1_t, aCompose_rr1, aT_rr1_f, aCompose_rr1,
                        ocompose_oor hacomp]
                      refine nfa_cons_congr _ (ih as bs ?_)
                      simp only [List.length_cons] at h
                      omega
                  | aDel =>
                      rw [aT_rd1, aCompose_rd1, aT_dr1]
                      calc nfa (Atom.aDel ::
                            aCompose acomp as (aTransform true as bs))
                          = nfa (Atom.aDel ::
                              aCompose acomp bs (aTransform false bs as)) :=
                            nfa_cons_congr _ (ih as bs (by
                              simp only [List.length_cons] at h
                              omega))
                        _ = nfa (aCompose acomp (Atom.aDel :: bs)
                              (aTransform false bs as)) :=
                            (nfa_aCompose_del_left acomp bs _).symm
              | aDel =>
                  cases b with
                  | aIns e ba =>
                      rw [aT_di1, aCompose_bobIns, aT_id1, aCompose_ir1,
                        ocompose_none_right]
                      refine nfa_cons_congr _ (ih (Atom.aDel :: as) bs ?_)
                      simp only [List.length_cons] at h ⊢
                      omega
                  | aRet ba =>
                      rw [aT_dr1, aT_rd1, aCompose_rd1]
                      calc nfa (aCompose acomp (Atom.aDel :: as)
                            (aTransform true as bs))
                          = nfa (Atom.aDel ::
                              aCompose acomp as (aTransform true as bs)) :=
                            nfa_aCompose_del_left acomp as _
                        _ = nfa (Atom.aDel ::
                              aCompose acomp bs (aTransform false bs as)) :=
                            nfa_cons_congr _ (ih as bs (by
                              simp only [List.length_cons] at h
                              omega))
                  | aDel =>
                      rw [aT_dd1, aT_dd1]
                      calc nfa (aCompose acomp (Atom.aDel :: as)
                            (aTransform true as bs))
                          = nfa (Atom.aDel ::
                              aCompose acomp as (aTransform true as bs)) :=
                            nfa_aCompose_del_left acomp as _
                        _ = nfa (Atom.aDel ::
                              aCompose acomp bs (aTransform false bs as)) :=
                            nfa_cons_congr _ (ih as bs (by
                              simp only [List.length_cons] at h
                              omega))
                        _ = nfa (aCompose acomp (Atom.aDel :: bs)
                              (aTransform false bs as)) :=
                            (nfa_aCompose_del_left acomp bs _).symm

/-- No delete atom directly precedes an insert atom. -/
def noDelIns {α β : Type} (s : List (Atom α β)) : Prop :=
  List.Chain' (fun x y => x = Atom.aDel → ¬y.isIns) s

theorem noDelIns_of_no_del {α β : Type} {s : List (Atom α β)}
    (h : ∀ x ∈ s, x ≠ Atom.aDel) : noDelIns s := by
  induction s with
  | nil => exact List.chain'_nil
  | cons a t ih =>
      rw [noDelIns, List.chain'_cons']
      refine ⟨fun y _ hy => absurd hy (h a (by simp)), ?_⟩
      exact ih (fun x hx => h x (List.mem_cons_of_mem _ hx))

theorem noDelIns_of_no_ins {α β : Type} {s : List (Atom α β)}
    (h : ∀ x ∈ s, ¬x.isIns) : noDelIns s := by
  induction s with
  | nil => exact List.chain'_nil
  | cons a t ih =>
      rw [noDelIns, List.chain'_cons']
      refine ⟨fun y hy _ => h y (List.mem_cons_of_mem _
        (List.mem_of_mem_head? hy)), ?_⟩
      exact ih (fun x hx => h x (List.mem_cons_of_mem _ hx))

theorem atomOp_ne_nil {α β : Type} {op : Op α β} (h : op.len ≠ 0) :
    atomOp op ≠ [] := by
  cases op <;> simp_all [atomOp, Op.len]

theorem head_atomOp_not_ins {α β : Type} {op : Op α β}
    (h : ¬op.isInsert) : ∀ y ∈ (atomOp op).head?, ¬y.isIns := by
  intro y hy
  have hmem : y ∈ atomOp op := List.mem_of_mem_head? hy
  cases op with
  | insert v a => exact absurd (by simp [Op.isInsert]) h
  | retain c a =>
      simp only [atomOp, List.mem_replicate] at hmem
      rw [hmem.2]
      simp [Atom.isIns]
  | delete c =>
      simp only [atomOp, List.mem_replicate] at hmem
      rw [hmem.2]
      simp [Atom.isIns]

/-- The atom stream of a canonical op list has no delete directly before an
insert. -/
theorem noDelIns_atomsL {α β : Type} :
    ∀ l : List (Op α β), (∀ op ∈ l, op.len ≠ 0) →
      List.Chain' (fun x y => ¬(Op.isDelete x ∧ Op.isInsert y)) l →
      noDelIns (atomsL l) := by
  intro l
  induction l with
  | nil =>
      intro _ _
      exact List.chain'_nil
  | cons op rest ih =>
      intro hlen hchain
      rw [atomsL_cons, noDelIns, List.chain'_append]
      obtain ⟨hpair, hchain'⟩ := List.chain'_cons'.mp hchain
      refine ⟨?_, ih (fun x hx => hlen x (List.mem_cons_of_mem _ hx))
        hchain', ?_⟩
      · cases op with
        | insert v a =>
            refine noDelIns_of_no_del ?_
            intro x hx
            obtain ⟨e, _, rfl⟩ := List.mem_map.mp hx
            simp
        | retain c a =>
            refine noDelIns_of_no_del ?_
            intro x hx
            rw [(List.mem_replicate.mp hx).2]
            simp
        | delete c =>
            refine noDelIns_of_no_ins ?_
            intro x hx
            rw [(List.mem_replicate.mp hx).2]
            simp [Atom.isIns]
      · intro x hx y hy hdel
        have hxmem : x ∈ atomOp op := List.mem_of_mem_getLast? hx
        cases op with
        | insert v a =>
            obtain ⟨e, _, he⟩ := List.mem_map.mp hxmem
            rw [← he] at hdel
            cases hdel
        | retain c a =>
            rw [(List.mem_replicate.mp hxmem).2] at hdel
            cases hdel
        | delete c =>
            cases rest with
            | nil => simp [atomsL_nil] at hy
            | cons op2 rest2 =>
                rw [atomsL_cons, List.head?_append_of_ne_nil _
                  (atomOp_ne_nil (hlen op2 (by simp)))] at hy
                refine head_atomOp_not_ins ?_ y hy
                intro hins
                exact hpair op2 (by simp) ⟨by simp [Op.isDelete], hins⟩

theorem reorder_eq_self_of_noDelIns {α β : Type} :
    ∀ {s : List (Atom α β)}, noDelIns s → reorder s = s := by
  intro s
  induction s with
  | nil => intro _; rfl
  | cons a t ih =>
      intro h
      obtain ⟨hpair, ht⟩ := List.chain'_cons'.mp h
      rw [reorder_cons, ih ht]
      cases a with
      | aIns e at1 => rfl
      | aRet at1 => rfl
      | aDel =>
          show pushDelRight t = Atom.aDel :: t
          exact pushDelRight_not_ins (fun x hx => hpair x hx rfl)

theorem dropBareRev_eq_self {α β : Type} {m : List (Atom α β)}
    (h : ∀ x ∈ m.head?, x ≠ Atom.aRet none) : dropBareRev m = m := by
  match m, h with
  | [], _ => rfl
  | Atom.aIns e a :: rest, _ => rfl
  | Atom.aRet (some x) :: rest, _ => rfl
  | Atom.aRet none :: rest, h =>
      exact absurd rfl (h (Atom.aRet none) (by simp))
  | Atom.aDel :: rest, _ => rfl

/-- The atom stream of a canonical, chopped delta is already in normal
form. -/
theorem nfa_atomsL_of_canonical {α β : Type} {rev : List (Op α β)}
    (hc : CanonRev rev) (hh : headNotBareRetain rev) :
    nfa (atomsL rev.reverse) = atomsL rev.reverse := by
  obtain ⟨hlen, hchain, _, _⟩ := canonicalOps_of_canonRev hc hh
  have hre : reorder (atomsL rev.reverse) = atomsL rev.reverse :=
    reorder_eq_self_of_noDelIns (noDelIns_atomsL rev.reverse hlen hchain)
  have hdb : dropBare (atomsL rev.reverse) = atomsL rev.reverse := by
    unfold dropBare
    rw [dropBareRev_eq_self, List.reverse_reverse]
    intro x hx
    cases rev with
    | nil => simp [atomsL_nil] at hx
    | cons op rest =>
        have hrev : (op :: rest).reverse = rest.reverse ++ [op] :=
          List.reverse_cons op rest
        rw [hrev, atomsL_append] at hx
        have hop : atomOp op ≠ [] := by
          refine atomOp_ne_nil ?_
          have := hc.head_ok.1
          omega
        rw [List.reverse_append, List.head?_append_of_ne_nil _ (by
          simp only [atomsL_cons, atomsL_nil, List.append_nil, ne_eq,
            List.reverse_eq_nil_iff]
          exact hop)] at hx
        have hmem : x ∈ atomOp op := by
          have h1 := List.mem_of_mem_head? hx
          simp only [atomsL_cons, atomsL_nil, List.append_nil,
            List.mem_reverse] at h1
          exact h1
        cases op with
        | insert v a =>
            obtain ⟨e, _, he⟩ := List.mem_map.mp hmem
            rw [← he]
            simp
        | retain c a =>
            cases a with
            | none => exact absurd hh (by simp [headNotBareRetain])
            | some w =>
                rw [(List.mem_replicate.mp hmem).2]
                simp
        | delete c =>
            rw [(List.mem_replicate.mp hmem).2]
            simp
  show dropBare (reorder (atomsL rev.reverse)) = _
  rw [hre, hdb]

/-- The unit op corresponding to one atom. -/
def opOfAtom {α β : Type} : Atom α β → Op α β
  | Atom.aIns e a => Op.insert [e] a
  | Atom.aRet a => Op.retain 1 a
  | Atom.aDel => Op.delete 1

theorem foldl_push_ins_acc {α β : Type} [DecidableEq β] (a : Option β) :
    ∀ (w acc : List α) (rest : List (Op α β)),
      ((w.map (fun e => Op.insert [e] a)).foldl pushRev
        (Op.insert acc a :: rest)) = Op.insert (acc ++ w) a :: rest := by
  intro w
  induction w with
  | nil =>
      intro acc rest
      simp
  | cons e w' ih =>
      intro acc rest
      rw [List.map_cons, List.foldl_cons,
        pushRev_ii_merge rest (by simp) rfl, ih]
      simp

theorem foldl_push_ret_acc {α β : Type} [DecidableEq β] (a : Option β) :
    ∀ (k j : Nat) (rest : List (Op α β)), 0 < j → j + k ≤ usizeMax →
      ((List.replicate k (Op.retain 1 a : Op α β)).foldl pushRev
        (Op.retain j a :: rest)) = Op.retain (j + k) a :: rest := by
  intro k
  induction k with
  | zero =>
      intro j rest _ _
      simp
  | succ m ih =>
      intro j rest hj hjk
      have hjm : j + 1 + m = j + (m + 1) := by omega
      rw [List.replicate_succ, List.foldl_cons,
        pushRev_rr_merge rest (by omega) rfl (by omega),
        ih (j + 1) rest (by omega) (by omega), hjm]

theorem foldl_push_del_acc {α β : Type} [DecidableEq β] :
    ∀ (k j : Nat) (rest : List (Op α β)), 0 < j → j + k ≤ usizeMax →
      ((List.replicate k (Op.delete 1 : Op α β)).foldl pushRev
        (Op.delete j :: rest)) = Op.delete (j + k) :: rest := by
  intro k
  induction k with
  | zero =>
      intro j rest _ _
      simp
  | succ m ih =>
      intro j rest hj hjk
      have hjm : j + 1 + m = j + (m + 1) := by omega
      rw [List.replicate_succ, List.foldl_cons,
        pushRev_dd_merge rest (by omega) (by omega),
        ih (j + 1) rest (by omega) (by omega), hjm]

/-- Pushing the unit ops of one canonical op's atoms onto a canonical tail
reproduces exactly that op on top of the tail. -/
theorem foldl_push_atomOp {α β : Type} [DecidableEq β] {op : Op α β}
    {rest : List (Op α β)} (hok : ∀ y ∈ rest.head?, okPair op y)
    (hlen : 0 < op.len) (hb : op.bounded) :
    ((atomOp op).map opOfAtom).foldl pushRev rest = op :: rest := by
  cases op with
  | insert v a =>
      cases v with
      | nil => simp [Op.len] at hlen
      | cons e v' =>
          have hmap : (atomOp (Op.insert (e :: v') a)).map opOfAtom =
              (e :: v').map (fun x => Op.insert [x] a) := by
            simp [atomOp, opOfAtom, Function.comp]
          rw [hmap, List.map_cons, List.foldl_cons]
          have hstep : pushRev rest (Op.insert [e] a) =
              Op.insert [e] a :: rest := by
            cases rest with
            | nil => exact pushRev_nil (by simp [Op.len])
            | cons r0 rest' =>
                have hok0 := hok r0 (by simp)
                cases r0 with
                | insert li la =>
                    exact pushRev_ii_app rest' (by simp)
                      (fun hla => hok0 hla.symm)
                | retain lr la => exact pushRev_ri rest' (by simp)
                | delete ld => exact absurd hok0 (by simp [okPair])
          rw [hstep, foldl_push_ins_acc a v' [e] rest]
          simp
  | retain c a =>
      cases c with
      | zero => simp [Op.len] at hlen
      | succ c' =>
          have hmap : (atomOp (Op.retain (c' + 1) a)).map opOfAtom =
              (List.replicate (c' + 1) (Op.retain 1 a) : List (Op α β)) := by
            simp [atomOp, opOfAtom, List.map_replicate]
          have hcb : c' + 1 ≤ usizeMax := hb
          have h1c : 1 + c' = c' + 1 := by omega
          rw [hmap, List.replicate_succ, List.foldl_cons]
          cases rest with
          | nil =>
              rw [pushRev_nil (by simp [Op.len]),
                foldl_push_ret_acc a c' 1 [] (by omega) (by omega), h1c]
          | cons r0 rest' =>
              have hok0 := hok r0 (by simp)
              cases r0 with
              | insert li la =>
                  rw [pushRev_ir rest' (by simp),
                    foldl_push_ret_acc a c' 1 (Op.insert li la :: rest')
                      (by omega) (by omega), h1c]
              | retain lr la =>
                  by_cases hla : la = a
                  · have hmax : lr = usizeMax := hok0 hla.symm
                    rw [pushRev_rr_over rest' (by simp) hla (by
                        rw [hmax]
                        simp only [usizeMax]
                        omega)]
                    have hmod : (lr + 1) % 2 ^ 64 + 1 = 1 := by
                      rw [hmax]
                      simp only [usizeMax]
                      omega
                    rw [hmod, foldl_push_ret_acc a c' 1 _ (by omega)
                      (by omega), h1c, hmax]
                  · rw [pushRev_rr_app rest' (by simp) hla,
                      foldl_push_ret_acc a c' 1 _ (by omega) (by omega), h1c]
              | delete ld =>
                  rw [pushRev_dr rest' (by simp),
                    foldl_push_ret_acc a c' 1 _ (by omega) (by omega), h1c]
  | delete c =>
      cases c with
      | zero => simp [Op.len] at hlen
      | succ c' =>
          have hmap : (atomOp (Op.delete (c' + 1) : Op α β)).map opOfAtom =
              (List.replicate (c' + 1) (Op.delete 1) : List (Op α β)) := by
            simp [atomOp, opOfAtom, List.map_replicate]
          have hcb : c' + 1 ≤ usizeMax := hb
          have h1c : 1 + c' = c' + 1 := by omega
          rw [hmap, List.replicate_succ, List.foldl_cons]
          cases rest with
          | nil =>
              rw [pushRev_nil (by simp [Op.len]),
                foldl_push_del_acc c' 1 [] (by omega) (by omega), h1c]
          | cons r0 rest' =>
              have hok0 := hok r0 (by simp)
              cases r0 with
              | insert li la =>
                  have hstep : pushRev (Op.insert li la :: rest')
                      (Op.delete 1) = Op.delete 1 :: Op.insert li la ::
                        rest' := pushRev_id rest' (by simp)
                  rw [hstep,
                    foldl_push_del_acc c' 1 _ (by omega) (by omega), h1c]
              | retain lr la =>
                  rw [pushRev_rd rest' (by simp),
                    foldl_push_del_acc c' 1 _ (by omega) (by omega), h1c]
              | delete ld =>
                  have hmax : ld = usizeMax := hok0
                  rw [pushRev_dd_over rest' (by simp) (by
                      rw [hmax]
                      simp only [usizeMax]
                      omega)]
                  have hmod : (ld + 1) % 2 ^ 64 + 1 = 1 := by
                    rw [hmax]
                    simp only [usizeMax]
                    omega
                  rw [hmod,
                    foldl_push_del_acc c' 1 _ (by omega) (by omega), h1c,
                    hmax]

/-- Rebuilding a canonical delta by pushing the unit ops of its atoms one at
a time reproduces it exactly. -/
theorem atomsL_rebuild {α β : Type} [DecidableEq β] :
    ∀ {rev : List (Op α β)}, CanonRev rev →
      ((atomsL rev.reverse).map opOfAtom).foldl pushRev [] = rev := by
  intro rev
  induction rev with
  | nil =>
      intro _
      rfl
  | cons op rest ih =>
      intro hc
      rw [List.reverse_cons, atomsL_append, List.map_append,
        List.foldl_append, ih hc.tail]
      have hsingle : atomsL [op] = atomOp op := by
        simp [atomsL_cons, atomsL_nil]
      rw [hsingle]
      exact foldl_push_atomOp hc.head_pair hc.head_ok.1 hc.head_ok.2

/-- Two canonical op lists with the same atom stream are equal. -/
theorem atomsL_inj {α β : Type} [DecidableEq β]
    {rev1 rev2 : List (Op α β)} (h1 : CanonRev rev1) (h2 : CanonRev rev2)
    (h : atomsL rev1.reverse = atomsL rev2.reverse) : rev1 = rev2 := by
  rw [← atomsL_rebuild h1, ← atomsL_rebuild h2, h]

/-- Every op emitted or left over by the compose loop is
`usize`-representable whenever the inputs are: no compose arm grows a
count. -/
theorem composeList_bounded {α β : Type} (acomp : β → β → β) :
    ∀ l1 l2 : List (Op α β), (∀ op ∈ l1, op.bounded) →
      (∀ op ∈ l2, op.bounded) →
      (∀ op ∈ (composeList acomp l1 l2).1, op.bounded) ∧
      (∀ op ∈ (composeList acomp l1 l2).2.1, op.bounded) ∧
      (∀ op ∈ (composeList acomp l1 l2).2.2, op.bounded) := by
  intro l1 l2
  induction l1, l2 using composeList.induct acomp with
  | case1 l2 =>
      intro _ h2
      simp only [composeList]
      exact ⟨by simp, by simp, h2⟩
  | case2 l1 hne =>
      intro h1 _
      rw [composeList.eq_2 acomp l1 hne]
      exact ⟨by simp, h1, by simp⟩
  | case3 a as i ia bs ih =>
      intro h1 h2
      simp only [composeList] at ih ⊢
      have h2' : ∀ op ∈ bs, op.bounded := fun op hop => h2 op (by simp [hop])
      obtain ⟨hout, hl1, hl2⟩ := ih h1 h2'
      refine ⟨?_, hl1, hl2⟩
      intro op hop
      rcases List.mem_cons.mp hop with rfl | hop
      · exact h2 _ (by simp)
      · exact hout op hop
  | case4 i ia as r ra bs m ih =>
      intro h1 h2
      simp only [composeList] at ih ⊢
      have hr := h2 _ (List.mem_cons_self _ _)
      simp only [Op.bounded] at hr
      have hc1 : ∀ op ∈ consOp (Op.insert (List.drop (i.length ⊓ r) i) ia)
          as, op.bounded := by
        intro op hop
        rcases mem_consOp hop with rfl | hop
        · simp only [Op.bounded]
        · exact h1 op (by simp [hop])
      have hc2 : ∀ op ∈ consOp (Op.retain (r - i.length ⊓ r) ra) bs,
          op.bounded := by
        intro op hop
        rcases mem_consOp hop with rfl | hop
        · simp only [Op.bounded]
          omega
        · exact h2 op (by simp [hop])
      obtain ⟨hout, hl1, hl2⟩ := ih hc1 hc2
      refine ⟨?_, hl1, hl2⟩
      intro op hop
      rcases List.mem_cons.mp hop with rfl | hop
      · simp only [Op.bounded]
      · exact hout op hop
  | case5 i ia as d bs m ih =>
      intro h1 h2
      simp only [composeList] at ih ⊢
      have hd := h2 _ (List.mem_cons_self _ _)
      simp only [Op.bounded] at hd
      have hc1 : ∀ op ∈ consOp (Op.insert (List.drop (i.length ⊓ d) i) ia)
          as, op.bounded := by
        intro op hop
        rcases mem_consOp hop with rfl | hop
        · simp only [Op.bounded]
        · exact h1 op (by simp [hop])
      have hc2 : ∀ op ∈ consOp (Op.delete (d - i.length ⊓ d)) bs,
          op.bounded := by
        intro op hop
        rcases mem_consOp hop with rfl | hop
        · simp only [Op.bounded]
          omega
        · exact h2 op (by simp [hop])
      obtain ⟨hout, hl1, hl2⟩ := ih hc1 hc2
      refine ⟨?_, hl1, hl2⟩
      intro op hop
      rcases List.mem_cons.mp hop with rfl | hop
      · simp only [Op.bounded]
        omega
      · exact hout op hop
  | case6 r1 a1 as r2 a2 bs m ih =>
      intro h1 h2
      simp only [composeList] at ih ⊢
      have h1h := h1 _ (List.mem_cons_self _ _)
      have h2h := h2 _ (List.mem_cons_self _ _)
      simp only [Op.bounded] at h1h h2h
      have hc1 : ∀ op ∈ consOp (Op.retain (r1 - r1 ⊓ r2) a1) as,
          op.bounded := by
        intro op hop
        rcases mem_consOp hop with rfl | hop
        · simp only [Op.bounded]
          omega
        · exact h1 op (by simp [hop])
      have hc2 : ∀ op ∈ consOp (Op.retain (r2 - r1 ⊓ r2) a2) bs,
          op.bounded := by
        intro op hop
        rcases mem_consOp hop with rfl | hop
        · simp only [Op.bounded]
          omega
        · exact h2 op (by simp [hop])
      obtain ⟨hout, hl1, hl2⟩ := ih hc1 hc2
      refine ⟨?_, hl1, hl2⟩
      intro op hop
      rcases List.mem_cons.mp hop with rfl | hop
      · simp only [Op.bounded]
        omega
      · exact hout op hop
  | case7 r1 a1 as d bs m ih =>
      intro h1 h2
      simp only [composeList] at ih ⊢
      have h1h := h1 _ (List.mem_cons_self _ _)
      have h2h := h2 _ (List.mem_cons_self _ _)
      simp only [Op.bounded] at h1h h2h
      have hc1 : ∀ op ∈ consOp (Op.retain (r1 - r1 ⊓ d) a1) as,
          op.bounded := by
        intro op hop
        rcases mem_consOp hop with rfl | hop
        · simp only [Op.bounded]
          omega
        · exact h1 op (by simp [hop])
      have hc2 : ∀ op ∈ consOp (Op.delete (d - r1 ⊓ d)) bs, op.bounded := by
        intro op hop
        rcases mem_consOp hop with rfl | hop
        · simp only [Op.bounded]
          omega
        · exact h2 op (by simp [hop])
      obtain ⟨hout, hl1, hl2⟩ := ih hc1 hc2
      refine ⟨?_, hl1, hl2⟩
      intro op hop
      rcases List.mem_cons.mp hop with rfl | hop
      · simp only [Op.bounded]
        omega
      · exact hout op hop
  | case8 d1 as r2 a2 bs ih =>
      intro h1 h2
      simp only [composeList] at ih ⊢
      obtain ⟨hout, hl1, hl2⟩ := ih (fun op hop => h1 op (by simp [hop])) h2
      refine ⟨?_, hl1, hl2⟩
      intro op hop
      rcases List.mem_cons.mp hop with rfl | hop
      · exact h1 _ (by simp)
      · exact hout op hop
  | case9 d1 as d2 bs ih =>
      intro h1 h2
      simp only [composeList] at ih ⊢
      obtain ⟨hout, hl1, hl2⟩ := ih (fun op hop => h1 op (by simp [hop])) h2
      refine ⟨?_, hl1, hl2⟩
      intro op hop
      rcases List.mem_cons.mp hop with rfl | hop
      · exact h1 _ (by simp)
      · exact hout op hop

/-- The result of compose is canonical and chopped, assuming only
`usize`-representable inputs. -/
theorem compose_canonRev_of_bounded {α β : Type} [DecidableEq β]
    (acomp : β → β → β) (a b : Delta α β) (ha : ∀ op ∈ a.ops, op.bounded)
    (hb : ∀ op ∈ b.ops, op.bounded) :
    CanonRev (a.compose acomp b).rev ∧
    headNotBareRetain (a.compose acomp b).rev := by
  obtain ⟨h1, h2, h3⟩ := composeList_bounded acomp a.ops b.ops ha hb
  rw [Delta.compose_rev]
  constructor
  · exact canonRev_chopRev (canonRev_foldl (canonRev_foldl (canonRev_foldl
      canonRev_nil h1) h2) h3)
  · exact chopRev_head _

theorem Delta.extend_append {α β : Type} [DecidableEq β] (d : Delta α β)
    (l1 l2 : List (Op α β)) :
    d.extend (l1 ++ l2) = (d.extend l1).extend l2 := by
  simp [Delta.extend, List.foldl_append]

theorem Delta.compose_eq_extend {α β : Type} [DecidableEq β]
    (acomp : β → β → β) (a b : Delta α β) :
    a.compose acomp b = (Delta.new.extend
      ((composeList acomp a.ops b.ops).1 ++
        ((composeList acomp a.ops b.ops).2.1 ++
          (composeList acomp a.ops b.ops).2.2))).chop := by
  simp only [Delta.compose, Delta.extend_append]

theorem Delta.transform_eq_extend {α β : Type} [DecidableEq β]
    (a b : Delta α β) (priority : Bool) :
    a.transform b priority = (Delta.new.extend
      ((transformList priority a.ops b.ops).1 ++
        (transformList priority a.ops b.ops).2)).chop := by
  simp only [Delta.transform, Delta.extend_append]

theorem canon_ops_len_ne_zero {α β : Type} {d : Delta α β}
    (h : CanonRev d.rev) : ∀ op ∈ d.ops, op.len ≠ 0 := by
  intro op hop
  have := (h.1 op (List.mem_reverse.mp hop)).1
  omega

theorem canon_ops_bounded {α β : Type} {d : Delta α β}
    (h : CanonRev d.rev) : ∀ op ∈ d.ops, op.bounded :=
  fun op hop => (h.1 op (List.mem_reverse.mp hop)).2

/-- The normal form of a composed delta's atom stream is the normal form of
the atom-level compose of the inputs' atom streams. -/
theorem nfa_delta_compose {α β : Type} [DecidableEq β] (acomp : β → β → β)
    (a b : Delta α β) (hab : ∀ op ∈ a.ops, op.bounded)
    (hbb : ∀ op ∈ b.ops, op.bounded) (haz : ∀ op ∈ a.ops, op.len ≠ 0)
    (hbz : ∀ op ∈ b.ops, op.len ≠ 0) :
    nfa (atomsL (a.compose acomp b).ops) =
      nfa (aCompose acomp (atomsL a.ops) (atomsL b.ops)) := by
  obtain ⟨h1, h2, h3⟩ := composeList_bounded acomp a.ops b.ops hab hbb
  rw [Delta.compose_eq_extend, nfa_extend_chop _ (by
    intro op hop
    rcases List.mem_append.mp hop with h | h
    · exact h1 op h
    · rcases List.mem_append.mp h with h | h
      · exact h2 op h
      · exact h3 op h)]
  rw [atomsL_append, atomsL_append, ← List.append_assoc,
    atomsL_composeList acomp a.ops b.ops haz hbz]

/-- The normal form of a transformed delta's atom stream is the normal form
of the atom-level transform of the inputs' atom streams. -/
theorem nfa_delta_transform {α β : Type} [DecidableEq β]
    (a b : Delta α β) (priority : Bool) (has : ∀ op ∈ a.ops, op.sized)
    (hbs : ∀ op ∈ b.ops, op.sized) (haz : ∀ op ∈ a.ops, op.len ≠ 0)
    (hbz : ∀ op ∈ b.ops, op.len ≠ 0) :
    nfa (atomsL (a.transform b priority).ops) =
      nfa (aTransform priority (atomsL a.ops) (atomsL b.ops)) := by
  obtain ⟨h1, h2⟩ := transformList_sized priority a.ops b.ops has hbs
  rw [Delta.transform_eq_extend, nfa_extend_chop _ (by
    intro op hop
    rcases List.mem_append.mp hop with h | h
    · exact (h1 op h).bounded
    · exact (h2 op h).bounded)]
  rw [atomsL_append, atomsL_transformList priority a.ops b.ops haz hbz]

/-- C1: the OT convergence law at the delta level.  For deltas built through
the public builder whose op lengths are `usize`-representable, and for a
last-write-wins attribute algebra (the crate's `LastWriteWins`, whose
`Compose` returns the right operand), composing the transformed streams onto
either branch of the diamond yields identical deltas:
`compose(compose(base, alice), transform(alice, bob, true)) =
 compose(compose(base, bob), transform(bob, alice, false))`. -/
theorem claim_C1 {α β : Type} [DecidableEq β] (acomp : β → β → β)
    (hacomp : ∀ x y : β, acomp x y = y) (base alice bob : Delta α β)
    (hbase : base.Built) (halice : alice.Built) (hbob : bob.Built)
    (hsal : ∀ op ∈ alice.ops, op.sized) (hsbo : ∀ op ∈ bob.ops, op.sized) :
    (base.compose acomp alice).compose acomp (alice.transform bob true) =
      (base.compose acomp bob).compose acomp (bob.transform alice false) := by
  have hbb : ∀ op ∈ base.ops, op.bounded := canon_ops_bounded hbase.canon
  have hbz : ∀ op ∈ base.ops, op.len ≠ 0 := canon_ops_len_ne_zero hbase.canon
  have hab : ∀ op ∈ alice.ops, op.bounded := canon_ops_bounded halice.canon
  have haz : ∀ op ∈ alice.ops, op.len ≠ 0 :=
    canon_ops_len_ne_zero halice.canon
  have hob : ∀ op ∈ bob.ops, op.bounded := canon_ops_bounded hbob.canon
  have hoz : ∀ op ∈ bob.ops, op.len ≠ 0 := canon_ops_len_ne_zero hbob.canon
  have hC1 := compose_canonRev_of_bounded acomp base alice hbb hab
  have hC2 := compose_canonRev_of_bounded acomp base bob hbb hob
  have hT1 := transform_canonRev alice bob true hsal hsbo
  have hT2 := transform_canonRev bob alice false hsbo hsal
  have hL := compose_canonRev_of_bounded acomp (base.compose acomp alice)
    (alice.transform bob true) (canon_ops_bounded hC1.1)
    (canon_ops_bounded hT1.1)
  have hR := compose_canonRev_of_bounded acomp (base.compose acomp bob)
    (bob.transform alice false) (canon_ops_bounded hC2.1)
    (canon_ops_bounded hT2.1)
  refine Delta.eq_of_rev_eq (atomsL_inj hL.1 hR.1 ?_)
  have hops : ∀ d : Delta α β, d.rev.reverse = d.ops := fun _ => rfl
  rw [← nfa_atomsL_of_canonical hL.1 hL.2,
    ← nfa_atomsL_of_canonical hR.1 hR.2, hops, hops]
  calc nfa (atomsL ((base.compose acomp alice).compose acomp
        (alice.transform bob true)).ops)
      = nfa (aCompose acomp (atomsL (base.compose acomp alice).ops)
          (atomsL (alice.transform bob true).ops)) :=
        nfa_delta_compose acomp _ _ (canon_ops_bounded hC1.1)
          (canon_ops_bounded hT1.1) (canon_ops_len_ne_zero hC1.1)
          (canon_ops_len_ne_zero hT1.1)
    _ = nfa (aCompose acomp (atomsL (base.compose acomp alice).ops)
          (aTransform true (atomsL alice.ops) (atomsL bob.ops))) :=
        nfa_aCompose_congr_right acomp _
          (nfa_delta_transform alice bob true hsal hsbo haz hoz)
    _ = nfa (aCompose acomp
          (aCompose acomp (atomsL base.ops) (atomsL alice.ops))
          (aTransform true (atomsL alice.ops) (atomsL bob.ops))) :=
        nfa_aCompose_congr_left acomp
          (nfa_delta_compose acomp base alice hbb hab hbz haz) _
    _ = nfa (aCompose acomp (atomsL base.ops)
          (aCompose acomp (atomsL alice.ops)
            (aTransform true (atomsL alice.ops) (atomsL bob.ops)))) := by
        rw [aCompose_assoc hacomp ((atomsL base.ops).length +
          (atomsL alice.ops).length +
          (aTransform true (atomsL alice.ops) (atomsL bob.ops)).length)
          (atomsL base.ops) (atomsL alice.ops)
          (aTransform true (atomsL alice.ops) (atomsL bob.ops))
          (le_refl _)]
    _ = nfa (aCompose acomp (atomsL base.ops)
          (aCompose acomp (atomsL bob.ops)
            (aTransform false (atomsL bob.ops) (atomsL alice.ops)))) :=
        nfa_aCompose_congr_right acomp _
          (nfa_diamond hacomp ((atomsL alice.ops).length +
            (atomsL bob.ops).length) (atomsL alice.ops) (atomsL bob.ops)
            (le_refl _))
    _ = nfa (aCompose acomp
          (aCompose acomp (atomsL base.ops) (atomsL bob.ops))
          (aTransform false (atomsL bob.ops) (atomsL alice.ops))) := by
        rw [aCompose_assoc hacomp ((atomsL base.ops).length +
          (atomsL bob.ops).length +
          (aTransform false (atomsL bob.ops) (atomsL alice.ops)).length)
          (atomsL base.ops) (atomsL bob.ops)
          (aTransform false (atomsL bob.ops) (atomsL alice.ops))
          (le_refl _)]
    _ = nfa (aCompose acomp (atomsL (base.compose acomp bob).ops)
          (aTransform false (atomsL bob.ops) (atomsL alice.ops))) :=
        (nfa_aCompose_congr_left acomp
          (nfa_delta_compose acomp base bob hbb hob hbz hoz) _).symm
    _ = nfa (aCompose acomp (atomsL (base.compose acomp bob).ops)
          (atomsL (bob.transform alice false).ops)) :=
        (nfa_aCompose_congr_right acomp _
          (nfa_delta_transform bob alice false hsbo hsal hoz haz)).symm
    _ = nfa (atomsL ((base.compose acomp bob).compose acomp
          (bob.transform alice false)).ops) :=
        (nfa_delta_compose acomp _ _ (canon_ops_bounded hC2.1)
          (canon_ops_bounded hT2.1) (canon_ops_len_ne_zero hC2.1)
          (canon_ops_len_ne_zero hT2.1)).symm

/-- Witness for C1 at a concrete diamond: base inserts "doc", Alice appends
"!" with an attribute, Bob deletes the first character and inserts "B", under
the crate's `LastWriteWins` attribute algebra. -/
theorem claim_C1_witness :
    (∀ x y : Nat, lwwNat x y = y) ∧
    ((Delta.new : Delta Char Nat).insert ['d', 'o', 'c'] none).Built ∧
    ((Delta.new : Delta Char Nat).retain 3 none
      |>.insert ['!'] (some 1)).Built ∧
    ((Delta.new : Delta Char Nat).delete 1
      |>.insert ['B'] (some 2)).Built ∧
    (∀ op ∈ ((Delta.new : Delta Char Nat).retain 3 none
      |>.insert ['!'] (some 1)).ops, op.sized) ∧
    (∀ op ∈ ((Delta.new : Delta Char Nat).delete 1
      |>.insert ['B'] (some 2)).ops, op.sized) ∧
    ((((Delta.new : Delta Char Nat).insert ['d', 'o', 'c'] none).compose
        lwwNat ((Delta.new : Delta Char Nat).retain 3 none
          |>.insert ['!'] (some 1))).compose lwwNat
      (((Delta.new : Delta Char Nat).retain 3 none
        |>.insert ['!'] (some 1)).transform
        ((Delta.new : Delta Char Nat).delete 1
          |>.insert ['B'] (some 2)) true) =
     (((Delta.new : Delta Char Nat).insert ['d', 'o', 'c'] none).compose
        lwwNat ((Delta.new : Delta Char Nat).delete 1
          |>.insert ['B'] (some 2))).compose lwwNat
      (((Delta.new : Delta Char Nat).delete 1
        |>.insert ['B'] (some 2)).transform
        ((Delta.new : Delta Char Nat).retain 3 none
          |>.insert ['!'] (some 1)) false)) := by
  have hacomp : ∀ x y : Nat, lwwNat x y = y := fun _ _ => rfl
  have hbase : ((Delta.new : Delta Char Nat).insert
      ['d', 'o', 'c'] none).Built :=
    ⟨[Op.insert ['d', 'o', 'c'] none], by decide, rfl⟩
  have halice : ((Delta.new : Delta Char Nat).retain 3 none
      |>.insert ['!'] (some 1)).Built :=
    ⟨[Op.retain 3 none, Op.insert ['!'] (some 1)], by decide, rfl⟩
  have hbob : ((Delta.new : Delta Char Nat).delete 1
      |>.insert ['B'] (some 2)).Built :=
    ⟨[Op.delete 1, Op.insert ['B'] (some 2)], by decide, rfl⟩
  have hsal : ∀ op ∈ ((Delta.new : Delta Char Nat).retain 3 none
      |>.insert ['!'] (some 1)).ops, op.sized := by decide
  have hsbo : ∀ op ∈ ((Delta.new : Delta Char Nat).delete 1
      |>.insert ['B'] (some 2)).ops, op.sized := by decide
  exact ⟨hacomp, hbase, halice, hbob, hsal, hsbo,
    claim_C1 lwwNat hacomp _ _ _ hbase halice hbob hsal hsbo⟩

/-- Counterexample to C1 as literally stated, i.e. quantified over every
attribute `Compose` algebra: with a first-write-wins attribute compose the
diamond does not close.  Base retains one character bare, Alice retains it
with attribute 1, Bob with attribute 2; the left branch keeps Alice's
attribute while the right branch keeps Bob's. -/
theorem claim_C1_counterexample :
    ∃ acomp : Nat → Nat → Nat,
      (((Delta.new : Delta Char Nat).retain 1 none).compose acomp
          ((Delta.new : Delta Char Nat).retain 1 (some 1))).compose acomp
        (((Delta.new : Delta Char Nat).retain 1 (some 1)).transform
          ((Delta.new : Delta Char Nat).retain 1 (some 2)) true) ≠
      (((Delta.new : Delta Char Nat).retain 1 none).compose acomp
          ((Delta.new : Delta Char Nat).retain 1 (some 2))).compose acomp
        (((Delta.new : Delta Char Nat).retain 1 (some 2)).transform
          ((Delta.new : Delta Char Nat).retain 1 (some 1)) false) := by
  refine ⟨fun x _ => x, ?_⟩
  have hbase : ((Delta.new : Delta Char Nat).retain 1 none) =
      ⟨[Op.retain 1 none]⟩ := rfl
  have halice : ((Delta.new : Delta Char Nat).retain 1 (some 1)) =
      ⟨[Op.retain 1 (some 1)]⟩ := rfl
  have hbob : ((Delta.new : Delta Char Nat).retain 1 (some 2)) =
      ⟨[Op.retain 1 (some 2)]⟩ := rfl
  rw [hbase, halice, hbob]
  have hC1 : ((⟨[Op.retain 1 none]⟩ : Delta Char Nat).compose (fun x _ => x)
      ⟨[Op.retain 1 (some 1)]⟩) = ⟨[Op.retain 1 (some 1)]⟩ := by
    simp [Delta.compose, Delta.ops, Delta.extend, Delta.chop, Delta.new,
      composeList, consOp, Op.len, ocompose, pushRev, chopRev, usizeMax]
  have hC2 : ((⟨[Op.retain 1 none]⟩ : Delta Char Nat).compose (fun x _ => x)
      ⟨[Op.retain 1 (some 2)]⟩) = ⟨[Op.retain 1 (some 2)]⟩ := by
    simp [Delta.compose, Delta.ops, Delta.extend, Delta.chop, Delta.new,
      composeList, consOp, Op.len, ocompose, pushRev, chopRev, usizeMax]
  have hT1 : ((⟨[Op.retain 1 (some 1)]⟩ : Delta Char Nat).transform
      ⟨[Op.retain 1 (some 2)]⟩ true) = ⟨[Op.retain 1 (some 1)]⟩ := by
    simp [Delta.transform, Delta.ops, Delta.extend, Delta.chop, Delta.new,
      transformList, consOp, Op.len, oor, pushRev, chopRev, usizeMax]
  have hT2 : ((⟨[Op.retain 1 (some 2)]⟩ : Delta Char Nat).transform
      ⟨[Op.retain 1 (some 1)]⟩ false) = ⟨[Op.retain 1 (some 1)]⟩ := by
    simp [Delta.transform, Delta.ops, Delta.extend, Delta.chop, Delta.new,
      transformList, consOp, Op.len, oor, pushRev, chopRev, usizeMax]
  rw [hC1, hC2, hT1, hT2]
  have hL : ((⟨[Op.retain 1 (some 1)]⟩ : Delta Char Nat).compose
      (fun x _ => x) ⟨[Op.retain 1 (some 1)]⟩) =
        ⟨[Op.retain 1 (some 1)]⟩ := by
    simp [Delta.compose, Delta.ops, Delta.extend, Delta.chop, Delta.new,
      composeList, consOp, Op.len, ocompose, pushRev, chopRev, usizeMax]
  have hR : ((⟨[Op.retain 1 (some 2)]⟩ : Delta Char Nat).compose
      (fun x _ => x) ⟨[Op.retain 1 (some 1)]⟩) =
        ⟨[Op.retain 1 (some 2)]⟩ := by
    simp [Delta.compose, Delta.ops, Delta.extend, Delta.chop, Delta.new,
      composeList, consOp, Op.len, ocompose, pushRev, chopRev, usizeMax]
  rw [hL, hR]
  decide
